import Mathlib

/-!
# Reference memory model (`models/c_reference/src/memory_model.c`)

A shallow embedding of the C reference model: a round-robin TLB in front of a
byte-addressable backing store.

Conventions of the embedding.

* `uint32_t` / `uint64_t` / `size_t` values are natural numbers; every operation
  that can leave the range of its C type is reduced modulo `2 ^ 32` / `2 ^ 64`
  explicitly.  `size_t` is taken to be 64 bits wide (`SIZE_WIDTH`).
* A C pointer argument is a `Ptr α`: `Ptr.null`, or `Ptr.cell v` for a pointer to
  a cell currently holding `v`.  A function that stores through a pointer returns
  the final content of the cell in the same shape.
* The outer `Option` of every result is C undefined behaviour: `none` is returned
  exactly where the C code would index an array out of bounds, shift by at least
  the width of the operand, or (for `ceil_log2_u32`) where its loop has not
  finished after 32 iterations.  `some r` is a normal return.
* The `tlb` and `memory` members of `struct memory_model` are lists (never NULL):
  `memory_model_create` only publishes a model after both allocations succeeded,
  and the struct is opaque to callers.
-/

namespace MemoryModel

/-! ## Data model -/

/-- A C pointer to a cell of type `α`: NULL, or the address of a cell holding `v`. -/
inductive Ptr (α : Type) where
  | null : Ptr α
  | cell (v : α) : Ptr α
deriving DecidableEq

/-- Configuration record `memory_model_config_t` (`memory_model.h`), all fields `uint32_t`. -/
structure memory_model_config_t where
  virt_addr_width : Nat
  phys_addr_width : Nat
  page_size : Nat
  data_width : Nat
  mem_depth : Nat
  tlb_entries : Nat
deriving DecidableEq

/-- Transaction status codes `memory_model_status_t`. -/
inductive memory_model_status_t where
  | MEMORY_MODEL_STATUS_OK
  | MEMORY_MODEL_STATUS_ERR_ADDR
  | MEMORY_MODEL_STATUS_ERR_ACCESS
  | MEMORY_MODEL_STATUS_ERR_WRITE
  | MEMORY_MODEL_STATUS_PENDING
deriving DecidableEq

/-- Management result codes `memory_model_error_t`. -/
inductive memory_model_error_t where
  | MEMORY_MODEL_ERROR_OK
  | MEMORY_MODEL_ERROR_BAD_ARGUMENT
  | MEMORY_MODEL_ERROR_OUT_OF_MEMORY
  | MEMORY_MODEL_ERROR_UNSUPPORTED
deriving DecidableEq

open memory_model_status_t memory_model_error_t

/-- One TLB slot, `struct tlb_entry`. -/
structure tlb_entry where
  valid : Bool
  virt_base : Nat
  phys_base : Nat
deriving DecidableEq

/-- The complete state of an instance, `struct memory_model`.  `memory` holds one
`uint8_t` per element. -/
structure memory_model where
  cfg : memory_model_config_t
  tlb : List tlb_entry
  memory : List Nat
  tlb_write_ptr : Nat
  active_entries : Nat
  bytes_per_word : Nat
  page_offset_bits : Nat
  mem_addr_bits : Nat
  mem_depth_pow2 : Bool
  virt_addr_mask : Nat
  phys_addr_mask : Nat
  page_offset_mask : Nat
  mem_addr_mask : Nat
  data_mask : Nat
deriving DecidableEq

/-- Outcome of the three `calloc` calls of `memory_model_create`, in program order:
`true` when the allocation returned a non-NULL block. -/
structure calloc_results where
  model : Bool
  memory : Bool
  tlb : Bool
deriving DecidableEq

/-! ## Machine arithmetic -/

/-- Width of `size_t` in bits. -/
def SIZE_WIDTH : Nat := 64

/-- Constant `UINT32_MAX`. -/
def UINT32_MAX : Nat := 2 ^ 32 - 1

/-- Constant `UINT64_MAX`. -/
def UINT64_MAX : Nat := 2 ^ 64 - 1

/-- Complement `~x` of a `uint32_t` value. -/
def not_u32 (x : Nat) : Nat := UINT32_MAX ^^^ x

/-- Complement `~x` of a `uint64_t` value. -/
def not_u64 (x : Nat) : Nat := UINT64_MAX ^^^ x

/-- Shift `x << n` on `uint32_t`; undefined when `n ≥ 32`. -/
def shl_u32 (x n : Nat) : Option Nat :=
  if n < 32 then some ((x <<< n) % 2 ^ 32) else none

/-- Shift `x << n` on `uint64_t`; undefined when `n ≥ 64`. -/
def shl_u64 (x n : Nat) : Option Nat :=
  if n < 64 then some ((x <<< n) % 2 ^ 64) else none

/-- Shift `x >> n` on `uint64_t`; undefined when `n ≥ 64`. -/
def shr_u64 (x n : Nat) : Option Nat :=
  if n < 64 then some (x >>> n) else none

/-- Call `memset(p, 0, n)` on a block modelled as a list: the first `n` elements become
`z`; undefined when the block is shorter than `n`. -/
def memset_zero {α : Type} (z : α) (block : List α) (n : Nat) : Option (List α) :=
  if n ≤ block.length then some (List.replicate n z ++ block.drop n) else none

/-! ## Static helpers -/

/-- Function `is_power_of_two` (lines 34-37). -/
def is_power_of_two (value : Nat) : Bool :=
  value != 0 && (value &&& (value - 1)) == 0

/-- The `while (tmp > 0U)` loop of `ceil_log2_u32` (lines 47-50).  The first
argument bounds the number of iterations; `none` means the loop is still running
when the bound is used up. -/
def ceil_log2_u32_loop : Nat → Nat → Nat → Option Nat
  | 0, tmp, width => if tmp > 0 then none else some width
  | fuel + 1, tmp, width =>
    if tmp > 0 then ceil_log2_u32_loop fuel (tmp >>> 1) ((width + 1) % 2 ^ 32)
    else some width

/-- Function `ceil_log2_u32` (lines 39-52); a `uint32_t` has 32 bits, so 32 iterations are
allowed for the loop. -/
def ceil_log2_u32 (value : Nat) : Option Nat :=
  if value ≤ 1 then some 0
  else ceil_log2_u32_loop 32 (value - 1) 0

/-- Function `mask_from_width` (lines 54-63). -/
def mask_from_width (width : Nat) : Nat :=
  if width == 0 then 0
  else if width ≥ 64 then UINT64_MAX
  else (1 <<< width) - 1

/-- Function `byte_mask_for_word` (lines 65-74). -/
def byte_mask_for_word (bytes_per_word : Nat) : Nat :=
  if bytes_per_word == 0 then 0
  else if bytes_per_word ≥ 32 then UINT32_MAX
  else (1 <<< bytes_per_word) - 1

/-- Function `memory_model_config_default` (lines 76-86). -/
def memory_model_config_default : memory_model_config_t :=
  { virt_addr_width := 32
    phys_addr_width := 28
    page_size := 4096
    data_width := 64
    mem_depth := 16384
    tlb_entries := 256 }

/-! ## Operations -/

/-- Function `memory_model_reset` (lines 187-205).  The two `memset` calls clear the first
`total_bytes` bytes of the store and the first `tlb_entries` slots of the table. -/
def memory_model_reset (model : Ptr memory_model) :
    Option (memory_model_error_t × Ptr memory_model) :=
  match model with
  | .null => some (MEMORY_MODEL_ERROR_BAD_ARGUMENT, .null)
  | .cell m =>
    let total_bytes := (m.cfg.mem_depth * m.bytes_per_word) % 2 ^ SIZE_WIDTH
    let memory' :=
      if total_bytes > 0 then memset_zero 0 m.memory total_bytes else some m.memory
    let tlb' :=
      if m.cfg.tlb_entries > 0 then
        memset_zero { valid := false, virt_base := 0, phys_base := 0 } m.tlb m.cfg.tlb_entries
      else some m.tlb
    match memory', tlb' with
    | some memory, some tlb =>
      some (MEMORY_MODEL_ERROR_OK,
        .cell { m with memory := memory, tlb := tlb, tlb_write_ptr := 0, active_entries := 0 })
    | _, _ => none

/-- The sizing check of `memory_model_create` (lines 145-151) for a `size_t` of `w`
bits: `true` when the check sends the function to its `UNSUPPORTED` return. -/
def total_bytes_check (w mem_depth bytes_per_word : Nat) : Bool :=
  let total_bytes := (mem_depth * bytes_per_word) % 2 ^ w
  mem_depth != 0 && bytes_per_word != 0 && (total_bytes / mem_depth != bytes_per_word)

/-- The `mem_addr_mask` selection of `memory_model_create` (lines 135-143). -/
def mem_addr_mask_of (mem_depth_pow2 : Bool) (mem_depth mem_addr_bits : Nat) : Nat :=
  if mem_depth_pow2 && decide (mem_depth > 0) then (mem_depth - 1) % 2 ^ 64
  else if mem_addr_bits ≥ 64 then UINT64_MAX
  else if mem_addr_bits == 0 then 0
  else (1 <<< mem_addr_bits) - 1

/-- The instance as `memory_model_create` has filled it in when it reaches the
implicit reset (lines 120-164): members set from the configuration, both blocks
freshly zeroed by `calloc`. -/
def create_fill (local_cfg : memory_model_config_t) (page_offset_bits mem_addr_bits : Nat) :
    memory_model :=
  let bytes_per_word := (local_cfg.data_width / 8) % 2 ^ 32
  let mem_depth_pow2 := is_power_of_two local_cfg.mem_depth
  let total_bytes := (local_cfg.mem_depth * bytes_per_word) % 2 ^ SIZE_WIDTH
  { cfg := local_cfg
    tlb := List.replicate local_cfg.tlb_entries { valid := false, virt_base := 0, phys_base := 0 }
    memory := List.replicate total_bytes 0
    tlb_write_ptr := 0
    active_entries := 0
    bytes_per_word := bytes_per_word
    page_offset_bits := page_offset_bits
    mem_addr_bits := mem_addr_bits
    mem_depth_pow2 := mem_depth_pow2
    virt_addr_mask := mask_from_width local_cfg.virt_addr_width
    phys_addr_mask := mask_from_width local_cfg.phys_addr_width
    page_offset_mask := mask_from_width page_offset_bits
    mem_addr_mask := mem_addr_mask_of mem_depth_pow2 local_cfg.mem_depth mem_addr_bits
    data_mask := mask_from_width local_cfg.data_width }

/-- Lines 115-173 of `memory_model_create`: everything after the five field checks
(page-offset check, allocations, derived members, sizing check, implicit reset). -/
def create_alloc (local_cfg : memory_model_config_t) (alloc : calloc_results) :
    Option (memory_model_error_t × Ptr (Ptr memory_model)) :=
  match ceil_log2_u32 local_cfg.page_size with
  | none => none
  | some page_offset_bits =>
    if decide (page_offset_bits > local_cfg.virt_addr_width)
        || decide (page_offset_bits > local_cfg.phys_addr_width) then
      some (MEMORY_MODEL_ERROR_BAD_ARGUMENT, .cell .null)
    else if !alloc.model then
      some (MEMORY_MODEL_ERROR_OUT_OF_MEMORY, .cell .null)
    else
      match ceil_log2_u32 local_cfg.mem_depth with
      | none => none
      | some mem_addr_bits =>
        if total_bytes_check SIZE_WIDTH local_cfg.mem_depth ((local_cfg.data_width / 8) % 2 ^ 32) then
          some (MEMORY_MODEL_ERROR_UNSUPPORTED, .cell .null)
        else if !alloc.memory then
          some (MEMORY_MODEL_ERROR_OUT_OF_MEMORY, .cell .null)
        else if !alloc.tlb then
          some (MEMORY_MODEL_ERROR_OUT_OF_MEMORY, .cell .null)
        else
          match memory_model_reset (.cell (create_fill local_cfg page_offset_bits mem_addr_bits)) with
          | none => none
          | some (reset_status, model') =>
            if reset_status != MEMORY_MODEL_ERROR_OK then some (reset_status, .cell .null)
            else some (MEMORY_MODEL_ERROR_OK, .cell model')

/-- Function `memory_model_create` (lines 88-174).  `config` may be NULL (defaults are used);
`model_out` is the caller's handle cell; `alloc` says which `calloc` calls succeed.
The returned pointer is the final content of the handle cell. -/
def memory_model_create (config : Ptr memory_model_config_t)
    (model_out : Ptr (Ptr memory_model)) (alloc : calloc_results) :
    Option (memory_model_error_t × Ptr (Ptr memory_model)) :=
  match model_out with
  | .null => some (MEMORY_MODEL_ERROR_BAD_ARGUMENT, .null)
  | .cell _ =>
    let local_cfg := match config with
      | .cell c => c
      | .null => memory_model_config_default
    if local_cfg.data_width == 0 || local_cfg.data_width % 8 != 0
        || decide (local_cfg.data_width > 64) then
      some (MEMORY_MODEL_ERROR_UNSUPPORTED, .cell .null)
    else if local_cfg.page_size == 0 || !is_power_of_two local_cfg.page_size then
      some (MEMORY_MODEL_ERROR_BAD_ARGUMENT, .cell .null)
    else if local_cfg.mem_depth == 0 || local_cfg.tlb_entries == 0 then
      some (MEMORY_MODEL_ERROR_BAD_ARGUMENT, .cell .null)
    else if local_cfg.virt_addr_width == 0 || decide (local_cfg.virt_addr_width > 64) then
      some (MEMORY_MODEL_ERROR_BAD_ARGUMENT, .cell .null)
    else if local_cfg.phys_addr_width == 0 || decide (local_cfg.phys_addr_width > 64) then
      some (MEMORY_MODEL_ERROR_BAD_ARGUMENT, .cell .null)
    else create_alloc local_cfg alloc

/-- Function `memory_model_load_tlb` (lines 207-234). -/
def memory_model_load_tlb (model : Ptr memory_model) (virt_base phys_base : Nat) :
    Option (memory_model_error_t × Ptr memory_model) :=
  match model with
  | .null => some (MEMORY_MODEL_ERROR_BAD_ARGUMENT, .null)
  | .cell m =>
    if m.cfg.tlb_entries == 0 then some (MEMORY_MODEL_ERROR_BAD_ARGUMENT, .cell m)
    else
      let index := m.tlb_write_ptr
      match m.tlb[index]? with
      | none => none
      | some entry =>
        let was_valid := entry.valid
        let entry' : tlb_entry :=
          { valid := true
            virt_base := virt_base &&& m.virt_addr_mask
            phys_base := phys_base &&& m.phys_addr_mask }
        let active_entries :=
          if !was_valid && decide (m.active_entries < m.cfg.tlb_entries) then
            (m.active_entries + 1) % 2 ^ 32
          else m.active_entries
        let tlb_write_ptr :=
          if (index + 1) % 2 ^ 32 < m.cfg.tlb_entries then (index + 1) % 2 ^ 32 else 0
        some (MEMORY_MODEL_ERROR_OK,
          .cell { m with
            tlb := m.tlb.set index entry'
            active_entries := active_entries
            tlb_write_ptr := tlb_write_ptr })

/-- The slot scan of `memory_model_translate` (lines 251-264): `n` iterations are
left and the loop counter is `i`.  Returns the status and the value stored through
`phys_addr_out`. -/
def translate_loop (m : memory_model) (virt_page page_offset : Nat) :
    Nat → Nat → Option (memory_model_status_t × Nat)
  | 0, _ => some (MEMORY_MODEL_STATUS_ERR_ADDR, 0)
  | n + 1, i =>
    match m.tlb[i]? with
    | none => none
    | some entry =>
      if !entry.valid then translate_loop m virt_page page_offset n (i + 1)
      else
        match shr_u64 (entry.virt_base &&& m.virt_addr_mask) m.page_offset_bits with
        | none => none
        | some entry_page =>
          if entry_page == virt_page then
            let phys_base := entry.phys_base &&& m.phys_addr_mask
            let combined := (phys_base &&& not_u64 m.page_offset_mask) ||| page_offset
            some (MEMORY_MODEL_STATUS_OK, combined &&& m.phys_addr_mask)
          else translate_loop m virt_page page_offset n (i + 1)

/-- Function `memory_model_translate` (lines 236-268). -/
def memory_model_translate (model : Ptr memory_model) (virt_addr : Nat)
    (phys_addr_out : Ptr Nat) : Option (memory_model_status_t × Ptr Nat) :=
  match model, phys_addr_out with
  | _, .null => some (MEMORY_MODEL_STATUS_ERR_ACCESS, .null)
  | .null, .cell _ => some (MEMORY_MODEL_STATUS_ERR_ACCESS, .cell 0)
  | .cell m, .cell _ =>
    let masked_virt := virt_addr &&& m.virt_addr_mask
    match shr_u64 masked_virt m.page_offset_bits with
    | none => none
    | some virt_page =>
      let page_offset := masked_virt &&& m.page_offset_mask
      match translate_loop m virt_page page_offset m.cfg.tlb_entries 0 with
      | none => none
      | some (status, phys) => some (status, .cell phys)

/-- The byte-assembly loop of `memory_model_read` (lines 309-315): `n` iterations
are left, the loop counter is `i` and the accumulator is `value`. -/
def read_loop (m : memory_model) (offset effective_mask : Nat) :
    Nat → Nat → Nat → Option Nat
  | 0, _, value => some value
  | n + 1, i, value =>
    match shl_u32 1 i with
    | none => none
    | some bit =>
      if effective_mask &&& bit == 0 then read_loop m offset effective_mask n (i + 1) value
      else
        match m.memory[(offset + i) % 2 ^ SIZE_WIDTH]? with
        | none => none
        | some byte_val =>
          match shl_u64 byte_val ((i * 8) % 2 ^ 32) with
          | none => none
          | some shifted => read_loop m offset effective_mask n (i + 1) (value ||| shifted)

/-- Function `memory_model_read` (lines 270-320). -/
def memory_model_read (model : Ptr memory_model) (virt_addr byte_mask : Nat)
    (data_out : Ptr Nat) : Option (memory_model_status_t × Ptr Nat) :=
  match model, data_out with
  | _, .null => some (MEMORY_MODEL_STATUS_ERR_ACCESS, .null)
  | .null, .cell _ => some (MEMORY_MODEL_STATUS_ERR_ACCESS, .cell 0)
  | .cell m, .cell _ =>
    let valid_mask := byte_mask_for_word m.bytes_per_word
    if byte_mask &&& not_u32 valid_mask != 0 then
      some (MEMORY_MODEL_STATUS_ERR_ACCESS, .cell 0)
    else
      let effective_mask := if byte_mask == 0 then valid_mask else byte_mask
      match memory_model_translate (.cell m) virt_addr (.cell 0) with
      | none => none
      | some (translate_status, phys_cell) =>
        let phys_addr := match phys_cell with
          | .cell p => p
          | .null => 0
        if translate_status != MEMORY_MODEL_STATUS_OK then some (translate_status, .cell 0)
        else
          let mem_index := (phys_addr &&& m.mem_addr_mask) % 2 ^ SIZE_WIDTH
          if !m.mem_depth_pow2 && decide (mem_index ≥ m.cfg.mem_depth) then
            some (MEMORY_MODEL_STATUS_ERR_ACCESS, .cell 0)
          else
            let offset := (mem_index * m.bytes_per_word) % 2 ^ SIZE_WIDTH
            match read_loop m offset effective_mask m.bytes_per_word 0 0 with
            | none => none
            | some value => some (MEMORY_MODEL_STATUS_OK, .cell (value &&& m.data_mask))

/-- The byte-store loop of `memory_model_write` (lines 354-360): `n` iterations are
left, the loop counter is `i` and `memory` is the current content of the store. -/
def write_loop (masked_data offset byte_mask : Nat) :
    Nat → Nat → List Nat → Option (List Nat)
  | 0, _, memory => some memory
  | n + 1, i, memory =>
    match shl_u32 1 i with
    | none => none
    | some bit =>
      if byte_mask &&& bit == 0 then write_loop masked_data offset byte_mask n (i + 1) memory
      else
        match shr_u64 masked_data ((i * 8) % 2 ^ 32) with
        | none => none
        | some shifted =>
          let byte_value := (shifted &&& 0xFF) % 2 ^ 8
          let idx := (offset + i) % 2 ^ SIZE_WIDTH
          if idx < memory.length then
            write_loop masked_data offset byte_mask n (i + 1) (memory.set idx byte_value)
          else none

/-- Function `memory_model_write` (lines 322-363). -/
def memory_model_write (model : Ptr memory_model) (virt_addr byte_mask data : Nat) :
    Option (memory_model_status_t × Ptr memory_model) :=
  match model with
  | .null => some (MEMORY_MODEL_STATUS_ERR_ACCESS, .null)
  | .cell m =>
    let valid_mask := byte_mask_for_word m.bytes_per_word
    if byte_mask &&& not_u32 valid_mask != 0 then
      some (MEMORY_MODEL_STATUS_ERR_WRITE, .cell m)
    else
      match memory_model_translate (.cell m) virt_addr (.cell 0) with
      | none => none
      | some (translate_status, phys_cell) =>
        let phys_addr := match phys_cell with
          | .cell p => p
          | .null => 0
        if translate_status != MEMORY_MODEL_STATUS_OK then some (translate_status, .cell m)
        else if byte_mask == 0 then some (MEMORY_MODEL_STATUS_OK, .cell m)
        else
          let mem_index := (phys_addr &&& m.mem_addr_mask) % 2 ^ SIZE_WIDTH
          if !m.mem_depth_pow2 && decide (mem_index ≥ m.cfg.mem_depth) then
            some (MEMORY_MODEL_STATUS_ERR_ACCESS, .cell m)
          else
            let offset := (mem_index * m.bytes_per_word) % 2 ^ SIZE_WIDTH
            let masked_data := data &&& m.data_mask
            match write_loop masked_data offset byte_mask m.bytes_per_word 0 m.memory with
            | none => none
            | some memory => some (MEMORY_MODEL_STATUS_OK, .cell { m with memory := memory })

/-- Function `memory_model_active_entries` (lines 365-371). -/
def memory_model_active_entries (model : Ptr memory_model) : Nat :=
  match model with
  | .null => 0
  | .cell m => m.active_entries

/-- Function `memory_model_tlb_write_index` (lines 373-379). -/
def memory_model_tlb_write_index (model : Ptr memory_model) : Nat :=
  match model with
  | .null => 0
  | .cell m => m.tlb_write_ptr

/-- Function `memory_model_tlb_capacity` (lines 381-387). -/
def memory_model_tlb_capacity (model : Ptr memory_model) : Nat :=
  match model with
  | .null => 0
  | .cell m => m.cfg.tlb_entries

/-- Function `memory_model_get_config` (lines 389-395). -/
def memory_model_get_config (model : Ptr memory_model) : Ptr memory_model_config_t :=
  match model with
  | .null => .null
  | .cell m => .cell m.cfg

/-! ## Calls, reachable states and the representation invariant -/

/-- All six fields of a configuration are `uint32_t` values. -/
def config_in_range (c : memory_model_config_t) : Prop :=
  c.virt_addr_width < 2 ^ 32 ∧ c.phys_addr_width < 2 ^ 32 ∧ c.page_size < 2 ^ 32 ∧
  c.data_width < 2 ^ 32 ∧ c.mem_depth < 2 ^ 32 ∧ c.tlb_entries < 2 ^ 32

instance (c : memory_model_config_t) : Decidable (config_in_range c) := by
  unfold config_in_range; infer_instance

/-- A configuration pointer is NULL or points to a record of `uint32_t` values. -/
def config_ptr_in_range : Ptr memory_model_config_t → Prop
  | .null => True
  | .cell c => config_in_range c

instance (p : Ptr memory_model_config_t) : Decidable (config_ptr_in_range p) := by
  cases p <;> unfold config_ptr_in_range <;> infer_instance

/-- One call of the public interface on an existing instance, with its arguments. -/
inductive call where
  | load_tlb (virt_base phys_base : Nat)
  | write (virt_addr byte_mask data : Nat)
  | read (virt_addr byte_mask : Nat)
  | translate (virt_addr : Nat)
  | reset
deriving DecidableEq

/-- The arguments of a call are values of their C types (`uint64_t` addresses and
data, `uint32_t` byte masks). -/
def call_in_range : call → Prop
  | .load_tlb v p => v < 2 ^ 64 ∧ p < 2 ^ 64
  | .write a m d => a < 2 ^ 64 ∧ m < 2 ^ 32 ∧ d < 2 ^ 64
  | .read a m => a < 2 ^ 64 ∧ m < 2 ^ 32
  | .translate a => a < 2 ^ 64
  | .reset => True

instance (c : call) : Decidable (call_in_range c) := by
  cases c <;> unfold call_in_range <;> infer_instance

/-- State of the instance after one call on a non-NULL handle (`none`: the call has
undefined behaviour). -/
def run_call (s : memory_model) : call → Option memory_model
  | .load_tlb v p =>
    match memory_model_load_tlb (.cell s) v p with
    | some (_, .cell s') => some s'
    | _ => none
  | .write a m d =>
    match memory_model_write (.cell s) a m d with
    | some (_, .cell s') => some s'
    | _ => none
  | .read a m =>
    match memory_model_read (.cell s) a m (.cell 0) with
    | some _ => some s
    | none => none
  | .translate a =>
    match memory_model_translate (.cell s) a (.cell 0) with
    | some _ => some s
    | none => none
  | .reset =>
    match memory_model_reset (.cell s) with
    | some (_, .cell s') => some s'
    | _ => none

/-- State of the instance after a sequence of calls, first call first. -/
def run_calls (s : memory_model) : List call → Option memory_model
  | [] => some s
  | c :: cs =>
    match run_call s c with
    | some s' => run_calls s' cs
    | none => none

/-- Number of `load_tlb` calls in a sequence. -/
def count_loads : List call → Nat
  | [] => 0
  | .load_tlb _ _ :: cs => count_loads cs + 1
  | _ :: cs => count_loads cs

/-- The call is a `reset`. -/
def call.is_reset : call → Bool
  | .reset => true
  | _ => false

/-- The call is a `write`. -/
def call.is_write : call → Bool
  | .write _ _ _ => true
  | _ => false

/-- The call is a `load_tlb`. -/
def call.is_load : call → Bool
  | .load_tlb _ _ => true
  | _ => false

/-- States an instance can be in: the state published by a successful
`memory_model_create`, closed under every state-changing call with arguments of
the C types. -/
inductive Reachable : memory_model → Prop
  | create {config : Ptr memory_model_config_t} {h : Ptr memory_model}
      {alloc : calloc_results} {s : memory_model} :
      config_ptr_in_range config →
      memory_model_create config (.cell h) alloc = some (MEMORY_MODEL_ERROR_OK, .cell (.cell s)) →
      Reachable s
  | step {s s' : memory_model} (c : call) :
      Reachable s → call_in_range c → run_call s c = some s' → Reachable s'

/-- Virtual page number of an address under the masks of the model (lines 247-248
for the incoming address, line 257 for a stored base). -/
def page_number (s : memory_model) (v : Nat) : Nat :=
  (v &&& s.virt_addr_mask) >>> s.page_offset_bits

/-- The hit test of the slot scan (lines 253-258): the slot is valid and its page
number equals that of the address. -/
def slot_hit (s : memory_model) (a : Nat) (e : tlb_entry) : Bool :=
  e.valid && (page_number s e.virt_base == page_number s a)

/-- Physical address produced from a slot on a hit (lines 259-261). -/
def slot_phys (s : memory_model) (e : tlb_entry) (a : Nat) : Nat :=
  (((e.phys_base &&& s.phys_addr_mask) &&& not_u64 s.page_offset_mask)
    ||| ((a &&& s.virt_addr_mask) &&& s.page_offset_mask)) &&& s.phys_addr_mask

/-- Word index addressed by a physical address (line 300 / 346). -/
def word_index (s : memory_model) (phys : Nat) : Nat :=
  (phys &&& s.mem_addr_mask) % 2 ^ SIZE_WIDTH

/-- The bound check of lines 301 / 347 passes for the word index. -/
def index_ok (s : memory_model) (idx : Nat) : Prop :=
  s.mem_depth_pow2 = true ∨ idx < s.cfg.mem_depth

instance (s : memory_model) (idx : Nat) : Decidable (index_ok s idx) := by
  unfold index_ok; infer_instance

/-- Byte `i` (bits `8i .. 8i+7`) of a value. -/
def byte_of (x i : Nat) : Nat := (x >>> (8 * i)) % 256

/-- The value `x` with every byte not selected by the byte mask `m` cleared, over
the first `n` byte positions (bytes at positions `≥ n` are cleared too). -/
def select_bytes (m x : Nat) : Nat → Nat
  | 0 => 0
  | n + 1 => select_bytes m x n ||| (if m.testBit n then x &&& (0xFF <<< (8 * n)) else 0)

/-- The empty slot written by `memset` / `calloc`. -/
def empty_slot : tlb_entry := { valid := false, virt_base := 0, phys_base := 0 }

/-- The slot stored by `load_tlb(v, p)` (lines 219-221). -/
def loaded_slot (s : memory_model) (v p : Nat) : tlb_entry :=
  { valid := true, virt_base := v &&& s.virt_addr_mask, phys_base := p &&& s.phys_addr_mask }

/-- Facts fixed at construction: the configuration passed validation and the
derived members are the ones `memory_model_create` computes. -/
structure static_inv (s : memory_model) : Prop where
  in_range : config_in_range s.cfg
  data_width_pos : s.cfg.data_width ≠ 0
  data_width_mul : s.cfg.data_width % 8 = 0
  data_width_le : s.cfg.data_width ≤ 64
  page_pow2 : is_power_of_two s.cfg.page_size = true
  mem_depth_pos : s.cfg.mem_depth ≠ 0
  tlb_entries_pos : s.cfg.tlb_entries ≠ 0
  virt_pos : s.cfg.virt_addr_width ≠ 0
  virt_le : s.cfg.virt_addr_width ≤ 64
  phys_pos : s.cfg.phys_addr_width ≠ 0
  phys_le : s.cfg.phys_addr_width ≤ 64
  pob : ceil_log2_u32 s.cfg.page_size = some s.page_offset_bits
  pob_le_virt : s.page_offset_bits ≤ s.cfg.virt_addr_width
  pob_le_phys : s.page_offset_bits ≤ s.cfg.phys_addr_width
  bpw : s.bytes_per_word = s.cfg.data_width / 8
  mab : ceil_log2_u32 s.cfg.mem_depth = some s.mem_addr_bits
  pow2 : s.mem_depth_pow2 = is_power_of_two s.cfg.mem_depth
  vmask : s.virt_addr_mask = mask_from_width s.cfg.virt_addr_width
  pmask : s.phys_addr_mask = mask_from_width s.cfg.phys_addr_width
  pomask : s.page_offset_mask = mask_from_width s.page_offset_bits
  dmask : s.data_mask = mask_from_width s.cfg.data_width
  mamask : s.mem_addr_mask = mem_addr_mask_of s.mem_depth_pow2 s.cfg.mem_depth s.mem_addr_bits

/-- Representation invariant of a live instance. -/
structure model_inv (s : memory_model) : Prop where
  static : static_inv s
  tlb_len : s.tlb.length = s.cfg.tlb_entries
  mem_len : s.memory.length = s.cfg.mem_depth * s.bytes_per_word
  mem_bytes : ∀ b ∈ s.memory, b < 256
  ptr_lt : s.tlb_write_ptr < s.cfg.tlb_entries
  active_le : s.active_entries ≤ s.cfg.tlb_entries
  valid_iff : ∀ j e, s.tlb[j]? = some e → (e.valid = true ↔ j < s.active_entries)
  ptr_active : s.active_entries < s.cfg.tlb_entries → s.tlb_write_ptr = s.active_entries
  masked : ∀ e ∈ s.tlb, e.virt_base &&& s.virt_addr_mask = e.virt_base ∧
    e.phys_base &&& s.phys_addr_mask = e.phys_base

/-- The state left by `memory_model_reset` on a live instance: store and table
cleared, cursor and count zero, everything else kept. -/
def reset_state (s : memory_model) : memory_model :=
  { s with
    memory := List.replicate (s.cfg.mem_depth * s.bytes_per_word) 0
    tlb := List.replicate s.cfg.tlb_entries empty_slot
    tlb_write_ptr := 0
    active_entries := 0 }

/-- The state left by `memory_model_load_tlb(v, p)` on a live instance: the slot
under the cursor is overwritten, the count grows while below capacity and the
cursor advances with wrap-around. -/
def load_state (s : memory_model) (v p : Nat) : memory_model :=
  { s with
    tlb := s.tlb.set s.tlb_write_ptr (loaded_slot s v p)
    active_entries :=
      if s.active_entries < s.cfg.tlb_entries then s.active_entries + 1 else s.active_entries
    tlb_write_ptr :=
      if s.tlb_write_ptr + 1 < s.cfg.tlb_entries then s.tlb_write_ptr + 1 else 0 }

/-! ## Concrete instances used as examples -/

/-- Every `calloc` succeeds. -/
def calloc_ok : calloc_results := { model := true, memory := true, tlb := true }

/-- A valid configuration whose depth is not a power of two: 8-bit addresses,
4-byte pages, one-byte words, 3 words, a single TLB slot. -/
def cfg_depth3 : memory_model_config_t :=
  { virt_addr_width := 8, phys_addr_width := 8, page_size := 4, data_width := 8,
    mem_depth := 3, tlb_entries := 1 }

/-- The instance published by `memory_model_create` for `cfg_depth3`. -/
def depth3_fresh : memory_model := reset_state (create_fill cfg_depth3 2 2)

/-- The instance `depth3_fresh` after `load_tlb(0, 0)`: virtual page 0 (addresses
0..3) is mapped to physical page 0, whose last word index 3 is outside the store. -/
def depth3_mapped : memory_model := load_state depth3_fresh 0 0

/-- The default configuration with a smaller store and table: 32 words, 4 slots. -/
def cfg_small : memory_model_config_t :=
  { virt_addr_width := 32, phys_addr_width := 28, page_size := 4096, data_width := 64,
    mem_depth := 32, tlb_entries := 4 }

/-- The instance published by `memory_model_create` for `cfg_small`. -/
def small_fresh : memory_model := reset_state (create_fill cfg_small 12 5)

/-- The instance `small_fresh` after `load_tlb(0, 0x4000)`. -/
def small_mapped : memory_model := load_state small_fresh 0 0x4000

/-- State after a sequence of calls (the starting state when the sequence has no
defined behaviour); used to name concrete example states. -/
def exec (s : memory_model) (cs : List call) : memory_model :=
  (run_calls s cs).getD s

/-- The instance `small_mapped` after `write(0x10, 0xFF, 0xFFEEDDCCBBAA9988)`. -/
def small_written : memory_model :=
  exec small_mapped [.write 0x10 0xFF 0xFFEEDDCCBBAA9988]

/-- The instance `small_written` after `write(0x10, 0x0F, 0x1122334455667788)`. -/
def small_rewritten : memory_model :=
  exec small_written [.write 0x10 0x0F 0x1122334455667788]

/-- The instance `small_fresh` after `load_tlb(0x1000, 0x2000)`. -/
def small_first : memory_model := load_state small_fresh 0x1000 0x2000

/-- The instance `small_first` after `load_tlb(0x1000, 0x7000)`: two mappings of the
same virtual page, the older one in slot 0. -/
def small_duplicate : memory_model := load_state small_first 0x1000 0x7000

/-- The members of an instance that no operation after construction assigns: the
configuration and the derived bit counts and masks. -/
def static_part (s : memory_model) :
    memory_model_config_t × Nat × Nat × Nat × Bool × Nat × Nat × Nat × Nat × Nat :=
  (s.cfg, s.bytes_per_word, s.page_offset_bits, s.mem_addr_bits, s.mem_depth_pow2,
    s.virt_addr_mask, s.phys_addr_mask, s.page_offset_mask, s.mem_addr_mask, s.data_mask)

/-- The `load_tlb` calls inserting a list of (virtual base, physical base) mappings,
first mapping first. -/
def load_calls (l : List (Nat × Nat)) : List call :=
  l.map (fun vp => call.load_tlb vp.1 vp.2)

/-- The configuration of `test_tlb_wraparound`: the default configuration (16384
words of 8 bytes, 4096-byte pages) with `tlb_entries = 4`. -/
def cfg_wrap : memory_model_config_t :=
  { memory_model_config_default with tlb_entries := 4 }

/-- The instance published by `memory_model_create` for `cfg_wrap`. -/
def wrap_fresh : memory_model := reset_state (create_fill cfg_wrap 12 14)

/-- The instance `wrap_fresh` after the four seeding loads of `test_tlb_wraparound`:
virtual pages 0, 1, 2, 3 mapped to `0x1000`, `0x2000`, `0x3000`, `0x4000`. -/
def wrap_full : memory_model :=
  load_state (load_state (load_state (load_state wrap_fresh 0 0x1000) 0x1000 0x2000)
    0x2000 0x3000) 0x3000 0x4000

/-- Function `MemoryScoreboard::verify_tlb_state` (`memory_scoreboard.cpp`, lines
181-198): `false` without a reference model or when the active count exceeds the
capacity. -/
def verify_tlb_state (ref_model : Ptr memory_model) : Bool :=
  match ref_model with
  | .null => false
  | .cell m =>
    let active := memory_model_active_entries (.cell m)
    let capacity := memory_model_tlb_capacity (.cell m)
    if active > capacity then false else true

/-- Numeric value of a transaction status code (`memory_model.h`, lines 27-33). -/
def memory_model_status_t.value : memory_model_status_t → Int
  | MEMORY_MODEL_STATUS_OK => 0
  | MEMORY_MODEL_STATUS_ERR_ADDR => 1
  | MEMORY_MODEL_STATUS_ERR_ACCESS => 2
  | MEMORY_MODEL_STATUS_ERR_WRITE => 3
  | MEMORY_MODEL_STATUS_PENDING => 0xF

/-- Numeric value of a management result code (`memory_model.h`, lines 38-43). -/
def memory_model_error_t.value : memory_model_error_t → Int
  | MEMORY_MODEL_ERROR_OK => 0
  | MEMORY_MODEL_ERROR_BAD_ARGUMENT => -1
  | MEMORY_MODEL_ERROR_OUT_OF_MEMORY => -2
  | MEMORY_MODEL_ERROR_UNSUPPORTED => -3

/-- The data width is rejected as unsupported: zero, not a multiple of 8, or above
64. -/
def data_width_unsupported (c : memory_model_config_t) : Prop :=
  c.data_width = 0 ∨ c.data_width % 8 ≠ 0 ∨ 64 < c.data_width

instance (c : memory_model_config_t) : Decidable (data_width_unsupported c) := by
  unfold data_width_unsupported; infer_instance

/-- One of the remaining fields is rejected as a bad argument: page size zero or not
a power of two, zero depth, zero TLB capacity, an address width outside `[1, 64]`,
or `log2(page_size)` above an address width. -/
def config_bad_argument (c : memory_model_config_t) : Prop :=
  c.page_size = 0 ∨ (¬ ∃ n, c.page_size = 2 ^ n) ∨ c.mem_depth = 0 ∨ c.tlb_entries = 0 ∨
    c.virt_addr_width < 1 ∨ 64 < c.virt_addr_width ∨
    c.phys_addr_width < 1 ∨ 64 < c.phys_addr_width ∨
    c.virt_addr_width < Nat.log 2 c.page_size ∨ c.phys_addr_width < Nat.log 2 c.page_size

/-- A configuration in which every field is invalid: data width 12, page size 3,
no words, no slots, address widths 0 and 65. -/
def cfg_all_bad : memory_model_config_t :=
  { virt_addr_width := 0, phys_addr_width := 65, page_size := 3, data_width := 12,
    mem_depth := 0, tlb_entries := 0 }

/-- The configuration `cfg_small` with 8-bit virtual addresses: a 4096-byte page
does not fit. -/
def cfg_big_page : memory_model_config_t :=
  { cfg_small with virt_addr_width := 8 }

/-- The instance published by `memory_model_create` for the default configuration. -/
def default_fresh : memory_model := reset_state (create_fill memory_model_config_default 12 14)

/-- Physical address a virtual address resolves to: the address produced from the
first slot that hits (lines 251-263), or nothing on a miss. -/
def resolve (s : memory_model) (a : Nat) : Option Nat :=
  (s.tlb.find? (slot_hit s a)).map (fun e => slot_phys s e a)

/-- The expansion of a byte mask over the first `n` byte positions: `0xFF` in byte
position `i` for each set bit `i < n` of `m`. -/
def expand_mask (m : Nat) : Nat → Nat
  | 0 => 0
  | n + 1 => expand_mask m n ||| (if m.testBit n then 0xFF <<< (8 * n) else 0)

/-- What the caller of one interface call on a live instance gets back: a
transaction status with the value stored through the output pointer (0 for
`write`, which has none), or a management result code. -/
inductive call_outcome where
  | status (st : memory_model_status_t) (out : Nat)
  | error (e : memory_model_error_t)
deriving DecidableEq

/-- Outcome of one call on a non-NULL handle, output pointers non-NULL (`none`: the
call has undefined behaviour). -/
def observe (s : memory_model) : call → Option call_outcome
  | .load_tlb v p =>
    match memory_model_load_tlb (.cell s) v p with
    | some (e, _) => some (.error e)
    | none => none
  | .write a m d =>
    match memory_model_write (.cell s) a m d with
    | some (st, _) => some (.status st 0)
    | none => none
  | .read a m =>
    match memory_model_read (.cell s) a m (.cell 0) with
    | some (st, .cell data) => some (.status st data)
    | _ => none
  | .translate a =>
    match memory_model_translate (.cell s) a (.cell 0) with
    | some (st, .cell phys) => some (.status st phys)
    | _ => none
  | .reset =>
    match memory_model_reset (.cell s) with
    | some (e, _) => some (.error e)
    | none => none

/-- Outcomes of a sequence of calls, first call first. -/
def observe_calls (s : memory_model) : List call → Option (List call_outcome)
  | [] => some []
  | c :: cs =>
    match observe s c, run_call s c with
    | some o, some s' => (observe_calls s' cs).map (fun os => o :: os)
    | _, _ => none

/-- The call is a transaction: `translate`, `read` or `write`. -/
def call.is_transaction : call → Bool
  | .translate _ => true
  | .read _ _ => true
  | .write _ _ _ => true
  | _ => false

/-! ## Bit-level facts -/

theorem mask_from_width_eq {w : Nat} (h : w ≤ 64) : mask_from_width w = 2 ^ w - 1 := by
  unfold mask_from_width UINT64_MAX
  by_cases h0 : w = 0
  · simp [h0]
  · by_cases h64 : w = 64
    · simp [h64]
    · have : ¬ w ≥ 64 := by omega
      simp [h0, this, Nat.one_shiftLeft]

theorem byte_mask_for_word_eq {b : Nat} (h : b ≤ 32) : byte_mask_for_word b = 2 ^ b - 1 := by
  unfold byte_mask_for_word UINT32_MAX
  by_cases h0 : b = 0
  · simp [h0]
  · by_cases h32 : b = 32
    · simp [h32]
    · have : ¬ b ≥ 32 := by omega
      simp [h0, this, Nat.one_shiftLeft]

theorem testBit_not_u32 (x i : Nat) :
    (not_u32 x).testBit i = (decide (i < 32) ^^ x.testBit i) := by
  unfold not_u32 UINT32_MAX
  rw [Nat.testBit_xor, Nat.testBit_two_pow_sub_one]

theorem testBit_not_u64 (x i : Nat) :
    (not_u64 x).testBit i = (decide (i < 64) ^^ x.testBit i) := by
  unfold not_u64 UINT64_MAX
  rw [Nat.testBit_xor, Nat.testBit_two_pow_sub_one]

theorem lt_two_pow_iff_testBit (m b : Nat) :
    m < 2 ^ b ↔ ∀ i, b ≤ i → m.testBit i = false := by
  constructor
  · intro h i hi
    exact Nat.testBit_lt_two_pow (lt_of_lt_of_le h (Nat.pow_le_pow_right (by decide) hi))
  · intro h
    exact Nat.lt_pow_two_of_testBit m h

theorem mask_check_zero_iff {m b : Nat} (hm : m < 2 ^ 32) (hb : b ≤ 32) :
    m &&& not_u32 (2 ^ b - 1) = 0 ↔ m < 2 ^ b := by
  rw [lt_two_pow_iff_testBit]
  constructor
  · intro h i hi
    have h1 : (m &&& not_u32 (2 ^ b - 1)).testBit i = false := by rw [h]; simp
    rw [Nat.testBit_and, testBit_not_u32, Nat.testBit_two_pow_sub_one] at h1
    by_cases h32 : i < 32
    · have hib : ¬ i < b := by omega
      simpa [h32, hib] using h1
    · exact Nat.testBit_lt_two_pow (lt_of_lt_of_le hm (Nat.pow_le_pow_right (by decide) (by omega)))
  · intro h
    apply Nat.eq_of_testBit_eq
    intro i
    rw [Nat.testBit_and, testBit_not_u32, Nat.testBit_two_pow_sub_one]
    by_cases hib : i < b
    · have : i < 32 := by omega
      simp [hib, this]
    · simp [h i (by omega)]

theorem and_two_pow_eq_zero_iff (m i : Nat) : m &&& 2 ^ i = 0 ↔ m.testBit i = false := by
  rw [Nat.and_two_pow]
  cases h : m.testBit i <;> simp [h]

theorem testBit_byte_of (x i j : Nat) :
    (byte_of x i).testBit j = (decide (j < 8) && x.testBit (8 * i + j)) := by
  unfold byte_of
  rw [show (256 : Nat) = 2 ^ 8 by norm_num, Nat.testBit_mod_two_pow, Nat.testBit_shiftRight]

theorem testBit_select_bytes (m x n k : Nat) :
    (select_bytes m x n).testBit k = (x.testBit k && m.testBit (k / 8) && decide (k / 8 < n)) := by
  induction n with
  | zero => simp [select_bytes]
  | succ n ih =>
    rw [select_bytes, Nat.testBit_or, ih]
    by_cases hk : k / 8 = n
    · subst hk
      by_cases hm : m.testBit (k / 8)
      · simp only [hm, if_true, Nat.testBit_and, Nat.testBit_shiftLeft]
        have h1 : (0xFF : Nat).testBit (k - 8 * (k / 8)) = true := by
          rw [show (0xFF : Nat) = 2 ^ 8 - 1 by norm_num, Nat.testBit_two_pow_sub_one]
          simp; omega
        have h2 : k ≥ 8 * (k / 8) := by omega
        simp [h1, h2]
      · simp [hm]
    · by_cases hlt : k / 8 < n
      · have : k / 8 < n + 1 := by omega
        simp only [hlt, this, decide_True, Bool.and_true]
        by_cases hm : m.testBit n
        · simp only [hm, if_true, Nat.testBit_and, Nat.testBit_shiftLeft]
          have : decide (k ≥ 8 * n) = false := by simp; omega
          simp [this]
        · simp [hm]
      · have h1 : ¬ k / 8 < n + 1 := by omega
        simp only [hlt, h1, decide_False, Bool.and_false, Bool.false_or]
        by_cases hm : m.testBit n
        · simp only [hm, if_true, Nat.testBit_and, Nat.testBit_shiftLeft]
          have : decide (k ≥ 8 * n) = true := by simp; omega
          have h3 : (0xFF : Nat).testBit (k - 8 * n) = false := by
            rw [show (0xFF : Nat) = 2 ^ 8 - 1 by norm_num, Nat.testBit_two_pow_sub_one]
            simp; omega
          simp [h3]
        · simp [hm]

/-! ## `ceil_log2_u32` and `is_power_of_two` -/

theorem ceil_log2_u32_loop_spec (fuel : Nat) :
    ∀ tmp width, tmp < 2 ^ fuel → width + fuel < 2 ^ 32 →
      ∃ n, n ≤ fuel ∧ ceil_log2_u32_loop fuel tmp width = some (width + n) ∧
        tmp < 2 ^ n ∧ (n ≠ 0 → 2 ^ (n - 1) ≤ tmp) := by
  induction fuel with
  | zero =>
    intro tmp width h _
    have : tmp = 0 := by simpa using h
    subst this
    exact ⟨0, le_refl _, by simp [ceil_log2_u32_loop], by simp, by simp⟩
  | succ fuel ih =>
    intro tmp width h hw
    by_cases h0 : tmp = 0
    · subst h0
      exact ⟨0, Nat.zero_le _, by simp [ceil_log2_u32_loop], by simp, by simp⟩
    · have hpos : tmp > 0 := Nat.pos_of_ne_zero h0
      have hhalf : tmp >>> 1 < 2 ^ fuel := by
        rw [Nat.shiftRight_eq_div_pow, pow_one]
        rw [pow_succ] at h
        omega
      have hmod : (width + 1) % 2 ^ 32 = width + 1 := Nat.mod_eq_of_lt (by omega)
      obtain ⟨n, hn, heq, hlt, hge⟩ := ih (tmp >>> 1) (width + 1) hhalf (by omega)
      refine ⟨n + 1, by omega, ?_, ?_, ?_⟩
      · rw [ceil_log2_u32_loop, if_pos hpos, hmod, heq]
        congr 1
        omega
      · rw [Nat.shiftRight_eq_div_pow, pow_one] at hlt
        rw [pow_succ]
        omega
      · intro _
        rw [Nat.shiftRight_eq_div_pow, pow_one] at hge
        simp only [Nat.add_sub_cancel]
        by_cases hn0 : n = 0
        · subst hn0
          simp
          omega
        · have := hge hn0
          have hp : 2 ^ n = 2 ^ (n - 1) * 2 := by
            rw [← pow_succ]
            congr 1
            omega
          omega

theorem ceil_log2_u32_spec {v : Nat} (h : v < 2 ^ 32) :
    ∃ n, n ≤ 32 ∧ ceil_log2_u32 v = some n ∧ v ≤ 2 ^ n ∧ (n ≠ 0 → 2 ^ (n - 1) < v) := by
  unfold ceil_log2_u32
  by_cases h1 : v ≤ 1
  · exact ⟨0, by omega, by simp [h1], by simpa using h1, by simp⟩
  · obtain ⟨n, hn, heq, hlt, hge⟩ := ceil_log2_u32_loop_spec 32 (v - 1) 0 (by omega) (by norm_num)
    refine ⟨n, hn, ?_, by omega, ?_⟩
    · rw [if_neg h1, heq]
      simp
    · intro hn0
      have := hge hn0
      omega

theorem ceil_log2_u32_le {v n : Nat} (h : v < 2 ^ 32) (hn : ceil_log2_u32 v = some n) :
    n ≤ 32 := by
  obtain ⟨n', hn', heq, _, _⟩ := ceil_log2_u32_spec h
  rw [heq] at hn
  cases hn
  exact hn'

theorem is_power_of_two_two_pow (n : Nat) : is_power_of_two (2 ^ n) = true := by
  unfold is_power_of_two
  have h1 : (2 : Nat) ^ n ≠ 0 := by positivity
  have h2 : 2 ^ n &&& (2 ^ n - 1) = 0 := by
    rw [Nat.and_pow_two_sub_one_eq_mod, Nat.mod_self]
  simp [h2]

theorem exists_two_pow_of_is_power_of_two {v : Nat} (h : is_power_of_two v = true) :
    ∃ n, v = 2 ^ n := by
  unfold is_power_of_two at h
  simp only [Bool.and_eq_true, bne_iff_ne, ne_eq, beq_iff_eq] at h
  obtain ⟨hv, hand⟩ := h
  refine ⟨Nat.log2 v, ?_⟩
  have hlog : 2 ^ Nat.log2 v ≤ v := Nat.log2_self_le hv
  have hlt : v < 2 ^ Nat.log2 v * 2 := by
    have := @Nat.lt_log2_self v
    rwa [pow_succ] at this
  by_contra hne
  have hgt : 2 ^ Nat.log2 v < v := lt_of_le_of_ne hlog (Ne.symm hne)
  have hbit : ∀ r, r < 2 ^ Nat.log2 v → (2 ^ Nat.log2 v + r).testBit (Nat.log2 v) = true := by
    intro r hr
    rw [Nat.testBit_two_pow_add_eq, Nat.testBit_lt_two_pow hr]
    rfl
  generalize 2 ^ Nat.log2 v = p at hlog hlt hgt hbit
  have e1 : v = p + (v - p) := by omega
  have e2 : v - 1 = p + (v - 1 - p) := by omega
  have b1 : v.testBit (Nat.log2 v) = true := by
    have h := hbit (v - p) (by omega)
    rwa [← e1] at h
  have b2 : (v - 1).testBit (Nat.log2 v) = true := by
    have h := hbit (v - 1 - p) (by omega)
    rwa [← e2] at h
  have : (v &&& (v - 1)).testBit (Nat.log2 v) = true := by
    rw [Nat.testBit_and, b1, b2]; rfl
  rw [hand] at this
  simp at this

theorem ceil_log2_u32_of_pow2 {v n : Nat} (hv : v < 2 ^ 32)
    (hp : is_power_of_two v = true) (hn : ceil_log2_u32 v = some n) : v = 2 ^ n := by
  obtain ⟨k, hk⟩ := exists_two_pow_of_is_power_of_two hp
  obtain ⟨n', _, heq, hle, hgt⟩ := ceil_log2_u32_spec hv
  rw [heq] at hn
  cases hn
  subst hk
  have h1 : k ≤ n := (Nat.pow_le_pow_iff_right (by decide)).mp hle
  by_cases hn0 : n = 0
  · subst hn0
    have : k = 0 := by omega
    rw [this]
  · have h2 := hgt hn0
    have h3 : n - 1 < k := (Nat.pow_lt_pow_iff_right (by decide)).mp h2
    have : k = n := by omega
    rw [this]

/-! ## Consequences of the construction-time facts -/

theorem static_inv.pob_le_32 {s : memory_model} (h : static_inv s) :
    s.page_offset_bits ≤ 32 :=
  ceil_log2_u32_le h.in_range.2.2.1 h.pob

theorem static_inv.page_size_eq {s : memory_model} (h : static_inv s) :
    s.cfg.page_size = 2 ^ s.page_offset_bits :=
  ceil_log2_u32_of_pow2 h.in_range.2.2.1 h.page_pow2 h.pob

theorem static_inv.pomask_eq {s : memory_model} (h : static_inv s) :
    s.page_offset_mask = 2 ^ s.page_offset_bits - 1 := by
  rw [h.pomask, mask_from_width_eq (by have := h.pob_le_32; omega)]

theorem static_inv.vmask_eq {s : memory_model} (h : static_inv s) :
    s.virt_addr_mask = 2 ^ s.cfg.virt_addr_width - 1 := by
  rw [h.vmask, mask_from_width_eq h.virt_le]

theorem static_inv.pmask_eq {s : memory_model} (h : static_inv s) :
    s.phys_addr_mask = 2 ^ s.cfg.phys_addr_width - 1 := by
  rw [h.pmask, mask_from_width_eq h.phys_le]

theorem static_inv.bpw_pos {s : memory_model} (h : static_inv s) :
    1 ≤ s.bytes_per_word := by
  have h1 := h.data_width_pos
  have h2 := h.data_width_mul
  rw [h.bpw]
  omega

theorem static_inv.bpw_le {s : memory_model} (h : static_inv s) :
    s.bytes_per_word ≤ 8 := by
  have h1 := h.data_width_le
  rw [h.bpw]
  omega

theorem static_inv.data_width_eq {s : memory_model} (h : static_inv s) :
    s.cfg.data_width = 8 * s.bytes_per_word := by
  have h2 := h.data_width_mul
  rw [h.bpw]
  omega

theorem static_inv.dmask_eq {s : memory_model} (h : static_inv s) :
    s.data_mask = 2 ^ (8 * s.bytes_per_word) - 1 := by
  rw [h.dmask, mask_from_width_eq h.data_width_le, h.data_width_eq]

theorem static_inv.valid_mask_eq {s : memory_model} (h : static_inv s) :
    byte_mask_for_word s.bytes_per_word = 2 ^ s.bytes_per_word - 1 :=
  byte_mask_for_word_eq (by have := h.bpw_le; omega)

/-- The mask check of lines 283 / 332 passes exactly for masks below `2 ^ bytes_per_word`. -/
theorem static_inv.mask_check {s : memory_model} (h : static_inv s) {m : Nat} (hm : m < 2 ^ 32) :
    m &&& not_u32 (byte_mask_for_word s.bytes_per_word) = 0 ↔ m < 2 ^ s.bytes_per_word := by
  rw [h.valid_mask_eq]
  exact mask_check_zero_iff hm (by have := h.bpw_le; omega)

theorem static_inv.word_index_lt {s : memory_model} (h : static_inv s) {p : Nat}
    (hok : index_ok s (word_index s p)) : word_index s p < s.cfg.mem_depth := by
  rcases hok with hp | hlt
  · have hpos : s.cfg.mem_depth > 0 := Nat.pos_of_ne_zero h.mem_depth_pos
    have hr := h.in_range.2.2.2.2.1
    have hmask : s.mem_addr_mask = s.cfg.mem_depth - 1 := by
      rw [h.mamask, hp]
      unfold mem_addr_mask_of
      simp only [Bool.true_and, decide_eq_true_eq, hpos, if_true]
      exact Nat.mod_eq_of_lt (by omega)
    unfold word_index
    rw [hmask]
    have h1 : p &&& (s.cfg.mem_depth - 1) ≤ s.cfg.mem_depth - 1 := Nat.and_le_right
    have h2 : (p &&& (s.cfg.mem_depth - 1)) % 2 ^ SIZE_WIDTH ≤ p &&& (s.cfg.mem_depth - 1) :=
      Nat.mod_le _ _
    omega
  · exact hlt

/-- Byte offsets of an addressed word stay inside the store and inside `size_t`. -/
theorem model_inv.offset_bound {s : memory_model} (h : model_inv s) {p : Nat}
    (hok : index_ok s (word_index s p)) :
    (word_index s p * s.bytes_per_word) % 2 ^ SIZE_WIDTH = word_index s p * s.bytes_per_word ∧
    word_index s p * s.bytes_per_word + s.bytes_per_word ≤ s.memory.length ∧
    s.memory.length < 2 ^ SIZE_WIDTH := by
  have hlt := h.static.word_index_lt hok
  have hb := h.static.bpw_le
  have hr := h.static.in_range.2.2.2.2.1
  have hlen : s.memory.length < 2 ^ SIZE_WIDTH := by
    rw [h.mem_len]
    unfold SIZE_WIDTH
    calc s.cfg.mem_depth * s.bytes_per_word ≤ s.cfg.mem_depth * 8 := Nat.mul_le_mul_left _ hb
      _ < 2 ^ 64 := by omega
  have hle : word_index s p * s.bytes_per_word + s.bytes_per_word ≤ s.memory.length := by
    rw [h.mem_len]
    calc word_index s p * s.bytes_per_word + s.bytes_per_word
        = (word_index s p + 1) * s.bytes_per_word := by ring
      _ ≤ s.cfg.mem_depth * s.bytes_per_word := Nat.mul_le_mul_right _ hlt
  refine ⟨Nat.mod_eq_of_lt ?_, hle, hlen⟩
  omega

/-! ## Closed form of translation -/

theorem shr_u64_of_lt {x n : Nat} (h : n < 64) : shr_u64 x n = some (x >>> n) := by
  simp [shr_u64, h]

theorem translate_loop_eq (s : memory_model) (a : Nat) (hpob : s.page_offset_bits < 64) :
    ∀ n i, i + n ≤ s.tlb.length →
      translate_loop s (page_number s a) ((a &&& s.virt_addr_mask) &&& s.page_offset_mask) n i =
        some (match ((s.tlb.drop i).take n).find? (slot_hit s a) with
          | some e => (MEMORY_MODEL_STATUS_OK, slot_phys s e a)
          | none => (MEMORY_MODEL_STATUS_ERR_ADDR, 0)) := by
  intro n
  induction n with
  | zero => intro i _; simp [translate_loop]
  | succ n ih =>
    intro i hi
    have hlt : i < s.tlb.length := by omega
    have hget : s.tlb[i]? = some s.tlb[i] := List.getElem?_eq_getElem hlt
    have hdrop : s.tlb.drop i = s.tlb[i] :: s.tlb.drop (i + 1) := List.drop_eq_getElem_cons hlt
    rw [translate_loop, hget, hdrop, List.take_succ_cons, List.find?_cons]
    simp only [shr_u64_of_lt hpob]
    by_cases hv : s.tlb[i].valid = true
    · by_cases hp : page_number s s.tlb[i].virt_base = page_number s a
      · have hh : slot_hit s a s.tlb[i] = true := by simp [slot_hit, hv, hp]
        have hp' : (s.tlb[i].virt_base &&& s.virt_addr_mask) >>> s.page_offset_bits
            = page_number s a := hp
        simp [hv, hh, hp', slot_phys]
      · have hh : slot_hit s a s.tlb[i] = false := by simp [slot_hit, hv, hp]
        have hp' : ¬ (s.tlb[i].virt_base &&& s.virt_addr_mask) >>> s.page_offset_bits
            = page_number s a := hp
        simp [hv, hh, hp', ih (i + 1) (by omega)]
    · have hh : slot_hit s a s.tlb[i] = false := by simp [slot_hit, hv]
      simp [hv, hh, ih (i + 1) (by omega)]

/-- On a live instance translation is the first-match search over the whole table. -/
theorem translate_eq {s : memory_model} (h : model_inv s) (a x : Nat) :
    memory_model_translate (.cell s) a (.cell x) =
      some (match s.tlb.find? (slot_hit s a) with
        | some e => (MEMORY_MODEL_STATUS_OK, .cell (slot_phys s e a))
        | none => (MEMORY_MODEL_STATUS_ERR_ADDR, .cell 0)) := by
  have hpob : s.page_offset_bits < 64 := by have := h.static.pob_le_32; omega
  unfold memory_model_translate
  simp only [shr_u64_of_lt hpob]
  have := translate_loop_eq s a hpob s.cfg.tlb_entries 0 (by rw [h.tlb_len]; omega)
  rw [page_number] at this
  rw [this, List.drop_zero, ← h.tlb_len, List.take_length]
  cases s.tlb.find? (slot_hit s a) <;> rfl

/-! ## Closed forms of the byte loops -/

theorem shl_u32_one {i : Nat} (h : i < 32) : shl_u32 1 i = some (2 ^ i) := by
  have : 2 ^ i < 2 ^ 32 := Nat.pow_lt_pow_right (by decide) h
  unfold shl_u32
  rw [if_pos h, Nat.one_shiftLeft, Nat.mod_eq_of_lt this]

theorem byte_value_eq (md i : Nat) : ((md >>> (i * 8)) &&& 0xFF) % 2 ^ 8 = byte_of md i := by
  unfold byte_of
  rw [show (0xFF : Nat) = 2 ^ 8 - 1 by norm_num, Nat.and_pow_two_sub_one_eq_mod, Nat.mod_mod,
    Nat.mul_comm]

theorem byte_of_lt (x i : Nat) : byte_of x i < 256 := Nat.mod_lt _ (by decide)

theorem testBit_shl_byte {b i k : Nat} (hb : b < 256) (hi : i < 8) :
    ((b <<< (i * 8)) % 2 ^ 64).testBit k = (decide (k / 8 = i) && b.testBit (k % 8)) := by
  rw [Nat.testBit_mod_two_pow, Nat.testBit_shiftLeft]
  by_cases h1 : k / 8 = i
  · have e : k - i * 8 = k % 8 := by omega
    have h2 : k < 64 := by omega
    have h3 : k ≥ i * 8 := by omega
    simp [h1, e, h2, h3]
  · by_cases h3 : k ≥ i * 8
    · have : b.testBit (k - i * 8) = false :=
        Nat.testBit_lt_two_pow (lt_of_lt_of_le hb
          (by rw [show (256 : Nat) = 2 ^ 8 by norm_num]
              exact Nat.pow_le_pow_right (by decide) (by omega)))
      simp [h1, this]
    · simp [h1, h3]

theorem write_loop_spec (md off bm : Nat) :
    ∀ n i (mem : List Nat), i + n ≤ 8 → off + i + n ≤ mem.length →
      mem.length < 2 ^ SIZE_WIDTH →
      ∃ mem', write_loop md off bm n i mem = some mem' ∧ mem'.length = mem.length ∧
        ∀ j, mem'[j]? =
          if off + i ≤ j ∧ j < off + i + n ∧ bm.testBit (j - off) = true
          then some (byte_of md (j - off)) else mem[j]? := by
  intro n
  induction n with
  | zero =>
    intro i mem _ _ _
    refine ⟨mem, by simp [write_loop], rfl, ?_⟩
    intro j
    have : ¬ (off + i ≤ j ∧ j < off + i + 0 ∧ bm.testBit (j - off) = true) := by omega
    rw [if_neg this]
  | succ n ih =>
    intro i mem hi hlen hsz
    have hi32 : i < 32 := by omega
    have hshift : (i * 8) % 2 ^ 32 = i * 8 := Nat.mod_eq_of_lt (by omega)
    have hidx : (off + i) % 2 ^ SIZE_WIDTH = off + i := Nat.mod_eq_of_lt (by omega)
    rw [write_loop, shl_u32_one hi32]
    by_cases hbit : bm.testBit i = true
    · have hne : ¬ (bm &&& 2 ^ i = 0) := by
        rw [and_two_pow_eq_zero_iff]; simp [hbit]
      have hin : off + i < mem.length := by omega
      obtain ⟨mem', heq, hlen', hget⟩ := ih (i + 1) (mem.set (off + i) (byte_of md i))
        (by omega) (by rw [List.length_set]; omega) (by rw [List.length_set]; exact hsz)
      refine ⟨mem', ?_, by rw [hlen', List.length_set], ?_⟩
      · simp only [beq_iff_eq, hne, if_false, hshift, shr_u64_of_lt (show i * 8 < 64 by omega),
          byte_value_eq, hidx, hin, if_true]
        exact heq
      · intro j
        rw [hget j, List.getElem?_set]
        by_cases hj : j = off + i
        · subst hj
          have e : off + i - off = i := by omega
          simp [e, hbit, hin]
        · have hj' : ¬ off + i = j := fun h => hj h.symm
          simp only [hj', if_false]
          by_cases hc : off + (i + 1) ≤ j ∧ j < off + (i + 1) + n ∧ bm.testBit (j - off) = true
          · have hc' : off + i ≤ j ∧ j < off + i + (n + 1) ∧ bm.testBit (j - off) = true :=
              ⟨by omega, by omega, hc.2.2⟩
            rw [if_pos hc, if_pos hc']
          · have hc' : ¬ (off + i ≤ j ∧ j < off + i + (n + 1) ∧ bm.testBit (j - off) = true) := by
              intro h
              exact hc ⟨by omega, by omega, h.2.2⟩
            rw [if_neg hc, if_neg hc']
    · have hbit' : bm.testBit i = false := by simpa using hbit
      have hz : bm &&& 2 ^ i = 0 := (and_two_pow_eq_zero_iff bm i).mpr hbit'
      obtain ⟨mem', heq, hlen', hget⟩ := ih (i + 1) mem (by omega) (by omega) hsz
      refine ⟨mem', ?_, hlen', ?_⟩
      · simp only [hz, beq_self_eq_true, if_true]
        exact heq
      · intro j
        rw [hget j]
        by_cases hc : off + (i + 1) ≤ j ∧ j < off + (i + 1) + n ∧ bm.testBit (j - off) = true
        · have hc' : off + i ≤ j ∧ j < off + i + (n + 1) ∧ bm.testBit (j - off) = true :=
            ⟨by omega, by omega, hc.2.2⟩
          rw [if_pos hc, if_pos hc']
        · have hc' : ¬ (off + i ≤ j ∧ j < off + i + (n + 1) ∧ bm.testBit (j - off) = true) := by
            intro h
            by_cases hj : j = off + i
            · subst hj
              have e : off + i - off = i := by omega
              rw [e] at h
              exact hbit h.2.2
            · exact hc ⟨by omega, by omega, h.2.2⟩
          rw [if_neg hc, if_neg hc']

theorem shl_u64_of_lt {x n : Nat} (h : n < 64) : shl_u64 x n = some ((x <<< n) % 2 ^ 64) := by
  simp [shl_u64, h]

theorem read_loop_spec (s : memory_model) (off em : Nat) (hb : ∀ b ∈ s.memory, b < 256) :
    ∀ n i value, i + n ≤ 8 → off + i + n ≤ s.memory.length →
      s.memory.length < 2 ^ SIZE_WIDTH →
      ∃ r, read_loop s off em n i value = some r ∧
        ∀ k, r.testBit k = (value.testBit k ||
          (decide (i ≤ k / 8 ∧ k / 8 < i + n) && em.testBit (k / 8) &&
            (s.memory.getD (off + k / 8) 0).testBit (k % 8))) := by
  intro n
  induction n with
  | zero =>
    intro i value _ _ _
    refine ⟨value, by simp [read_loop], ?_⟩
    intro k
    have : ¬ (i ≤ k / 8 ∧ k / 8 < i + 0) := by omega
    simp [this]
  | succ n ih =>
    intro i value hi hlen hsz
    have hi32 : i < 32 := by omega
    have hshift : (i * 8) % 2 ^ 32 = i * 8 := Nat.mod_eq_of_lt (by omega)
    have hidx : (off + i) % 2 ^ SIZE_WIDTH = off + i := Nat.mod_eq_of_lt (by omega)
    have hin : off + i < s.memory.length := by omega
    have hget : s.memory[off + i]? = some s.memory[off + i] := List.getElem?_eq_getElem hin
    have hgetD : s.memory.getD (off + i) 0 = s.memory[off + i] := by
      rw [List.getD_eq_getElem?_getD, hget]; rfl
    have hbyte : s.memory[off + i] < 256 := hb _ (List.getElem_mem hin)
    rw [read_loop, shl_u32_one hi32]
    by_cases hbit : em.testBit i = true
    · have hne : ¬ (em &&& 2 ^ i = 0) := by
        rw [and_two_pow_eq_zero_iff]; simp [hbit]
      obtain ⟨r, heq, hr⟩ := ih (i + 1)
        (value ||| (s.memory[off + i] <<< (i * 8)) % 2 ^ 64) (by omega) (by omega) hsz
      refine ⟨r, ?_, ?_⟩
      · simp only [beq_iff_eq, hne, if_false, hidx, hget, hshift,
          shl_u64_of_lt (show i * 8 < 64 by omega)]
        exact heq
      · intro k
        rw [hr k, Nat.testBit_or, testBit_shl_byte hbyte (by omega)]
        by_cases hk : k / 8 = i
        · have h1 : ¬ (i + 1 ≤ i ∧ i < i + 1 + n) := by omega
          have h2 : (i ≤ i ∧ i < i + (n + 1)) := by omega
          rw [hk, hgetD, hbit]
          simp [h1, h2]
        · by_cases hc : i + 1 ≤ k / 8 ∧ k / 8 < i + 1 + n
          · have hc' : i ≤ k / 8 ∧ k / 8 < i + (n + 1) := by omega
            simp [hk, hc, hc']
          · have hc' : ¬ (i ≤ k / 8 ∧ k / 8 < i + (n + 1)) := by omega
            simp [hk, hc, hc']
    · have hbit' : em.testBit i = false := by simpa using hbit
      have hz : em &&& 2 ^ i = 0 := (and_two_pow_eq_zero_iff em i).mpr hbit'
      obtain ⟨r, heq, hr⟩ := ih (i + 1) value (by omega) (by omega) hsz
      refine ⟨r, ?_, ?_⟩
      · simp only [hz, beq_self_eq_true, if_true]
        exact heq
      · intro k
        rw [hr k]
        by_cases hk : k / 8 = i
        · have h1 : ¬ (i + 1 ≤ i ∧ i < i + 1 + n) := by omega
          rw [hk, hbit']
          simp [h1]
        · by_cases hc : i + 1 ≤ k / 8 ∧ k / 8 < i + 1 + n
          · have hc' : i ≤ k / 8 ∧ k / 8 < i + (n + 1) := by omega
            simp [hc, hc']
          · have hc' : ¬ (i ≤ k / 8 ∧ k / 8 < i + (n + 1)) := by omega
            simp [hc, hc']

/-! ## Case analysis of `memory_model_read` and `memory_model_write` -/

theorem read_bad_mask {s : memory_model} (h : model_inv s) {m : Nat} (a x : Nat)
    (hm32 : m < 2 ^ 32) (hm : ¬ m < 2 ^ s.bytes_per_word) :
    memory_model_read (.cell s) a m (.cell x) =
      some (MEMORY_MODEL_STATUS_ERR_ACCESS, .cell 0) := by
  have hc : ¬ (m &&& not_u32 (byte_mask_for_word s.bytes_per_word) = 0) :=
    fun hz => hm ((h.static.mask_check hm32).mp hz)
  unfold memory_model_read
  simp [hc]

theorem read_miss {s : memory_model} (h : model_inv s) {m : Nat} (a x : Nat)
    (hm32 : m < 2 ^ 32) (hm : m < 2 ^ s.bytes_per_word)
    (hfind : s.tlb.find? (slot_hit s a) = none) :
    memory_model_read (.cell s) a m (.cell x) =
      some (MEMORY_MODEL_STATUS_ERR_ADDR, .cell 0) := by
  have hc : m &&& not_u32 (byte_mask_for_word s.bytes_per_word) = 0 :=
    (h.static.mask_check hm32).mpr hm
  unfold memory_model_read
  simp [hc, translate_eq h, hfind]

theorem read_bad_index {s : memory_model} (h : model_inv s) {m : Nat} (a x : Nat)
    {e : tlb_entry} (hm32 : m < 2 ^ 32) (hm : m < 2 ^ s.bytes_per_word)
    (hfind : s.tlb.find? (slot_hit s a) = some e)
    (hok : ¬ index_ok s (word_index s (slot_phys s e a))) :
    memory_model_read (.cell s) a m (.cell x) =
      some (MEMORY_MODEL_STATUS_ERR_ACCESS, .cell 0) := by
  have hc : m &&& not_u32 (byte_mask_for_word s.bytes_per_word) = 0 :=
    (h.static.mask_check hm32).mpr hm
  unfold index_ok at hok
  have hp : s.mem_depth_pow2 = false := by
    cases hpp : s.mem_depth_pow2
    · rfl
    · exact absurd (Or.inl hpp) hok
  have hge : s.cfg.mem_depth ≤ word_index s (slot_phys s e a) := by
    by_contra hlt
    exact hok (Or.inr (by omega))
  unfold word_index at hge
  unfold memory_model_read
  simp [hc, translate_eq h, hfind, hp, hge]

theorem read_ok {s : memory_model} (h : model_inv s) {m : Nat} (a x : Nat)
    {e : tlb_entry} (hm32 : m < 2 ^ 32) (hm : m < 2 ^ s.bytes_per_word)
    (hfind : s.tlb.find? (slot_hit s a) = some e)
    (hok : index_ok s (word_index s (slot_phys s e a))) :
    ∃ data, memory_model_read (.cell s) a m (.cell x) =
        some (MEMORY_MODEL_STATUS_OK, .cell data) ∧
      ∀ k, data.testBit k =
        (decide (k / 8 < s.bytes_per_word) && (decide (m = 0) || m.testBit (k / 8)) &&
          (s.memory.getD (word_index s (slot_phys s e a) * s.bytes_per_word + k / 8) 0).testBit
            (k % 8)) := by
  have hc : m &&& not_u32 (byte_mask_for_word s.bytes_per_word) = 0 :=
    (h.static.mask_check hm32).mpr hm
  obtain ⟨hmod, hle, hsz⟩ := h.offset_bound hok
  have hb8 := h.static.bpw_le
  obtain ⟨r, hr, hbits⟩ := read_loop_spec s (word_index s (slot_phys s e a) * s.bytes_per_word)
    (if m = 0 then byte_mask_for_word s.bytes_per_word else m) h.mem_bytes
    s.bytes_per_word 0 0 (by omega) (by omega) hsz
  have hidx : ¬ (s.mem_depth_pow2 = false ∧ s.cfg.mem_depth ≤ word_index s (slot_phys s e a)) := by
    rintro ⟨hp, hge⟩
    rcases hok with hp' | hlt
    · rw [hp] at hp'; cases hp'
    · omega
  refine ⟨r &&& s.data_mask, ?_, ?_⟩
  · unfold memory_model_read
    unfold word_index at hmod hr hidx
    simp only [hc, translate_eq h, hfind]
    simp [hidx, hmod, hr]
  · intro k
    rw [Nat.testBit_and, hbits k, h.static.dmask_eq, Nat.testBit_two_pow_sub_one]
    by_cases hk : k / 8 < s.bytes_per_word
    · have hk8 : k < 8 * s.bytes_per_word := by omega
      have hk0 : 0 ≤ k / 8 ∧ k / 8 < 0 + s.bytes_per_word := by omega
      by_cases hm0 : m = 0
      · subst hm0
        simp [hk, hk8, h.static.valid_mask_eq, Nat.testBit_two_pow_sub_one]
      · simp [hk, hk8, hm0]
    · have hk8 : ¬ k < 8 * s.bytes_per_word := by omega
      simp [hk, hk8]

theorem write_bad_mask {s : memory_model} (h : model_inv s) {m : Nat} (a d : Nat)
    (hm32 : m < 2 ^ 32) (hm : ¬ m < 2 ^ s.bytes_per_word) :
    memory_model_write (.cell s) a m d =
      some (MEMORY_MODEL_STATUS_ERR_WRITE, .cell s) := by
  have hc : ¬ (m &&& not_u32 (byte_mask_for_word s.bytes_per_word) = 0) :=
    fun hz => hm ((h.static.mask_check hm32).mp hz)
  unfold memory_model_write
  simp [hc]

theorem write_miss {s : memory_model} (h : model_inv s) {m : Nat} (a d : Nat)
    (hm32 : m < 2 ^ 32) (hm : m < 2 ^ s.bytes_per_word)
    (hfind : s.tlb.find? (slot_hit s a) = none) :
    memory_model_write (.cell s) a m d =
      some (MEMORY_MODEL_STATUS_ERR_ADDR, .cell s) := by
  have hc : m &&& not_u32 (byte_mask_for_word s.bytes_per_word) = 0 :=
    (h.static.mask_check hm32).mpr hm
  unfold memory_model_write
  simp [hc, translate_eq h, hfind]

theorem write_zero_mask {s : memory_model} (h : model_inv s) (a d : Nat)
    {e : tlb_entry} (hfind : s.tlb.find? (slot_hit s a) = some e) :
    memory_model_write (.cell s) a 0 d = some (MEMORY_MODEL_STATUS_OK, .cell s) := by
  unfold memory_model_write
  simp [translate_eq h, hfind]

theorem write_bad_index {s : memory_model} (h : model_inv s) {m : Nat} (a d : Nat)
    {e : tlb_entry} (hm32 : m < 2 ^ 32) (hm : m < 2 ^ s.bytes_per_word) (hm0 : m ≠ 0)
    (hfind : s.tlb.find? (slot_hit s a) = some e)
    (hok : ¬ index_ok s (word_index s (slot_phys s e a))) :
    memory_model_write (.cell s) a m d =
      some (MEMORY_MODEL_STATUS_ERR_ACCESS, .cell s) := by
  have hc : m &&& not_u32 (byte_mask_for_word s.bytes_per_word) = 0 :=
    (h.static.mask_check hm32).mpr hm
  unfold index_ok at hok
  have hp : s.mem_depth_pow2 = false := by
    cases hpp : s.mem_depth_pow2
    · rfl
    · exact absurd (Or.inl hpp) hok
  have hge : s.cfg.mem_depth ≤ word_index s (slot_phys s e a) := by
    by_contra hlt
    exact hok (Or.inr (by omega))
  unfold word_index at hge
  unfold memory_model_write
  simp [hc, translate_eq h, hfind, hp, hge, hm0]

theorem write_ok {s : memory_model} (h : model_inv s) {m : Nat} (a d : Nat)
    {e : tlb_entry} (hm32 : m < 2 ^ 32) (hm : m < 2 ^ s.bytes_per_word) (hm0 : m ≠ 0)
    (hfind : s.tlb.find? (slot_hit s a) = some e)
    (hok : index_ok s (word_index s (slot_phys s e a))) :
    ∃ mem', memory_model_write (.cell s) a m d =
        some (MEMORY_MODEL_STATUS_OK, .cell { s with memory := mem' }) ∧
      mem'.length = s.memory.length ∧
      ∀ j, mem'[j]? =
        if word_index s (slot_phys s e a) * s.bytes_per_word ≤ j ∧
            j < word_index s (slot_phys s e a) * s.bytes_per_word + s.bytes_per_word ∧
            m.testBit (j - word_index s (slot_phys s e a) * s.bytes_per_word) = true
        then some (byte_of (d &&& s.data_mask)
          (j - word_index s (slot_phys s e a) * s.bytes_per_word))
        else s.memory[j]? := by
  have hc : m &&& not_u32 (byte_mask_for_word s.bytes_per_word) = 0 :=
    (h.static.mask_check hm32).mpr hm
  obtain ⟨hmod, hle, hsz⟩ := h.offset_bound hok
  have hb8 := h.static.bpw_le
  obtain ⟨mem', hw, hlen, hget⟩ := write_loop_spec (d &&& s.data_mask)
    (word_index s (slot_phys s e a) * s.bytes_per_word) m
    s.bytes_per_word 0 s.memory (by omega) (by omega) hsz
  have hidx : ¬ (s.mem_depth_pow2 = false ∧ s.cfg.mem_depth ≤ word_index s (slot_phys s e a)) := by
    rintro ⟨hp, hge⟩
    rcases hok with hp' | hlt
    · rw [hp] at hp'; cases hp'
    · omega
  refine ⟨mem', ?_, hlen, ?_⟩
  · unfold memory_model_write
    unfold word_index at hmod hw hidx
    simp only [hc, translate_eq h, hfind]
    simp [hidx, hmod, hw, hm0]
  · intro j
    rw [hget j]
    simp only [Nat.add_zero]

/-! ## Closed forms of `reset` and `load_tlb` -/

theorem reset_eq_of_lengths {s : memory_model} (ht : s.tlb.length = s.cfg.tlb_entries)
    (hm : s.memory.length = s.cfg.mem_depth * s.bytes_per_word)
    (hsz : s.cfg.mem_depth * s.bytes_per_word < 2 ^ SIZE_WIDTH) :
    memory_model_reset (.cell s) = some (MEMORY_MODEL_ERROR_OK, .cell (reset_state s)) := by
  have hmod : (s.cfg.mem_depth * s.bytes_per_word) % 2 ^ SIZE_WIDTH
      = s.cfg.mem_depth * s.bytes_per_word := Nat.mod_eq_of_lt hsz
  have h1 : (if s.cfg.mem_depth * s.bytes_per_word > 0 then
      memset_zero 0 s.memory (s.cfg.mem_depth * s.bytes_per_word) else some s.memory)
      = some (List.replicate (s.cfg.mem_depth * s.bytes_per_word) 0) := by
    by_cases hz : s.cfg.mem_depth * s.bytes_per_word > 0
    · rw [if_pos hz, memset_zero, if_pos (by omega), ← hm, List.drop_length, List.append_nil]
    · have hz' : s.cfg.mem_depth * s.bytes_per_word = 0 := by omega
      rw [if_neg hz, hz']
      rw [hz'] at hm
      rw [List.length_eq_zero.mp hm]
      rfl
  have h2 : (if s.cfg.tlb_entries > 0 then
      memset_zero { valid := false, virt_base := 0, phys_base := 0 } s.tlb s.cfg.tlb_entries
      else some s.tlb) = some (List.replicate s.cfg.tlb_entries empty_slot) := by
    by_cases hz : s.cfg.tlb_entries > 0
    · rw [if_pos hz, memset_zero, if_pos (by omega), ← ht, List.drop_length, List.append_nil]
      rfl
    · have hz' : s.cfg.tlb_entries = 0 := by omega
      rw [if_neg hz, hz']
      rw [hz'] at ht
      rw [List.length_eq_zero.mp ht]
      rfl
  unfold memory_model_reset
  simp only [hmod, h1, h2]
  rfl

theorem model_inv.store_size {s : memory_model} (h : model_inv s) :
    s.cfg.mem_depth * s.bytes_per_word < 2 ^ SIZE_WIDTH := by
  have hb := h.static.bpw_le
  have hr := h.static.in_range.2.2.2.2.1
  unfold SIZE_WIDTH
  calc s.cfg.mem_depth * s.bytes_per_word ≤ s.cfg.mem_depth * 8 := Nat.mul_le_mul_left _ hb
    _ < 2 ^ 64 := by omega

theorem reset_eq {s : memory_model} (h : model_inv s) :
    memory_model_reset (.cell s) = some (MEMORY_MODEL_ERROR_OK, .cell (reset_state s)) :=
  reset_eq_of_lengths h.tlb_len h.mem_len h.store_size

theorem load_tlb_eq {s : memory_model} (h : model_inv s) (v p : Nat) :
    memory_model_load_tlb (.cell s) v p =
      some (MEMORY_MODEL_ERROR_OK, .cell (load_state s v p)) := by
  have hN := h.static.tlb_entries_pos
  have hNr := h.static.in_range.2.2.2.2.2
  have hptr := h.ptr_lt
  have hlt : s.tlb_write_ptr < s.tlb.length := by rw [h.tlb_len]; exact hptr
  have hget : s.tlb[s.tlb_write_ptr]? = some s.tlb[s.tlb_write_ptr] :=
    List.getElem?_eq_getElem hlt
  have hvalid := h.valid_iff _ _ hget
  have hmod1 : (s.tlb_write_ptr + 1) % 2 ^ 32 = s.tlb_write_ptr + 1 :=
    Nat.mod_eq_of_lt (by omega)
  unfold memory_model_load_tlb
  simp only [beq_iff_eq, hN, if_false, hget, hmod1]
  congr 2
  unfold load_state loaded_slot
  by_cases hact : s.active_entries < s.cfg.tlb_entries
  · have hpa := h.ptr_active hact
    have hmod2 : s.active_entries + 1 < 4294967296 := by omega
    have hnv : s.tlb[s.tlb_write_ptr].valid = false := by
      cases hv : s.tlb[s.tlb_write_ptr].valid
      · rfl
      · have := hvalid.mp hv
        omega
    simp [hact, hnv, hmod2]
  · simp [hact]

/-! ## The invariant is preserved -/

theorem static_inv.update {s : memory_model} (h : static_inv s) (t : List tlb_entry)
    (m : List Nat) (p a : Nat) :
    static_inv { s with tlb := t, memory := m, tlb_write_ptr := p, active_entries := a } :=
  ⟨h.in_range, h.data_width_pos, h.data_width_mul, h.data_width_le, h.page_pow2,
    h.mem_depth_pos, h.tlb_entries_pos, h.virt_pos, h.virt_le, h.phys_pos, h.phys_le,
    h.pob, h.pob_le_virt, h.pob_le_phys, h.bpw, h.mab, h.pow2, h.vmask, h.pmask, h.pomask,
    h.dmask, h.mamask⟩

theorem reset_state_inv {s : memory_model} (h : model_inv s) : model_inv (reset_state s) where
  static := h.static.update _ _ _ _
  tlb_len := by simp [reset_state]
  mem_len := by simp [reset_state]
  mem_bytes := by
    intro b hb
    simp only [reset_state] at hb
    rw [List.eq_of_mem_replicate hb]
    decide
  ptr_lt := Nat.pos_of_ne_zero h.static.tlb_entries_pos
  active_le := Nat.zero_le _
  valid_iff := by
    intro j e he
    simp only [reset_state, List.getElem?_replicate] at he
    split at he
    · cases he
      simp [empty_slot, reset_state]
    · cases he
  ptr_active := fun _ => rfl
  masked := by
    intro e he
    simp only [reset_state] at he
    rw [List.eq_of_mem_replicate he]
    simp [empty_slot]

theorem load_state_inv {s : memory_model} (h : model_inv s) (v p : Nat) :
    model_inv (load_state s v p) where
  static := h.static.update _ _ _ _
  tlb_len := by simp [load_state, h.tlb_len]
  mem_len := h.mem_len
  mem_bytes := h.mem_bytes
  ptr_lt := by
    have := Nat.pos_of_ne_zero h.static.tlb_entries_pos
    simp only [load_state]
    split <;> omega
  active_le := by
    have := h.active_le
    simp only [load_state]
    split <;> omega
  valid_iff := by
    intro j e he
    have hptr := h.ptr_lt
    have hact := h.active_le
    simp only [load_state, List.getElem?_set] at he ⊢
    by_cases hj : s.tlb_write_ptr = j
    · rw [if_pos hj, if_pos (by rw [h.tlb_len]; exact hptr)] at he
      cases he
      simp only [loaded_slot, true_iff]
      by_cases ha : s.active_entries < s.cfg.tlb_entries
      · have := h.ptr_active ha
        rw [if_pos ha]; omega
      · rw [if_neg ha]; omega
    · rw [if_neg hj] at he
      rw [h.valid_iff j e he]
      by_cases ha : s.active_entries < s.cfg.tlb_entries
      · have := h.ptr_active ha
        rw [if_pos ha]; omega
      · rw [if_neg ha]
  ptr_active := by
    have hptr := h.ptr_lt
    have hact := h.active_le
    simp only [load_state]
    intro hlt
    by_cases ha : s.active_entries < s.cfg.tlb_entries
    · have := h.ptr_active ha
      rw [if_pos ha] at hlt ⊢
      rw [if_pos (by omega)]; omega
    · rw [if_neg ha] at hlt; omega
  masked := by
    intro e he
    simp only [load_state] at he ⊢
    rcases List.mem_or_eq_of_mem_set he with hmem | heq
    · exact h.masked e hmem
    · subst heq
      simp [loaded_slot, Nat.and_assoc]

theorem memory_update_inv {s : memory_model} (h : model_inv s) {mem' : List Nat}
    (hlen : mem'.length = s.memory.length) (hb : ∀ b ∈ mem', b < 256) :
    model_inv { s with memory := mem' } where
  static := h.static.update _ _ _ _
  tlb_len := h.tlb_len
  mem_len := by rw [← h.mem_len, ← hlen]
  mem_bytes := hb
  ptr_lt := h.ptr_lt
  active_le := h.active_le
  valid_iff := h.valid_iff
  ptr_active := h.ptr_active
  masked := h.masked

/-! ## The state published by `memory_model_create` -/

theorem create_null_config (out : Ptr (Ptr memory_model)) (alloc : calloc_results) :
    memory_model_create .null out alloc =
      memory_model_create (.cell memory_model_config_default) out alloc := by
  unfold memory_model_create
  cases out with
  | null => simp only
  | cell h => simp only

theorem create_ok_state_cell {c : memory_model_config_t} {h : Ptr memory_model}
    {alloc : calloc_results} {s : memory_model}
    (hr : config_in_range c)
    (hc : memory_model_create (.cell c) (.cell h) alloc =
      some (MEMORY_MODEL_ERROR_OK, .cell (.cell s))) :
    model_inv s ∧ s.tlb = List.replicate s.cfg.tlb_entries empty_slot ∧
      s.memory = List.replicate (s.cfg.mem_depth * s.bytes_per_word) 0 ∧
      s.tlb_write_ptr = 0 ∧ s.active_entries = 0 ∧ s.cfg = c := by
  unfold memory_model_create at hc
  simp only [] at hc
  split at hc
  · cases hc
  rename_i h1
  split at hc
  · cases hc
  rename_i h2
  split at hc
  · cases hc
  rename_i h3
  split at hc
  · cases hc
  rename_i h4
  split at hc
  · cases hc
  rename_i h5
  unfold create_alloc at hc
  split at hc
  · cases hc
  rename_i pob hpob
  split at hc
  · cases hc
  rename_i h6
  split at hc
  · cases hc
  split at hc
  · cases hc
  rename_i mab hmab
  split at hc
  · cases hc
  split at hc
  · cases hc
  split at hc
  · cases hc
  unfold create_fill at hc
  simp only [] at hc
  simp only [Bool.or_eq_true, beq_iff_eq, bne_iff_ne, ne_eq, decide_eq_true_eq, not_or,
    Bool.not_eq_true', Bool.not_eq_true, Bool.not_eq_false] at h1 h2 h3 h4 h5 h6
  obtain ⟨hvw, hpw, hps, hdw, hmd, hte⟩ := hr
  have hbpw : (c.data_width / 8) % 2 ^ 32 = c.data_width / 8 := Nat.mod_eq_of_lt (by omega)
  have hsz : c.mem_depth * (c.data_width / 8) < 2 ^ SIZE_WIDTH := by
    unfold SIZE_WIDTH
    have : c.data_width / 8 ≤ 8 := by omega
    calc c.mem_depth * (c.data_width / 8) ≤ c.mem_depth * 8 := Nat.mul_le_mul_left _ this
      _ < 2 ^ 64 := by omega
  have hmod : (c.mem_depth * (c.data_width / 8)) % 2 ^ SIZE_WIDTH
      = c.mem_depth * (c.data_width / 8) := Nat.mod_eq_of_lt hsz
  rw [hbpw, hmod] at hc
  rw [reset_eq_of_lengths (by simp) (by simp) hsz] at hc
  simp only [bne_self_eq_false, Bool.false_eq_true, if_false, Option.some.injEq, Prod.mk.injEq,
    Ptr.cell.injEq, true_and] at hc
  subst hc
  refine ⟨?_, rfl, rfl, rfl, rfl, rfl⟩
  have k1 : c.data_width % 8 = 0 := by simpa using h1.1.2
  have k2 : c.data_width ≤ 64 := by omega
  have k3 : c.virt_addr_width ≤ 64 := by omega
  have k4 : c.phys_addr_width ≤ 64 := by omega
  have k5 : pob ≤ c.virt_addr_width := by omega
  have k6 : pob ≤ c.phys_addr_width := by omega
  refine reset_state_inv ⟨⟨⟨hvw, hpw, hps, hdw, hmd, hte⟩, h1.1.1, k1, k2,
    h2.2, h3.1, h3.2, h4.1, k3, h5.1, k4, hpob, k5, k6, rfl, hmab, rfl,
    rfl, rfl, rfl, rfl, rfl⟩, by simp, by simp, ?_, ?_, ?_, ?_, ?_, ?_⟩
  · intro b hb
    rw [List.eq_of_mem_replicate hb]; decide
  · exact Nat.pos_of_ne_zero h3.2
  · exact Nat.zero_le _
  · intro j e he
    simp only [List.getElem?_replicate] at he
    split at he
    · cases he; simp
    · cases he
  · intro _; rfl
  · intro e he
    rw [List.eq_of_mem_replicate he]; simp

theorem create_ok_state {config : Ptr memory_model_config_t} {h : Ptr memory_model}
    {alloc : calloc_results} {s : memory_model}
    (hr : config_ptr_in_range config)
    (hc : memory_model_create config (.cell h) alloc =
      some (MEMORY_MODEL_ERROR_OK, .cell (.cell s))) :
    model_inv s ∧ s.tlb = List.replicate s.cfg.tlb_entries empty_slot ∧
      s.memory = List.replicate (s.cfg.mem_depth * s.bytes_per_word) 0 ∧
      s.tlb_write_ptr = 0 ∧ s.active_entries = 0 := by
  cases config with
  | null =>
    rw [create_null_config] at hc
    obtain ⟨h1, h2, h3, h4, h5, _⟩ := create_ok_state_cell (by decide) hc
    exact ⟨h1, h2, h3, h4, h5⟩
  | cell c =>
    obtain ⟨h1, h2, h3, h4, h5, _⟩ := create_ok_state_cell hr hc
    exact ⟨h1, h2, h3, h4, h5⟩

/-! ## Every reachable state satisfies the invariant -/

theorem write_total {s : memory_model} (h : model_inv s) {m : Nat} (a d : Nat)
    (hm32 : m < 2 ^ 32) :
    ∃ st mem', memory_model_write (.cell s) a m d =
        some (st, .cell { s with memory := mem' }) ∧
      mem'.length = s.memory.length ∧ (∀ b ∈ mem', b < 256) ∧
      (st ≠ MEMORY_MODEL_STATUS_OK → mem' = s.memory) := by
  by_cases hm : m < 2 ^ s.bytes_per_word
  · cases hfind : s.tlb.find? (slot_hit s a) with
    | none =>
      exact ⟨_, s.memory, write_miss h a d hm32 hm hfind, rfl, h.mem_bytes, fun _ => rfl⟩
    | some e =>
      by_cases hm0 : m = 0
      · subst hm0
        exact ⟨_, s.memory, write_zero_mask h a d hfind, rfl, h.mem_bytes, fun _ => rfl⟩
      · by_cases hok : index_ok s (word_index s (slot_phys s e a))
        · obtain ⟨mem', hw, hlen, hget⟩ := write_ok h a d hm32 hm hm0 hfind hok
          refine ⟨_, mem', hw, hlen, ?_, fun hne => absurd rfl hne⟩
          intro b hb
          obtain ⟨j, hj⟩ := List.mem_iff_getElem?.mp hb
          rw [hget j] at hj
          split at hj
          · cases hj
            exact byte_of_lt _ _
          · exact h.mem_bytes b (List.mem_iff_getElem?.mpr ⟨j, hj⟩)
        · exact ⟨_, s.memory, write_bad_index h a d hm32 hm hm0 hfind hok, rfl, h.mem_bytes,
            fun _ => rfl⟩
  · exact ⟨_, s.memory, write_bad_mask h a d hm32 hm, rfl, h.mem_bytes, fun _ => rfl⟩

theorem read_total {s : memory_model} (h : model_inv s) {m : Nat} (a x : Nat)
    (hm32 : m < 2 ^ 32) :
    ∃ st data, memory_model_read (.cell s) a m (.cell x) = some (st, .cell data) := by
  by_cases hm : m < 2 ^ s.bytes_per_word
  · cases hfind : s.tlb.find? (slot_hit s a) with
    | none => exact ⟨_, _, read_miss h a x hm32 hm hfind⟩
    | some e =>
      by_cases hok : index_ok s (word_index s (slot_phys s e a))
      · obtain ⟨data, hr, _⟩ := read_ok h a x hm32 hm hfind hok
        exact ⟨_, _, hr⟩
      · exact ⟨_, _, read_bad_index h a x hm32 hm hfind hok⟩
  · exact ⟨_, _, read_bad_mask h a x hm32 hm⟩

theorem run_call_inv {s s' : memory_model} (h : model_inv s) {c : call}
    (hc : call_in_range c) (hr : run_call s c = some s') : model_inv s' := by
  cases c with
  | load_tlb v p =>
    simp only [run_call, load_tlb_eq h] at hr
    cases hr
    exact load_state_inv h v p
  | write a m d =>
    obtain ⟨st, mem', hw, hlen, hb, _⟩ := write_total h a d hc.2.1
    simp only [run_call, hw] at hr
    cases hr
    exact memory_update_inv h hlen hb
  | read a m =>
    simp only [run_call] at hr
    split at hr
    · cases hr; exact h
    · cases hr
  | translate a =>
    simp only [run_call] at hr
    split at hr
    · cases hr; exact h
    · cases hr
  | reset =>
    simp only [run_call, reset_eq h] at hr
    cases hr
    exact reset_state_inv h

theorem Reachable.inv {s : memory_model} (h : Reachable s) : model_inv s := by
  induction h with
  | create hr hc => exact (create_ok_state hr hc).1
  | step c _ hc hrun ih => exact run_call_inv ih hc hrun

/-- All calls of a sequence have arguments of the C types. -/
theorem Reachable.run_calls {s s' : memory_model} (h : Reachable s) (cs : List call)
    (hc : ∀ c ∈ cs, call_in_range c) (hr : run_calls s cs = some s') : Reachable s' := by
  induction cs generalizing s with
  | nil =>
    simp only [MemoryModel.run_calls] at hr
    cases hr
    exact h
  | cons c cs ih =>
    simp only [MemoryModel.run_calls] at hr
    split at hr
    · rename_i s1 h1
      exact ih (Reachable.step c h (hc c (List.mem_cons_self _ _)) h1)
        (fun c' hc' => hc c' (List.mem_cons_of_mem _ hc')) hr
    · cases hr

/-! ## First-match search -/

theorem find_some_of_first {α : Type} (p : α → Bool) :
    ∀ (l : List α) (j : Nat) (e : α), l[j]? = some e → p e = true →
      (∀ i e', i < j → l[i]? = some e' → p e' = false) → l.find? p = some e := by
  intro l
  induction l with
  | nil => intro j e h; simp at h
  | cons a l ih =>
    intro j e hj hp hmin
    cases j with
    | zero =>
      simp only [List.getElem?_cons_zero, Option.some.injEq] at hj
      subst hj
      simp [List.find?_cons, hp]
    | succ j =>
      have ha : p a = false := hmin 0 a (Nat.succ_pos _) (by simp)
      rw [List.find?_cons, ha]
      simp only [List.getElem?_cons_succ] at hj
      exact ih j e hj hp (fun i e' hi he' => hmin (i + 1) e' (by omega) (by simpa using he'))

theorem find_exists_of_mem {α : Type} (p : α → Bool) {l : List α} {e : α}
    (hmem : e ∈ l) (hp : p e = true) : ∃ e', l.find? p = some e' := by
  cases h : l.find? p with
  | some e' => exact ⟨e', rfl⟩
  | none =>
    rw [List.find?_eq_none] at h
    exact absurd hp (h e hmem)

theorem translate_ok_iff {s : memory_model} (h : model_inv s) (a x p : Nat) :
    memory_model_translate (.cell s) a (.cell x) = some (MEMORY_MODEL_STATUS_OK, .cell p) ↔
      ∃ e, s.tlb.find? (slot_hit s a) = some e ∧ p = slot_phys s e a := by
  rw [translate_eq h]
  cases hfind : s.tlb.find? (slot_hit s a) with
  | none => simp
  | some e =>
    simp only [Option.some.injEq, Prod.mk.injEq, true_and, Ptr.cell.injEq]
    constructor
    · intro hp; exact ⟨e, rfl, hp.symm⟩
    · rintro ⟨e', he', hp⟩; cases he'; exact hp.symm

/-! ## Reading back a written word -/

theorem read_after_write {s : memory_model} (h : model_inv s) {m : Nat} (a d y fm : Nat)
    {e : tlb_entry} (hm : m < 2 ^ s.bytes_per_word) (hm0 : m ≠ 0)
    (hfm : fm < 2 ^ s.bytes_per_word)
    (hfind : s.tlb.find? (slot_hit s a) = some e)
    (hok : index_ok s (word_index s (slot_phys s e a))) :
    ∃ mem' after, memory_model_write (.cell s) a m d =
        some (MEMORY_MODEL_STATUS_OK, .cell { s with memory := mem' }) ∧
      model_inv { s with memory := mem' } ∧
      memory_model_read (.cell { s with memory := mem' }) a fm (.cell y) =
        some (MEMORY_MODEL_STATUS_OK, .cell after) ∧
      ∀ k, after.testBit k =
        (decide (k / 8 < s.bytes_per_word) && (decide (fm = 0) || fm.testBit (k / 8)) &&
          (if m.testBit (k / 8) = true then (d &&& s.data_mask).testBit k
           else (s.memory.getD (word_index s (slot_phys s e a) * s.bytes_per_word + k / 8)
              0).testBit (k % 8))) := by
  have hb8 := h.static.bpw_le
  have hpow : 2 ^ s.bytes_per_word ≤ 2 ^ 32 := Nat.pow_le_pow_right (by decide) (by omega)
  have hm32 : m < 2 ^ 32 := by omega
  have hfm32 : fm < 2 ^ 32 := by omega
  obtain ⟨mem', hw, hlen, hget⟩ := write_ok h a d hm32 hm hm0 hfind hok
  have hbytes : ∀ b ∈ mem', b < 256 := by
    intro b hb
    obtain ⟨j, hj⟩ := List.mem_iff_getElem?.mp hb
    rw [hget j] at hj
    split at hj
    · cases hj
      exact byte_of_lt _ _
    · exact h.mem_bytes b (List.mem_iff_getElem?.mpr ⟨j, hj⟩)
  have h' : model_inv { s with memory := mem' } := memory_update_inv h hlen hbytes
  obtain ⟨after, hr, hbits⟩ := read_ok h' a y (e := e) hfm32 hfm hfind hok
  have hbits' : ∀ k, after.testBit k =
      (decide (k / 8 < s.bytes_per_word) && (decide (fm = 0) || fm.testBit (k / 8)) &&
        ((mem'[word_index s (slot_phys s e a) * s.bytes_per_word + k / 8]?).getD 0).testBit
          (k % 8)) := by
    intro k
    rw [hbits k, List.getD_eq_getElem?_getD]
    rfl
  refine ⟨mem', after, hw, h', hr, ?_⟩
  intro k
  rw [hbits' k]
  by_cases hk : k / 8 < s.bytes_per_word
  · have hj := hget (word_index s (slot_phys s e a) * s.bytes_per_word + k / 8)
    have e1 : word_index s (slot_phys s e a) * s.bytes_per_word + k / 8
        - word_index s (slot_phys s e a) * s.bytes_per_word = k / 8 := by omega
    rw [e1] at hj
    by_cases hbit : m.testBit (k / 8) = true
    · rw [if_pos ⟨by omega, by omega, hbit⟩] at hj
      have e2 : 8 * (k / 8) + k % 8 = k := by omega
      have e3 : k % 8 < 8 := by omega
      rw [if_pos hbit, hj]
      simp [testBit_byte_of, e2, e3]
    · rw [if_neg (fun hc => hbit hc.2.2)] at hj
      rw [if_neg hbit, hj, List.getD_eq_getElem?_getD]
  · simp [hk]

/-! ## Example instances -/

set_option maxRecDepth 100000

theorem depth3_fresh_created :
    memory_model_create (.cell cfg_depth3) (.cell .null) calloc_ok =
      some (MEMORY_MODEL_ERROR_OK, .cell (.cell depth3_fresh)) := by decide

theorem depth3_mapped_reachable : Reachable depth3_mapped :=
  Reachable.step (.load_tlb 0 0)
    (@Reachable.create (.cell cfg_depth3) .null calloc_ok depth3_fresh (by decide)
      depth3_fresh_created)
    (by decide) (by decide)

theorem small_fresh_created :
    memory_model_create (.cell cfg_small) (.cell .null) calloc_ok =
      some (MEMORY_MODEL_ERROR_OK, .cell (.cell small_fresh)) := by decide

theorem small_fresh_reachable : Reachable small_fresh :=
  @Reachable.create (.cell cfg_small) .null calloc_ok small_fresh (by decide) small_fresh_created

theorem small_mapped_reachable : Reachable small_mapped :=
  Reachable.step (.load_tlb 0 0x4000) small_fresh_reachable (by decide) (by decide)

/-! ## C1: write / read round trip -/

/-- C1, counterexample.  On the valid configuration `cfg_depth3` (3 words, not a
power of two) with virtual page 0 mapped to physical page 0, address 3 translates
to physical address 3, whose word index 3 fails the bound check: the write with
the non-zero valid mask 1 returns `ERR_ACCESS`, not `OK`. -/
theorem roundtrip_counterexample :
    memory_model_create (.cell cfg_depth3) (.cell .null) calloc_ok =
        some (MEMORY_MODEL_ERROR_OK, .cell (.cell depth3_fresh)) ∧
      memory_model_load_tlb (.cell depth3_fresh) 0 0 =
        some (MEMORY_MODEL_ERROR_OK, .cell depth3_mapped) ∧
      memory_model_translate (.cell depth3_mapped) 3 (.cell 0) =
        some (MEMORY_MODEL_STATUS_OK, .cell 3) ∧
      byte_mask_for_word depth3_mapped.bytes_per_word = 1 ∧
      memory_model_write (.cell depth3_mapped) 3 1 0xAB =
        some (MEMORY_MODEL_STATUS_ERR_ACCESS, .cell depth3_mapped) := by
  decide

/-- C1, amended.  In every reachable state, for every virtual address `a` whose
page is mapped in the TLB and whose translated physical address passes the bound
check of the store (the depth is a power of two, or the word index is below the
depth), every non-zero byte mask `m` below `2 ^ bytes_per_word` and every `d`:
`write(a, m, d)` returns OK and the following `read(a, m)` returns OK with
`d & data_mask` in which every byte not selected by `m` is zero. -/
theorem roundtrip {s : memory_model} (hs : Reachable s) {a m : Nat} (d x : Nat)
    (hmap : ∃ e ∈ s.tlb, slot_hit s a e = true)
    (hidx : ∀ p, memory_model_translate (.cell s) a (.cell 0) =
      some (MEMORY_MODEL_STATUS_OK, .cell p) → index_ok s (word_index s p))
    (hm0 : m ≠ 0) (hm : m < 2 ^ s.bytes_per_word) :
    ∃ s' data, memory_model_write (.cell s) a m d = some (MEMORY_MODEL_STATUS_OK, .cell s') ∧
      memory_model_read (.cell s') a m (.cell x) = some (MEMORY_MODEL_STATUS_OK, .cell data) ∧
      data = select_bytes m (d &&& s.data_mask) s.bytes_per_word ∧
      ∀ k, data.testBit k = ((d &&& s.data_mask).testBit k && m.testBit (k / 8)) := by
  have h := hs.inv
  obtain ⟨e0, he0, hhit⟩ := hmap
  obtain ⟨e, hfind⟩ := find_exists_of_mem (slot_hit s a) he0 hhit
  have hok : index_ok s (word_index s (slot_phys s e a)) :=
    hidx _ ((translate_ok_iff h a 0 _).mpr ⟨e, hfind, rfl⟩)
  obtain ⟨mem', data, hw, _, hr, hbits⟩ := read_after_write h a d x m hm hm0 hm hfind hok
  have hbits' : ∀ k, data.testBit k = ((d &&& s.data_mask).testBit k && m.testBit (k / 8)) := by
    intro k
    rw [hbits k]
    by_cases hbit : m.testBit (k / 8) = true
    · have hk : k / 8 < s.bytes_per_word := by
        by_contra hge
        have := (lt_two_pow_iff_testBit m s.bytes_per_word).mp hm (k / 8) (by omega)
        rw [this] at hbit
        cases hbit
      simp [hbit, hk]
    · have hbit' : m.testBit (k / 8) = false := by simpa using hbit
      simp [hbit', hm0]
  refine ⟨_, data, hw, hr, ?_, hbits'⟩
  apply Nat.eq_of_testBit_eq
  intro k
  rw [hbits' k, testBit_select_bytes]
  by_cases hbit : m.testBit (k / 8) = true
  · have hk : k / 8 < s.bytes_per_word := by
      by_contra hge
      have := (lt_two_pow_iff_testBit m s.bytes_per_word).mp hm (k / 8) (by omega)
      rw [this] at hbit
      cases hbit
    simp [hbit, hk]
  · have hbit' : m.testBit (k / 8) = false := by simpa using hbit
    simp [hbit']

/-- C1, witness: the scenario of `test_basic_read_write` on `cfg_small`. -/
theorem roundtrip_witness :
    Reachable small_mapped ∧
    ∃ s' data, memory_model_write (.cell small_mapped) 0x20 0xFF 0x1122334455667788 =
        some (MEMORY_MODEL_STATUS_OK, .cell s') ∧
      memory_model_read (.cell s') 0x20 0xFF (.cell 0) =
        some (MEMORY_MODEL_STATUS_OK, .cell data) ∧
      data = select_bytes 0xFF (0x1122334455667788 &&& small_mapped.data_mask)
        small_mapped.bytes_per_word ∧
      ∀ k, data.testBit k =
        ((0x1122334455667788 &&& small_mapped.data_mask).testBit k && (0xFF).testBit (k / 8)) :=
  ⟨small_mapped_reachable,
    roundtrip small_mapped_reachable 0x1122334455667788 0
      ⟨loaded_slot small_fresh 0 0x4000, by decide, by decide⟩
      (by
        intro p hp
        have : memory_model_translate (.cell small_mapped) 0x20 (.cell 0) =
            some (MEMORY_MODEL_STATUS_OK, .cell 0x4020) := by decide
        rw [this] at hp
        cases hp
        decide)
      (by decide) (by decide)⟩

/-! ## C2: partial-word update -/

/-- A full-word read (mask 0 or the full mask) that returns OK found a mapping whose
word index passes the bound check, and its bits are the stored bytes of that word. -/
theorem full_read_ok_inv {s : memory_model} (h : model_inv s) {a f x data : Nat}
    (hf : f = 0 ∨ f = 2 ^ s.bytes_per_word - 1)
    (hr : memory_model_read (.cell s) a f (.cell x) =
      some (MEMORY_MODEL_STATUS_OK, .cell data)) :
    ∃ e, s.tlb.find? (slot_hit s a) = some e ∧ index_ok s (word_index s (slot_phys s e a)) ∧
      ∀ k, data.testBit k = (decide (k / 8 < s.bytes_per_word) &&
        (s.memory.getD (word_index s (slot_phys s e a) * s.bytes_per_word + k / 8) 0).testBit
          (k % 8)) := by
  have hb8 := h.static.bpw_le
  have hpos : 0 < 2 ^ s.bytes_per_word := Nat.pow_pos (by decide)
  have hpow : 2 ^ s.bytes_per_word ≤ 2 ^ 32 := Nat.pow_le_pow_right (by decide) (by omega)
  have hfv : f < 2 ^ s.bytes_per_word := by rcases hf with rfl | rfl <;> omega
  have hf32 : f < 2 ^ 32 := by omega
  cases hfind : s.tlb.find? (slot_hit s a) with
  | none =>
    rw [read_miss h a x hf32 hfv hfind] at hr
    cases hr
  | some e =>
    by_cases hok : index_ok s (word_index s (slot_phys s e a))
    · obtain ⟨data', hr', hbits⟩ := read_ok h a x hf32 hfv hfind hok
      rw [hr'] at hr
      cases hr
      refine ⟨e, rfl, hok, ?_⟩
      intro k
      rw [hbits k]
      by_cases hk : k / 8 < s.bytes_per_word
      · rcases hf with rfl | rfl
        · simp [hk]
        · simp [hk, Nat.testBit_two_pow_sub_one]
      · simp [hk]
    · rw [read_bad_index h a x hf32 hfv hfind hok] at hr
      cases hr

/-- C2, counterexample.  On `cfg_depth3` with page 0 mapped, address 3 translates
to a word index outside the store.  The write with the valid mask 0 returns OK
(it returns before the bound check), yet the following full-word read returns
`ERR_ACCESS` instead of OK. -/
theorem partial_word_update_counterexample :
    memory_model_create (.cell cfg_depth3) (.cell .null) calloc_ok =
        some (MEMORY_MODEL_ERROR_OK, .cell (.cell depth3_fresh)) ∧
      memory_model_load_tlb (.cell depth3_fresh) 0 0 =
        some (MEMORY_MODEL_ERROR_OK, .cell depth3_mapped) ∧
      memory_model_write (.cell depth3_mapped) 3 0 0xAB =
        some (MEMORY_MODEL_STATUS_OK, .cell depth3_mapped) ∧
      memory_model_read (.cell depth3_mapped) 3 0 (.cell 0) =
        some (MEMORY_MODEL_STATUS_ERR_ACCESS, .cell 0) := by
  decide

/-- C2, amended.  In every reachable state, whenever `write(a, m, d)` returns OK
with a valid mask `m` and the full-word read of `a` (mask 0 or the full mask) taken
just before the write returns OK, a following full-word read of `a` returns OK and,
for each `i < bytes_per_word`, its byte `i` is byte `i` of `d & data_mask` if bit `i`
of `m` is set and byte `i` of the read taken before the write otherwise. -/
theorem partial_word_update {s s' : memory_model} (hs : Reachable s)
    (a m d x y fb fa : Nat) {before : Nat}
    (hm : m < 2 ^ s.bytes_per_word)
    (hfb : fb = 0 ∨ fb = 2 ^ s.bytes_per_word - 1)
    (hfa : fa = 0 ∨ fa = 2 ^ s.bytes_per_word - 1)
    (hbefore : memory_model_read (.cell s) a fb (.cell x) =
      some (MEMORY_MODEL_STATUS_OK, .cell before))
    (hw : memory_model_write (.cell s) a m d = some (MEMORY_MODEL_STATUS_OK, .cell s')) :
    ∃ after, memory_model_read (.cell s') a fa (.cell y) =
        some (MEMORY_MODEL_STATUS_OK, .cell after) ∧
      ∀ i, i < s.bytes_per_word →
        byte_of after i =
          if m.testBit i = true then byte_of (d &&& s.data_mask) i else byte_of before i := by
  have h := hs.inv
  have hb8 := h.static.bpw_le
  have hpos : 0 < 2 ^ s.bytes_per_word := Nat.pow_pos (by decide)
  have hpow : 2 ^ s.bytes_per_word ≤ 2 ^ 32 := Nat.pow_le_pow_right (by decide) (by omega)
  have hfav : fa < 2 ^ s.bytes_per_word := by rcases hfa with rfl | rfl <;> omega
  obtain ⟨e, hfind, hok, hbbits⟩ := full_read_ok_inv h hfb hbefore
  have key : ∃ after, memory_model_read (.cell s') a fa (.cell y) =
        some (MEMORY_MODEL_STATUS_OK, .cell after) ∧
      ∀ k, after.testBit k = (decide (k / 8 < s.bytes_per_word) &&
        (if m.testBit (k / 8) = true then (d &&& s.data_mask).testBit k
         else before.testBit k)) := by
    by_cases hm0 : m = 0
    · subst hm0
      rw [write_zero_mask h a d hfind] at hw
      cases hw
      obtain ⟨after, hr, habits⟩ := read_ok h a y (by omega) hfav hfind hok
      obtain ⟨e', hfind', _, habits'⟩ := full_read_ok_inv h hfa hr
      rw [hfind] at hfind'
      cases hfind'
      refine ⟨after, hr, ?_⟩
      intro k
      rw [habits' k, hbbits k]
      simp
    · obtain ⟨mem', after, hw', _, hr, habits⟩ :=
        read_after_write h a d y fa hm hm0 hfav hfind hok
      rw [hw'] at hw
      cases hw
      refine ⟨after, hr, ?_⟩
      intro k
      rw [habits k, hbbits k]
      by_cases hk : k / 8 < s.bytes_per_word
      · rcases hfa with rfl | rfl
        · simp [hk]
        · simp [hk, Nat.testBit_two_pow_sub_one]
      · simp [hk]
  obtain ⟨after, hr, habits⟩ := key
  refine ⟨after, hr, ?_⟩
  intro i hi
  apply Nat.eq_of_testBit_eq
  intro j
  have e1 : ∀ j, j < 8 → (8 * i + j) / 8 = i := by intro j hj; omega
  by_cases hj : j < 8
  · by_cases hbit : m.testBit i = true
    · rw [if_pos hbit, testBit_byte_of, testBit_byte_of, habits, e1 j hj, if_pos hbit]
      simp [hi]
    · rw [if_neg hbit, testBit_byte_of, testBit_byte_of, habits, e1 j hj, if_neg hbit]
      simp [hi]
  · split <;> simp [testBit_byte_of, hj]

theorem small_written_reachable : Reachable small_written :=
  Reachable.run_calls small_mapped_reachable [.write 0x10 0xFF 0xFFEEDDCCBBAA9988]
    (by decide) (by decide)

/-- C2, witness: the masked-overwrite scenario of `test_byte_mask_operations` on
`cfg_small`; the read after the second write returns `0xFFEEDDCC55667788`. -/
theorem partial_word_update_witness :
    Reachable small_written ∧
    memory_model_read (.cell small_written) 0x10 0 (.cell 0) =
      some (MEMORY_MODEL_STATUS_OK, .cell 0xFFEEDDCCBBAA9988) ∧
    memory_model_write (.cell small_written) 0x10 0x0F 0x1122334455667788 =
      some (MEMORY_MODEL_STATUS_OK, .cell small_rewritten) ∧
    memory_model_read (.cell small_rewritten) 0x10 0 (.cell 0) =
      some (MEMORY_MODEL_STATUS_OK, .cell 0xFFEEDDCC55667788) ∧
    ∃ after, memory_model_read (.cell small_rewritten) 0x10 0 (.cell 0) =
        some (MEMORY_MODEL_STATUS_OK, .cell after) ∧
      ∀ i, i < small_written.bytes_per_word →
        byte_of after i =
          if (0x0F).testBit i = true
          then byte_of (0x1122334455667788 &&& small_written.data_mask) i
          else byte_of 0xFFEEDDCCBBAA9988 i :=
  ⟨small_written_reachable, by decide, by decide, by decide,
    partial_word_update small_written_reachable 0x10 0x0F 0x1122334455667788 0 0 0 0 (by decide)
      (Or.inl rfl) (Or.inl rfl) (by decide) (by decide)⟩

/-! ## C3: offset preservation -/

theorem combine_page_offset {pb k pob pw : Nat} (hk : k < 2 ^ pob) (hpob : pob ≤ pw)
    (hpw : pw ≤ 64) (hpb : pb < 2 ^ pw) :
    (((pb &&& not_u64 (2 ^ pob - 1)) ||| k) &&& (2 ^ pw - 1)) % 2 ^ pob = k ∧
    (((pb &&& not_u64 (2 ^ pob - 1)) ||| k) &&& (2 ^ pw - 1)) / 2 ^ pob = pb / 2 ^ pob := by
  have hbit : ∀ i, (((pb &&& not_u64 (2 ^ pob - 1)) ||| k) &&& (2 ^ pw - 1)).testBit i =
      if i < pob then k.testBit i else pb.testBit i := by
    intro i
    rw [Nat.testBit_and, Nat.testBit_or, Nat.testBit_and, testBit_not_u64,
      Nat.testBit_two_pow_sub_one, Nat.testBit_two_pow_sub_one]
    by_cases hi : i < pob
    · have h1 : i < 64 := by omega
      have h2 : i < pw := by omega
      simp [hi, h1, h2]
    · have hkf : k.testBit i = false :=
        (lt_two_pow_iff_testBit k pob).mp hk i (by omega)
      by_cases h2 : i < pw
      · have h1 : i < 64 := by omega
        simp [hi, h1, h2, hkf]
      · have hpf : pb.testBit i = false :=
          (lt_two_pow_iff_testBit pb pw).mp hpb i (by omega)
        simp [hi, h2, hkf, hpf]
  constructor
  · apply Nat.eq_of_testBit_eq
    intro i
    rw [Nat.testBit_mod_two_pow, hbit i]
    by_cases hi : i < pob
    · simp [hi]
    · have hkf : k.testBit i = false :=
        (lt_two_pow_iff_testBit k pob).mp hk i (by omega)
      simp [hi, hkf]
  · apply Nat.eq_of_testBit_eq
    intro i
    rw [← Nat.shiftRight_eq_div_pow, ← Nat.shiftRight_eq_div_pow, Nat.testBit_shiftRight,
      Nat.testBit_shiftRight, hbit (pob + i)]
    have : ¬ pob + i < pob := by omega
    simp [this]

theorem page_number_add_offset {s : memory_model} (h : static_inv s) {base k : Nat}
    (halign : base % s.cfg.page_size = 0) (hk : k < s.cfg.page_size)
    (hfit : base + k < 2 ^ s.cfg.virt_addr_width) :
    page_number s (base + k) = base / s.cfg.page_size ∧
    ((base + k) &&& s.virt_addr_mask) &&& s.page_offset_mask = k := by
  have hP := h.page_size_eq
  have hPpos : 0 < s.cfg.page_size := by rw [hP]; exact Nat.pow_pos (by decide)
  obtain ⟨q, hq⟩ := Nat.dvd_of_mod_eq_zero halign
  have hm : (base + k) &&& s.virt_addr_mask = base + k := by
    rw [h.vmask_eq, Nat.and_pow_two_sub_one_eq_mod, Nat.mod_eq_of_lt hfit]
  constructor
  · unfold page_number
    rw [hm, Nat.shiftRight_eq_div_pow, ← hP, hq, Nat.mul_add_div hPpos,
      Nat.div_eq_of_lt hk, Nat.mul_div_cancel_left _ hPpos, Nat.add_zero]
  · rw [hm, h.pomask_eq, Nat.and_pow_two_sub_one_eq_mod, ← hP, hq, Nat.mul_add_mod,
      Nat.mod_eq_of_lt hk]

/-- C3.  On an instance whose only TLB mapping is `load_tlb(base, pbase)` with `base`
page-aligned (all slots were invalid before the load), for every `k < page_size`
such that `base + k` fits in the virtual width, `translate(base + k)` returns OK
with `phys = (((pbase & phys_addr_mask) & ~page_offset_mask) | k) & phys_addr_mask`;
the offset of `phys` inside its page is `k` and its page number is the page number
of `pbase` truncated to the physical width. -/
theorem offset_preservation {s0 : memory_model} (hs : Reachable s0)
    (hempty : ∀ e ∈ s0.tlb, e.valid = false) (base pbase k x : Nat)
    (halign : base % s0.cfg.page_size = 0) (hk : k < s0.cfg.page_size)
    (hfit : base + k < 2 ^ s0.cfg.virt_addr_width) :
    ∃ s1 phys, memory_model_load_tlb (.cell s0) base pbase =
        some (MEMORY_MODEL_ERROR_OK, .cell s1) ∧
      memory_model_translate (.cell s1) (base + k) (.cell x) =
        some (MEMORY_MODEL_STATUS_OK, .cell phys) ∧
      phys = (((pbase &&& s0.phys_addr_mask) &&& not_u64 s0.page_offset_mask) ||| k)
        &&& s0.phys_addr_mask ∧
      phys % s0.cfg.page_size = k ∧
      phys / s0.cfg.page_size = (pbase % 2 ^ s0.cfg.phys_addr_width) / s0.cfg.page_size ∧
      phys &&& s0.page_offset_mask = k := by
  have h := hs.inv
  have h1 := load_state_inv h base pbase
  have hst := h.static
  have hP := hst.page_size_eq
  have hbase : base < 2 ^ s0.cfg.virt_addr_width := by omega
  have hk0 : (0 : Nat) < s0.cfg.page_size := by omega
  obtain ⟨hpn, hoff⟩ := page_number_add_offset hst halign hk hfit
  obtain ⟨hpn0, _⟩ := page_number_add_offset hst (k := 0) halign hk0 (by omega)
  have hslot_page : page_number s0 (base &&& s0.virt_addr_mask) = base / s0.cfg.page_size := by
    have : base &&& s0.virt_addr_mask = base := by
      rw [hst.vmask_eq, Nat.and_pow_two_sub_one_eq_mod, Nat.mod_eq_of_lt hbase]
    rw [this]
    simpa using hpn0
  have hptr : s0.tlb_write_ptr < s0.tlb.length := by rw [h.tlb_len]; exact h.ptr_lt
  have hfind : (load_state s0 base pbase).tlb.find? (slot_hit (load_state s0 base pbase) (base + k))
      = some (loaded_slot s0 base pbase) := by
    apply find_some_of_first _ _ s0.tlb_write_ptr
    · simp [load_state, List.getElem?_set, hptr]
    · change (true && (page_number s0 (base &&& s0.virt_addr_mask) == page_number s0 (base + k)))
        = true
      rw [hslot_page, hpn]
      simp
    · intro i e' hi he'
      simp only [load_state, List.getElem?_set] at he'
      rw [if_neg (by omega)] at he'
      have hv := hempty e' (List.mem_iff_getElem?.mpr ⟨i, he'⟩)
      simp [slot_hit, hv]
  have hphys : slot_phys (load_state s0 base pbase) (loaded_slot s0 base pbase) (base + k)
      = (((pbase &&& s0.phys_addr_mask) &&& not_u64 s0.page_offset_mask) ||| k)
        &&& s0.phys_addr_mask := by
    change ((((pbase &&& s0.phys_addr_mask) &&& s0.phys_addr_mask) &&& not_u64 s0.page_offset_mask)
      ||| (((base + k) &&& s0.virt_addr_mask) &&& s0.page_offset_mask)) &&& s0.phys_addr_mask = _
    rw [hoff, Nat.and_assoc pbase, Nat.and_self]
  have hk' : k < 2 ^ s0.page_offset_bits := by rw [← hP]; exact hk
  have hpb : pbase &&& (2 ^ s0.cfg.phys_addr_width - 1) < 2 ^ s0.cfg.phys_addr_width := by
    rw [Nat.and_pow_two_sub_one_eq_mod]
    exact Nat.mod_lt _ (Nat.pow_pos (by decide))
  obtain ⟨hmod, hdiv⟩ := combine_page_offset hk' hst.pob_le_phys hst.phys_le hpb
  refine ⟨load_state s0 base pbase, _, load_tlb_eq h base pbase,
    (translate_ok_iff h1 (base + k) x _).mpr ⟨_, hfind, rfl⟩, hphys, ?_, ?_, ?_⟩
  · rw [hphys, hP, hst.pomask_eq, hst.pmask_eq]
    exact hmod
  · rw [hphys, hP, hst.pomask_eq, hst.pmask_eq, hdiv, Nat.and_pow_two_sub_one_eq_mod]
  · rw [hphys, hst.pomask_eq, hst.pmask_eq, Nat.and_pow_two_sub_one_eq_mod pbase,
      Nat.and_pow_two_sub_one_eq_mod _ s0.page_offset_bits,
      ← Nat.and_pow_two_sub_one_eq_mod pbase]
    exact hmod

/-- C3, witness: the mapping and address of `test_translation_preserves_offset`
(`load_tlb(0x2000, 0x5000)`, offset `0x123`) on `cfg_small`. -/
theorem offset_preservation_witness :
    Reachable small_fresh ∧ (∀ e ∈ small_fresh.tlb, e.valid = false) ∧
    0x2000 % small_fresh.cfg.page_size = 0 ∧ 0x123 < small_fresh.cfg.page_size ∧
    0x2000 + 0x123 < 2 ^ small_fresh.cfg.virt_addr_width ∧
    ∃ s1 phys, memory_model_load_tlb (.cell small_fresh) 0x2000 0x5000 =
        some (MEMORY_MODEL_ERROR_OK, .cell s1) ∧
      memory_model_translate (.cell s1) (0x2000 + 0x123) (.cell 0) =
        some (MEMORY_MODEL_STATUS_OK, .cell phys) ∧
      phys = (((0x5000 &&& small_fresh.phys_addr_mask) &&& not_u64 small_fresh.page_offset_mask)
        ||| 0x123) &&& small_fresh.phys_addr_mask ∧
      phys % small_fresh.cfg.page_size = 0x123 ∧
      phys / small_fresh.cfg.page_size =
        (0x5000 % 2 ^ small_fresh.cfg.phys_addr_width) / small_fresh.cfg.page_size ∧
      phys &&& small_fresh.page_offset_mask = 0x123 :=
  ⟨small_fresh_reachable, by decide, by decide, by decide, by decide,
    offset_preservation small_fresh_reachable (by decide) 0x2000 0x5000 0x123 0
      (by decide) (by decide) (by decide)⟩


/-! ## C4: lowest-index priority -/

theorem slot_hit_iff (s : memory_model) (a : Nat) (e : tlb_entry) :
    slot_hit s a e = true ↔
      (e.valid = true ∧ page_number s e.virt_base = page_number s a) := by
  simp [slot_hit]

theorem slot_hit_loaded (s : memory_model) (v p : Nat) :
    slot_hit s v (loaded_slot s v p) = true := by
  simp [slot_hit, loaded_slot, page_number, Nat.and_assoc]

/-- On a fresh instance with at least two slots, two loads of the same virtual
address leave the first mapping in slot 0 and translation resolves through it. -/
theorem duplicate_mapping_first_wins {config : Ptr memory_model_config_t}
    {h : Ptr memory_model} {alloc : calloc_results} {s0 : memory_model}
    (hr : config_ptr_in_range config)
    (hc : memory_model_create config (.cell h) alloc =
      some (MEMORY_MODEL_ERROR_OK, .cell (.cell s0)))
    (hcap : 2 ≤ memory_model_tlb_capacity (.cell s0)) (v p1 p2 x : Nat) :
    ∃ s1 s2, memory_model_load_tlb (.cell s0) v p1 = some (MEMORY_MODEL_ERROR_OK, .cell s1) ∧
      memory_model_load_tlb (.cell s1) v p2 = some (MEMORY_MODEL_ERROR_OK, .cell s2) ∧
      memory_model_translate (.cell s2) v (.cell x) =
        some (MEMORY_MODEL_STATUS_OK, .cell (slot_phys s0 (loaded_slot s0 v p1) v)) := by
  obtain ⟨h0, htlb, _, hptr, _⟩ := create_ok_state hr hc
  have h1 := load_state_inv h0 v p1
  have h2 := load_state_inv h1 v p2
  have hcap' : 2 ≤ s0.cfg.tlb_entries := hcap
  have hlen : 0 < s0.tlb.length := by rw [h0.tlb_len]; omega
  have hptr1 : (load_state s0 v p1).tlb_write_ptr = 1 := by
    simp only [load_state, hptr]
    rw [if_pos (by omega)]
  have hfind : (load_state (load_state s0 v p1) v p2).tlb.find?
      (slot_hit (load_state (load_state s0 v p1) v p2) v) = some (loaded_slot s0 v p1) := by
    apply find_some_of_first _ _ 0
    · change ((load_state s0 v p1).tlb.set (load_state s0 v p1).tlb_write_ptr _)[0]? = _
      rw [hptr1, List.getElem?_set]
      simp [load_state, hptr, hlen]
    · exact slot_hit_loaded s0 v p1
    · intro i e' hi
      omega
  exact ⟨_, _, load_tlb_eq h0 v p1, load_tlb_eq h1 v p2,
    (translate_ok_iff h2 v x _).mpr ⟨_, hfind, rfl⟩⟩

/-- C4.  In every reachable state and for every virtual address, if slot `j` is valid
and its page number equals that of the address while no slot of smaller index is
both valid and matching, `translate` returns OK with the physical address computed
from slot `j` (lines 259-261).  In particular, on a fresh instance with at least two
slots, `load_tlb(v, p1)` followed by `load_tlb(v, p2)` makes `translate(v)` resolve
through `p1`. -/
theorem lowest_index_priority :
    (∀ (s : memory_model) (a x j : Nat) (e : tlb_entry), Reachable s →
      s.tlb[j]? = some e →
      (e.valid = true ∧ page_number s e.virt_base = page_number s a) →
      (∀ i e', i < j → s.tlb[i]? = some e' →
        ¬ (e'.valid = true ∧ page_number s e'.virt_base = page_number s a)) →
      memory_model_translate (.cell s) a (.cell x) =
        some (MEMORY_MODEL_STATUS_OK, .cell (slot_phys s e a))) ∧
    (∀ (config : Ptr memory_model_config_t) (h : Ptr memory_model) (alloc : calloc_results)
      (s0 : memory_model) (v p1 p2 x : Nat), config_ptr_in_range config →
      memory_model_create config (.cell h) alloc =
        some (MEMORY_MODEL_ERROR_OK, .cell (.cell s0)) →
      2 ≤ memory_model_tlb_capacity (.cell s0) →
      ∃ s1 s2, memory_model_load_tlb (.cell s0) v p1 = some (MEMORY_MODEL_ERROR_OK, .cell s1) ∧
        memory_model_load_tlb (.cell s1) v p2 = some (MEMORY_MODEL_ERROR_OK, .cell s2) ∧
        memory_model_translate (.cell s2) v (.cell x) =
          some (MEMORY_MODEL_STATUS_OK, .cell (slot_phys s0 (loaded_slot s0 v p1) v))) := by
  constructor
  · intro s a x j e hs hj hhit hmin
    have hfind : s.tlb.find? (slot_hit s a) = some e := by
      apply find_some_of_first _ _ j e hj ((slot_hit_iff s a e).mpr hhit)
      intro i e' hi he'
      have := hmin i e' hi he'
      rw [← slot_hit_iff] at this
      simpa using this
    exact (translate_ok_iff hs.inv a x _).mpr ⟨e, hfind, rfl⟩
  · intro config h alloc s0 v p1 p2 x hr hc hcap
    exact duplicate_mapping_first_wins hr hc hcap v p1 p2 x

theorem small_first_reachable : Reachable small_first :=
  Reachable.step (.load_tlb 0x1000 0x2000) small_fresh_reachable (by decide) (by decide)

theorem small_duplicate_reachable : Reachable small_duplicate :=
  Reachable.step (.load_tlb 0x1000 0x7000) small_first_reachable (by decide) (by decide)

/-- C4, witness: on `cfg_small`, after `load_tlb(0x1000, 0x2000)` and then
`load_tlb(0x1000, 0x7000)`, slot 0 is the lowest matching slot and address `0x1000`
translates through it to `0x2000`. -/
theorem lowest_index_priority_witness :
    Reachable small_duplicate ∧
    small_duplicate.tlb[0]? = some (loaded_slot small_fresh 0x1000 0x2000) ∧
    small_duplicate.tlb[1]? = some (loaded_slot small_fresh 0x1000 0x7000) ∧
    memory_model_translate (.cell small_duplicate) 0x1000 (.cell 0) =
      some (MEMORY_MODEL_STATUS_OK,
        .cell (slot_phys small_duplicate (loaded_slot small_fresh 0x1000 0x2000) 0x1000)) ∧
    slot_phys small_duplicate (loaded_slot small_fresh 0x1000 0x2000) 0x1000 = 0x2000 ∧
    2 ≤ memory_model_tlb_capacity (.cell small_fresh) ∧
    ∃ s1 s2, memory_model_load_tlb (.cell small_fresh) 0x1000 0x2000 =
        some (MEMORY_MODEL_ERROR_OK, .cell s1) ∧
      memory_model_load_tlb (.cell s1) 0x1000 0x7000 = some (MEMORY_MODEL_ERROR_OK, .cell s2) ∧
      memory_model_translate (.cell s2) 0x1000 (.cell 0) =
        some (MEMORY_MODEL_STATUS_OK,
          .cell (slot_phys small_fresh (loaded_slot small_fresh 0x1000 0x2000) 0x1000)) :=
  ⟨small_duplicate_reachable, by decide, by decide,
    lowest_index_priority.1 small_duplicate 0x1000 0 0 (loaded_slot small_fresh 0x1000 0x2000)
      small_duplicate_reachable (by decide) (by decide) (by intro i e' hi; omega),
    by decide, by decide,
    lowest_index_priority.2 (.cell cfg_small) .null calloc_ok small_fresh 0x1000 0x2000 0x7000 0
      (by decide) small_fresh_created (by decide)⟩

/-! ## C5: hit / miss characterisation -/

theorem find_none_iff_no_hit (s : memory_model) (a : Nat) :
    s.tlb.find? (slot_hit s a) = none ↔
      ¬ ∃ e ∈ s.tlb, e.valid = true ∧ page_number s e.virt_base = page_number s a := by
  rw [List.find?_eq_none]
  constructor
  · rintro h ⟨e, he, hhit⟩
    exact h e he ((slot_hit_iff s a e).mpr hhit)
  · intro h e he hhit
    exact h ⟨e, he, (slot_hit_iff s a e).mp hhit⟩

/-- C5.  In every reachable state and for every virtual address `a`, `translate`
returns OK if and only if some valid TLB slot has the page number of `a`; when no
such slot exists it returns `ERR_ADDR` and stores physical address 0.  In particular,
when all slots are invalid and a single mapping of `v` is loaded, every address
whose page number differs from that of `v` misses. -/
theorem translate_hit_iff {s : memory_model} (hs : Reachable s) (a x : Nat) :
    ((∃ p, memory_model_translate (.cell s) a (.cell x) =
        some (MEMORY_MODEL_STATUS_OK, .cell p)) ↔
      ∃ e ∈ s.tlb, e.valid = true ∧ page_number s e.virt_base = page_number s a) ∧
    ((¬ ∃ e ∈ s.tlb, e.valid = true ∧ page_number s e.virt_base = page_number s a) →
      memory_model_translate (.cell s) a (.cell x) =
        some (MEMORY_MODEL_STATUS_ERR_ADDR, .cell 0)) ∧
    ((∀ e ∈ s.tlb, e.valid = false) → ∀ v p, page_number s a ≠ page_number s v →
      ∃ s1, memory_model_load_tlb (.cell s) v p = some (MEMORY_MODEL_ERROR_OK, .cell s1) ∧
        memory_model_translate (.cell s1) a (.cell x) =
          some (MEMORY_MODEL_STATUS_ERR_ADDR, .cell 0)) := by
  have h := hs.inv
  refine ⟨?_, ?_, ?_⟩
  · constructor
    · rintro ⟨p, hp⟩
      obtain ⟨e, hfind, _⟩ := (translate_ok_iff h a x p).mp hp
      exact ⟨e, List.mem_of_find?_eq_some hfind, (slot_hit_iff s a e).mp
        (by simpa using List.find?_some hfind)⟩
    · rintro ⟨e, he, hhit⟩
      obtain ⟨e', hfind⟩ := find_exists_of_mem (slot_hit s a) he ((slot_hit_iff s a e).mpr hhit)
      exact ⟨_, (translate_ok_iff h a x _).mpr ⟨e', hfind, rfl⟩⟩
  · intro hno
    rw [translate_eq h, (find_none_iff_no_hit s a).mpr hno]
  · intro hempty v p hne
    refine ⟨load_state s v p, load_tlb_eq h v p, ?_⟩
    have h1 := load_state_inv h v p
    rw [translate_eq h1]
    have : (load_state s v p).tlb.find? (slot_hit (load_state s v p) a) = none := by
      rw [List.find?_eq_none]
      intro e he
      rcases List.mem_or_eq_of_mem_set he with hmem | heq
      · simp [slot_hit, hempty e hmem]
      · subst heq
        have hpn : page_number s (v &&& s.virt_addr_mask) = page_number s v := by
          simp [page_number, Nat.and_assoc]
        change ¬ ((true && (page_number s (v &&& s.virt_addr_mask) == page_number s a)) = true)
        rw [hpn]
        simpa using fun heq => hne heq.symm
    rw [this]

/-- C5, witness: on `cfg_small` with only virtual page 0 mapped (`small_mapped`), the
address `0x4000` of `test_missing_translation` lies in another page and misses;
before the mapping exists, loading it leaves that address unmapped. -/
theorem translate_hit_iff_witness :
    Reachable small_fresh ∧
    (¬ ∃ e ∈ small_fresh.tlb,
      e.valid = true ∧ page_number small_fresh e.virt_base = page_number small_fresh 0x4000) ∧
    memory_model_translate (.cell small_fresh) 0x4000 (.cell 7) =
      some (MEMORY_MODEL_STATUS_ERR_ADDR, .cell 0) ∧
    ∃ s1, memory_model_load_tlb (.cell small_fresh) 0 0x2000 =
        some (MEMORY_MODEL_ERROR_OK, .cell s1) ∧
      memory_model_translate (.cell s1) 0x4000 (.cell 7) =
        some (MEMORY_MODEL_STATUS_ERR_ADDR, .cell 0) :=
  ⟨small_fresh_reachable, by decide,
    (translate_hit_iff small_fresh_reachable 0x4000 7).2.1 (by decide),
    (translate_hit_iff small_fresh_reachable 0x4000 7).2.2 (by decide) 0 0x2000 (by decide)⟩

/-! ## C6: miss before mapping -/

/-- C6.  On the instance published by a successful `memory_model_create` (no
`load_tlb` yet), for every virtual address, every byte mask valid for the word and
every data value, `read` returns `ERR_ADDR` with data 0 and `write` returns
`ERR_ADDR` (leaving the instance unchanged). -/
theorem miss_before_mapping {config : Ptr memory_model_config_t} {h : Ptr memory_model}
    {alloc : calloc_results} {s : memory_model}
    (hr : config_ptr_in_range config)
    (hc : memory_model_create config (.cell h) alloc =
      some (MEMORY_MODEL_ERROR_OK, .cell (.cell s)))
    (a m d x : Nat) (hm : m < 2 ^ s.bytes_per_word) :
    memory_model_read (.cell s) a m (.cell x) = some (MEMORY_MODEL_STATUS_ERR_ADDR, .cell 0) ∧
    memory_model_write (.cell s) a m d = some (MEMORY_MODEL_STATUS_ERR_ADDR, .cell s) := by
  obtain ⟨h0, htlb, _, _, _⟩ := create_ok_state hr hc
  have hb8 := h0.static.bpw_le
  have hpow : 2 ^ s.bytes_per_word ≤ 2 ^ 32 := Nat.pow_le_pow_right (by decide) (by omega)
  have hfind : s.tlb.find? (slot_hit s a) = none := by
    rw [List.find?_eq_none]
    intro e he
    rw [htlb] at he
    rw [List.eq_of_mem_replicate he]
    simp [slot_hit, empty_slot]
  exact ⟨read_miss h0 a x (by omega) hm hfind, write_miss h0 a d (by omega) hm hfind⟩

/-- C6, witness: the two accesses of `test_missing_translation` before any mapping
exists, on `cfg_small`. -/
theorem miss_before_mapping_witness :
    config_ptr_in_range (.cell cfg_small) ∧
    memory_model_create (.cell cfg_small) (.cell .null) calloc_ok =
      some (MEMORY_MODEL_ERROR_OK, .cell (.cell small_fresh)) ∧
    0xFF < 2 ^ small_fresh.bytes_per_word ∧
    memory_model_read (.cell small_fresh) 0 0xFF (.cell 1) =
      some (MEMORY_MODEL_STATUS_ERR_ADDR, .cell 0) ∧
    memory_model_write (.cell small_fresh) 0 0xFF 0x123456789 =
      some (MEMORY_MODEL_STATUS_ERR_ADDR, .cell small_fresh) :=
  ⟨by decide, small_fresh_created, by decide,
    miss_before_mapping (by decide) small_fresh_created 0 0xFF 0x123456789 1 (by decide)⟩

/-! ## The static members never change -/

theorem static_part_load_state (s : memory_model) (v p : Nat) :
    static_part (load_state s v p) = static_part s := rfl

theorem static_part_reset_state (s : memory_model) :
    static_part (reset_state s) = static_part s := rfl

theorem run_call_static {s s' : memory_model} (h : model_inv s) {c : call}
    (hc : call_in_range c) (hr : run_call s c = some s') :
    static_part s' = static_part s := by
  cases c with
  | load_tlb v p =>
    simp only [run_call, load_tlb_eq h] at hr
    cases hr
    rfl
  | write a m d =>
    obtain ⟨st, mem', hw, _, _, _⟩ := write_total h a d hc.2.1
    simp only [run_call, hw] at hr
    cases hr
    rfl
  | read a m =>
    simp only [run_call] at hr
    split at hr
    · cases hr; rfl
    · cases hr
  | translate a =>
    simp only [run_call] at hr
    split at hr
    · cases hr; rfl
    · cases hr
  | reset =>
    simp only [run_call, reset_eq h] at hr
    cases hr
    rfl

theorem page_number_congr {s s' : memory_model} (h : static_part s' = static_part s)
    (a : Nat) : page_number s' a = page_number s a := by
  simp only [static_part, Prod.mk.injEq] at h
  obtain ⟨_, _, h3, _, _, h6, _, _, _, _⟩ := h
  simp [page_number, h3, h6]

theorem slot_hit_congr {s s' : memory_model} (h : static_part s' = static_part s)
    (a : Nat) (e : tlb_entry) : slot_hit s' a e = slot_hit s a e := by
  simp [slot_hit, page_number_congr h]

theorem slot_phys_congr {s s' : memory_model} (h : static_part s' = static_part s)
    (e : tlb_entry) (a : Nat) : slot_phys s' e a = slot_phys s e a := by
  simp only [static_part, Prod.mk.injEq] at h
  obtain ⟨_, _, _, _, _, h6, h7, h8, _, _⟩ := h
  simp [slot_phys, h6, h7, h8]

theorem loaded_slot_congr {s s' : memory_model} (h : static_part s' = static_part s)
    (v p : Nat) : loaded_slot s' v p = loaded_slot s v p := by
  simp only [static_part, Prod.mk.injEq] at h
  obtain ⟨_, _, _, _, _, h6, h7, _, _, _⟩ := h
  simp [loaded_slot, h6, h7]

theorem capacity_congr {s s' : memory_model} (h : static_part s' = static_part s) :
    s'.cfg.tlb_entries = s.cfg.tlb_entries := by
  simp only [static_part, Prod.mk.injEq] at h
  rw [h.1]

/-! ## Filling the table -/

theorem set_append_replicate {α : Type} (pre : List α) (k : Nat) (e x : α) :
    (pre ++ List.replicate (k + 1) e).set pre.length x = pre ++ [x] ++ List.replicate k e := by
  rw [List.set_append]
  simp [List.replicate_succ]

theorem run_call_load {s : memory_model} (h : model_inv s) (v p : Nat) :
    run_call s (.load_tlb v p) = some (load_state s v p) := by
  simp only [run_call, load_tlb_eq h]

/-- Loading `l` into a table whose first `pre.length` slots hold `pre` and whose
remaining slots are empty, while the cursor stands right behind `pre`, appends the
slots of `l` in order. -/
theorem fill_table (s0 : memory_model) :
    ∀ (l : List (Nat × Nat)) (pre : List tlb_entry) (s : memory_model),
      model_inv s → static_part s = static_part s0 →
      s.tlb = pre ++ List.replicate (s0.cfg.tlb_entries - pre.length) empty_slot →
      pre.length + l.length ≤ s0.cfg.tlb_entries →
      s.tlb_write_ptr = (if pre.length < s0.cfg.tlb_entries then pre.length else 0) →
      ∃ s', run_calls s (load_calls l) = some s' ∧ model_inv s' ∧
        static_part s' = static_part s0 ∧
        s'.tlb = pre ++ l.map (fun vp => loaded_slot s0 vp.1 vp.2) ++
          List.replicate (s0.cfg.tlb_entries - pre.length - l.length) empty_slot ∧
        s'.tlb_write_ptr =
          (if pre.length + l.length < s0.cfg.tlb_entries then pre.length + l.length else 0) := by
  intro l
  induction l with
  | nil =>
    intro pre s h hst htlb _ hptr
    exact ⟨s, rfl, h, hst, by simpa using htlb, by simpa using hptr⟩
  | cons vp l ih =>
    intro pre s h hst htlb hlen hptr
    simp only [List.length_cons] at hlen
    have hlt : pre.length < s0.cfg.tlb_entries := by omega
    rw [if_pos hlt] at hptr
    have hcap := capacity_congr hst
    have hk : s0.cfg.tlb_entries - pre.length = (s0.cfg.tlb_entries - pre.length - 1) + 1 := by
      omega
    have htlb1 : (load_state s vp.1 vp.2).tlb =
        (pre ++ [loaded_slot s0 vp.1 vp.2]) ++
          List.replicate (s0.cfg.tlb_entries - (pre ++ [loaded_slot s0 vp.1 vp.2]).length)
            empty_slot := by
      change s.tlb.set s.tlb_write_ptr (loaded_slot s vp.1 vp.2) = _
      rw [htlb, hptr, hk, set_append_replicate, loaded_slot_congr hst]
      simp only [List.length_append, List.length_singleton]
      congr 2
    have hptr1 : (load_state s vp.1 vp.2).tlb_write_ptr =
        (if (pre ++ [loaded_slot s0 vp.1 vp.2]).length < s0.cfg.tlb_entries
          then (pre ++ [loaded_slot s0 vp.1 vp.2]).length else 0) := by
      change (if s.tlb_write_ptr + 1 < s.cfg.tlb_entries then s.tlb_write_ptr + 1 else 0) = _
      rw [hptr, hcap]
      simp
    obtain ⟨s', hrun, h', hst', htlb', hptr'⟩ := ih (pre ++ [loaded_slot s0 vp.1 vp.2])
      (load_state s vp.1 vp.2) (load_state_inv h vp.1 vp.2) hst htlb1
      (by simp; omega) hptr1
    refine ⟨s', ?_, h', hst', ?_, ?_⟩
    · simp only [load_calls, List.map_cons, run_calls, run_call_load h]
      exact hrun
    · rw [htlb']
      have e1 : s0.cfg.tlb_entries - (pre ++ [loaded_slot s0 vp.1 vp.2]).length - l.length
          = s0.cfg.tlb_entries - pre.length - (vp :: l).length := by
        simp only [List.length_append, List.length_singleton, List.length_cons,
          List.length_nil]
        omega
      rw [e1]
      simp
    · rw [hptr']
      have e : (pre ++ [loaded_slot s0 vp.1 vp.2]).length + l.length
          = pre.length + (vp :: l).length := by
        simp only [List.length_append, List.length_singleton, List.length_cons,
          List.length_nil]
        omega
      rw [e]

theorem run_calls_append (s : memory_model) (l1 l2 : List call) :
    run_calls s (l1 ++ l2) = (run_calls s l1).bind (fun s' => run_calls s' l2) := by
  induction l1 generalizing s with
  | nil => rfl
  | cons c l1 ih =>
    simp only [List.cons_append, run_calls]
    cases run_call s c with
    | none => rfl
    | some s1 => exact ih s1

/-! ## C7: round-robin eviction -/

/-- State of a fresh instance of capacity `mid.length + 1` after the `N + 1` loads
`first, mid, last`: slot 0 holds `last`, the other slots hold `mid`. -/
theorem table_after_wrap {config : Ptr memory_model_config_t} {h : Ptr memory_model}
    {alloc : calloc_results} {s0 : memory_model}
    (hr : config_ptr_in_range config)
    (hc : memory_model_create config (.cell h) alloc =
      some (MEMORY_MODEL_ERROR_OK, .cell (.cell s0)))
    (first : Nat × Nat) (mid : List (Nat × Nat)) (last : Nat × Nat)
    (hN : s0.cfg.tlb_entries = mid.length + 1) :
    ∃ s, run_calls s0 (load_calls (first :: mid ++ [last])) = some s ∧ model_inv s ∧
      static_part s = static_part s0 ∧
      s.tlb = loaded_slot s0 last.1 last.2 :: mid.map (fun vp => loaded_slot s0 vp.1 vp.2) := by
  obtain ⟨h0, htlb, _, hptr, _⟩ := create_ok_state hr hc
  obtain ⟨s1, hrun1, h1, hst1, htlb1, hptr1⟩ := fill_table s0 (first :: mid) [] s0 h0 rfl
    (by simpa using htlb) (by simp [hN]) (by simp [hptr])
  have hlen : (first :: mid).length = s0.cfg.tlb_entries := by simp [hN]
  simp only [List.length_nil, Nat.zero_add, hlen, Nat.lt_irrefl, if_false, Nat.sub_zero,
    Nat.sub_self, List.replicate_zero, List.append_nil, List.nil_append] at htlb1 hptr1
  refine ⟨load_state s1 last.1 last.2, ?_, load_state_inv h1 _ _, ?_, ?_⟩
  · have : load_calls (first :: mid ++ [last]) = load_calls (first :: mid) ++ load_calls [last] := by
      simp [load_calls]
    rw [this, run_calls_append, hrun1]
    simp only [Option.bind, load_calls, List.map_cons, List.map_nil, run_calls,
      run_call_load h1]
  · rw [static_part_load_state, hst1]
  · change s1.tlb.set s1.tlb_write_ptr (loaded_slot s1 last.1 last.2) = _
    rw [htlb1, hptr1, loaded_slot_congr hst1]
    simp

/-- C7.  On a fresh instance of capacity `N = mid.length + 1`, after the `N + 1` calls
`load_tlb` of the mappings `first`, `mid` (in order) and `last`, the first mapping
is no longer used: for every address `a` in the virtual page of `first`, if the
`N + 1` virtual page numbers are pairwise distinct then `translate(a)` returns
`ERR_ADDR`; if `last` has the virtual page of `first` then `translate(a)` returns OK
with the physical address computed from the slot stored for `last`. -/
theorem round_robin_eviction {config : Ptr memory_model_config_t} {h : Ptr memory_model}
    {alloc : calloc_results} {s0 : memory_model}
    (hr : config_ptr_in_range config)
    (hc : memory_model_create config (.cell h) alloc =
      some (MEMORY_MODEL_ERROR_OK, .cell (.cell s0)))
    (first : Nat × Nat) (mid : List (Nat × Nat)) (last : Nat × Nat)
    (hN : memory_model_tlb_capacity (.cell s0) = mid.length + 1)
    (a x : Nat) (ha : page_number s0 a = page_number s0 first.1) :
    ∃ s, run_calls s0 (load_calls (first :: mid ++ [last])) = some s ∧
      (((first :: mid ++ [last]).map (fun vp => page_number s0 vp.1)).Nodup →
        memory_model_translate (.cell s) a (.cell x) =
          some (MEMORY_MODEL_STATUS_ERR_ADDR, .cell 0)) ∧
      (page_number s0 last.1 = page_number s0 first.1 →
        memory_model_translate (.cell s) a (.cell x) =
          some (MEMORY_MODEL_STATUS_OK,
            .cell (slot_phys s0 (loaded_slot s0 last.1 last.2) a))) := by
  obtain ⟨s, hrun, hinv, hst, htlb⟩ := table_after_wrap hr hc first mid last hN
  have hpn : ∀ v, page_number s0 (v &&& s0.virt_addr_mask) = page_number s0 v := by
    intro v
    simp [page_number, Nat.and_assoc]
  refine ⟨s, hrun, ?_, ?_⟩
  · intro hnodup
    have hfind : s.tlb.find? (slot_hit s a) = none := by
      rw [List.find?_eq_none]
      intro e he
      rw [htlb] at he
      have hsrc : ∃ vp ∈ mid ++ [last], e = loaded_slot s0 vp.1 vp.2 := by
        rcases List.mem_cons.mp he with heq | hmem
        · exact ⟨last, by simp, heq⟩
        · obtain ⟨vp, hvp, hvpe⟩ := List.mem_map.mp hmem
          exact ⟨vp, by simp [hvp], hvpe.symm⟩
      obtain ⟨vp, hvp, rfl⟩ := hsrc
      simp only [List.cons_append, List.map_cons, List.nodup_cons, List.mem_map, not_exists,
        not_and] at hnodup
      have hne := hnodup.1 vp hvp
      rw [slot_hit_congr hst]
      change ¬ ((true && (page_number s0 (vp.1 &&& s0.virt_addr_mask) == page_number s0 a))
        = true)
      rw [hpn, ha]
      simpa using hne
    rw [translate_eq hinv, hfind]
  · intro hsame
    have hfind : s.tlb.find? (slot_hit s a) = some (loaded_slot s0 last.1 last.2) := by
      rw [htlb, List.find?_cons]
      have : slot_hit s a (loaded_slot s0 last.1 last.2) = true := by
        rw [slot_hit_congr hst]
        change (true && (page_number s0 (last.1 &&& s0.virt_addr_mask) == page_number s0 a))
          = true
        rw [hpn, ha, hsame]
        simp
      rw [this]
    rw [translate_eq hinv, hfind]
    simp only [slot_phys_congr hst]

/-- C7, witness: the wrap-around scenario of `test_tlb_wraparound` on `cfg_small`
(capacity 4).  With the fifth mapping on virtual page 0 again, address `0x34`
resolves through it to `0x5034`; with a fifth mapping on a new page it misses. -/
theorem round_robin_eviction_witness :
    config_ptr_in_range (.cell cfg_small) ∧
    memory_model_create (.cell cfg_small) (.cell .null) calloc_ok =
      some (MEMORY_MODEL_ERROR_OK, .cell (.cell small_fresh)) ∧
    memory_model_tlb_capacity (.cell small_fresh) = 3 + 1 ∧
    page_number small_fresh 0x34 = page_number small_fresh 0 ∧
    (∃ s, run_calls small_fresh (load_calls
          ((0, 0x1000) :: [(0x1000, 0x2000), (0x2000, 0x3000), (0x3000, 0x4000)]
            ++ [(0, 0x5000)])) = some s ∧
      memory_model_translate (.cell s) 0x34 (.cell 0) =
        some (MEMORY_MODEL_STATUS_OK, .cell 0x5034)) ∧
    (∃ s, run_calls small_fresh (load_calls
          ((0, 0x1000) :: [(0x1000, 0x2000), (0x2000, 0x3000), (0x3000, 0x4000)]
            ++ [(0x4000, 0x5000)])) = some s ∧
      memory_model_translate (.cell s) 0x34 (.cell 0) =
        some (MEMORY_MODEL_STATUS_ERR_ADDR, .cell 0)) := by
  refine ⟨by decide, small_fresh_created, by decide, by decide, ?_, ?_⟩
  · obtain ⟨s, hrun, _, h2⟩ := round_robin_eviction (by decide) small_fresh_created
      (0, 0x1000) [(0x1000, 0x2000), (0x2000, 0x3000), (0x3000, 0x4000)] (0, 0x5000)
      (by decide) 0x34 0 (by decide)
    refine ⟨s, hrun, ?_⟩
    rw [h2 (by decide)]
    decide
  · obtain ⟨s, hrun, h1, _⟩ := round_robin_eviction (by decide) small_fresh_created
      (0, 0x1000) [(0x1000, 0x2000), (0x2000, 0x3000), (0x3000, 0x4000)] (0x4000, 0x5000)
      (by decide) 0x34 0 (by decide)
    exact ⟨s, hrun, h1 (by decide)⟩

/-! ## C8: cursor and count -/

theorem succ_mod_cases (k n : Nat) (hn : 0 < n) :
    (if k % n + 1 < n then k % n + 1 else 0) = (k + 1) % n := by
  have hr : k % n < n := Nat.mod_lt _ hn
  have hk : k + 1 = n * (k / n) + (k % n + 1) := by
    have := Nat.div_add_mod k n
    omega
  by_cases h : k % n + 1 < n
  · rw [if_pos h, hk, Nat.mul_add_mod, Nat.mod_eq_of_lt h]
  · have e : k % n + 1 = n := by omega
    rw [if_neg h, hk, e, Nat.mul_add_mod, Nat.mod_self]

theorem cursor_count_run :
    ∀ (cs : List call) (s : memory_model) (k : Nat), model_inv s →
      (∀ c ∈ cs, call_in_range c ∧ c.is_reset = false) →
      s.tlb_write_ptr = k % s.cfg.tlb_entries →
      s.active_entries = min k s.cfg.tlb_entries →
      ∃ s', run_calls s cs = some s' ∧ model_inv s' ∧ static_part s' = static_part s ∧
        s'.tlb_write_ptr = (k + count_loads cs) % s.cfg.tlb_entries ∧
        s'.active_entries = min (k + count_loads cs) s.cfg.tlb_entries := by
  intro cs
  induction cs with
  | nil =>
    intro s k h _ hp ha
    exact ⟨s, rfl, h, rfl, by simpa [count_loads] using hp, by simpa [count_loads] using ha⟩
  | cons c cs ih =>
    intro s k h hcs hp ha
    have hc := hcs c (List.mem_cons_self _ _)
    have hrest : ∀ c' ∈ cs, call_in_range c' ∧ c'.is_reset = false :=
      fun c' hc' => hcs c' (List.mem_cons_of_mem _ hc')
    have hNpos : 0 < s.cfg.tlb_entries := Nat.pos_of_ne_zero h.static.tlb_entries_pos
    cases c with
    | load_tlb v p =>
      have hp1 : (load_state s v p).tlb_write_ptr = (k + 1) % (load_state s v p).cfg.tlb_entries := by
        change (if s.tlb_write_ptr + 1 < s.cfg.tlb_entries then s.tlb_write_ptr + 1 else 0)
          = (k + 1) % s.cfg.tlb_entries
        rw [hp]
        exact succ_mod_cases k _ hNpos
      have ha1 : (load_state s v p).active_entries
          = min (k + 1) (load_state s v p).cfg.tlb_entries := by
        change (if s.active_entries < s.cfg.tlb_entries then s.active_entries + 1
          else s.active_entries) = min (k + 1) s.cfg.tlb_entries
        rw [ha]
        split <;> omega
      obtain ⟨s', hrun, h', hst, hp', ha'⟩ := ih (load_state s v p) (k + 1)
        (load_state_inv h v p) hrest hp1 ha1
      refine ⟨s', ?_, h', hst, ?_, ?_⟩
      · simp only [run_calls, run_call_load h]
        exact hrun
      · rw [hp']
        change _ % s.cfg.tlb_entries = _
        simp only [count_loads]
        congr 1
        omega
      · rw [ha']
        change min _ s.cfg.tlb_entries = _
        simp only [count_loads]
        congr 1
        omega
    | write a m d =>
      obtain ⟨st, mem', hw, hlen, hb, _⟩ := write_total h a d hc.1.2.1
      obtain ⟨s', hrun, h', hst, hp', ha'⟩ := ih { s with memory := mem' } k
        (memory_update_inv h hlen hb) hrest hp ha
      refine ⟨s', ?_, h', hst, hp', ha'⟩
      simp only [run_calls, run_call, hw]
      exact hrun
    | read a m =>
      obtain ⟨st, data, hrd⟩ := read_total h a 0 hc.1.2
      obtain ⟨s', hrun, h', hst, hp', ha'⟩ := ih s k h hrest hp ha
      refine ⟨s', ?_, h', hst, hp', ha'⟩
      simp only [run_calls, run_call, hrd]
      exact hrun
    | translate a =>
      obtain ⟨s', hrun, h', hst, hp', ha'⟩ := ih s k h hrest hp ha
      refine ⟨s', ?_, h', hst, hp', ha'⟩
      simp only [run_calls, run_call, translate_eq h]
      exact hrun
    | reset =>
      have := hc.2
      simp [call.is_reset] at this

/-- C8.  Starting from the instance published by `memory_model_create`, or from the
state left by `memory_model_reset` on a reachable state, after any sequence of
`load_tlb`, `write`, `read` and `translate` calls (arguments of the C types, no
reset) containing exactly `k = count_loads cs` loads, `memory_model_tlb_write_index`
returns `k mod N` and `memory_model_active_entries` returns `min k N`, where `N` is
the TLB capacity. -/
theorem cursor_and_count {s0 : memory_model}
    (hstart : (∃ config h alloc, config_ptr_in_range config ∧
        memory_model_create config (.cell h) alloc =
          some (MEMORY_MODEL_ERROR_OK, .cell (.cell s0))) ∨
      (∃ s, Reachable s ∧
        memory_model_reset (.cell s) = some (MEMORY_MODEL_ERROR_OK, .cell s0)))
    (cs : List call) (hcs : ∀ c ∈ cs, call_in_range c ∧ c.is_reset = false) :
    ∃ s, run_calls s0 cs = some s ∧
      memory_model_tlb_write_index (.cell s) =
        count_loads cs % memory_model_tlb_capacity (.cell s0) ∧
      memory_model_active_entries (.cell s) =
        min (count_loads cs) (memory_model_tlb_capacity (.cell s0)) := by
  have hinit : model_inv s0 ∧ s0.tlb_write_ptr = 0 ∧ s0.active_entries = 0 := by
    rcases hstart with ⟨config, h, alloc, hr, hc⟩ | ⟨s, hs, hreset⟩
    · obtain ⟨h0, _, _, hp, ha⟩ := create_ok_state hr hc
      exact ⟨h0, hp, ha⟩
    · rw [reset_eq hs.inv] at hreset
      cases hreset
      exact ⟨reset_state_inv hs.inv, rfl, rfl⟩
  obtain ⟨h0, hp, ha⟩ := hinit
  obtain ⟨s, hrun, _, _, hp', ha'⟩ := cursor_count_run cs s0 0 h0 hcs
    (by rw [hp]; simp) (by rw [ha]; simp)
  refine ⟨s, hrun, ?_, ?_⟩
  · simpa [memory_model_tlb_write_index, memory_model_tlb_capacity] using hp'
  · simpa [memory_model_active_entries, memory_model_tlb_capacity] using ha'

/-- C8, witness: the four seeding loads of `test_tlb_wraparound`, its write, and the
fifth load, on `cfg_small` (capacity 4): index 0 and count 4 after four loads,
index 1 and count 4 after the fifth. -/
theorem cursor_and_count_witness :
    (∃ s, run_calls small_fresh
        [.load_tlb 0 0x1000, .load_tlb 0x1000 0x2000, .load_tlb 0x2000 0x3000,
          .load_tlb 0x3000 0x4000] = some s ∧
      memory_model_tlb_write_index (.cell s) = 0 ∧ memory_model_active_entries (.cell s) = 4) ∧
    (∃ s, run_calls small_fresh
        [.load_tlb 0 0x1000, .load_tlb 0x1000 0x2000, .load_tlb 0x2000 0x3000,
          .load_tlb 0x3000 0x4000, .write 0x34 0xFF 0x1111222233334444,
          .load_tlb 0 0x5000, .translate 0x34, .read 0x34 0xFF] = some s ∧
      memory_model_tlb_write_index (.cell s) = 1 ∧ memory_model_active_entries (.cell s) = 4) :=
  ⟨cursor_and_count (Or.inl ⟨.cell cfg_small, .null, calloc_ok, by decide, small_fresh_created⟩)
      [.load_tlb 0 0x1000, .load_tlb 0x1000 0x2000, .load_tlb 0x2000 0x3000,
        .load_tlb 0x3000 0x4000] (by decide),
    cursor_and_count (Or.inl ⟨.cell cfg_small, .null, calloc_ok, by decide, small_fresh_created⟩)
      [.load_tlb 0 0x1000, .load_tlb 0x1000 0x2000, .load_tlb 0x2000 0x3000,
        .load_tlb 0x3000 0x4000, .write 0x34 0xFF 0x1111222233334444,
        .load_tlb 0 0x5000, .translate 0x34, .read 0x34 0xFF] (by decide)⟩

/-! ## C9: reset clears everything -/

theorem reset_state_no_hit (s : memory_model) (a : Nat) :
    (reset_state s).tlb.find? (slot_hit (reset_state s) a) = none := by
  rw [List.find?_eq_none]
  intro e he
  simp only [reset_state] at he
  rw [List.eq_of_mem_replicate he]
  simp [slot_hit, empty_slot]

/-- C9.  In every reachable state `memory_model_reset` returns OK and leaves a state
with `active_entries == 0` and `tlb_write_ptr == 0` in which, for every virtual
address, `translate` returns `ERR_ADDR` (physical address 0), `read` with a valid
mask returns `ERR_ADDR` (data 0) and `write` with a valid mask returns `ERR_ADDR`. -/
theorem reset_clears_everything {s : memory_model} (hs : Reachable s) :
    ∃ s', memory_model_reset (.cell s) = some (MEMORY_MODEL_ERROR_OK, .cell s') ∧
      memory_model_active_entries (.cell s') = 0 ∧
      memory_model_tlb_write_index (.cell s') = 0 ∧
      ∀ a m d x, m < 2 ^ s'.bytes_per_word →
        memory_model_translate (.cell s') a (.cell x) =
          some (MEMORY_MODEL_STATUS_ERR_ADDR, .cell 0) ∧
        memory_model_read (.cell s') a m (.cell x) =
          some (MEMORY_MODEL_STATUS_ERR_ADDR, .cell 0) ∧
        memory_model_write (.cell s') a m d =
          some (MEMORY_MODEL_STATUS_ERR_ADDR, .cell s') := by
  have h := hs.inv
  have h' := reset_state_inv h
  refine ⟨reset_state s, reset_eq h, rfl, rfl, ?_⟩
  intro a m d x hm
  have hb8 := h'.static.bpw_le
  have hpow : 2 ^ (reset_state s).bytes_per_word ≤ 2 ^ 32 :=
    Nat.pow_le_pow_right (by decide) (by omega)
  have hfind := reset_state_no_hit s a
  refine ⟨?_, read_miss h' a x (by omega) hm hfind, write_miss h' a d (by omega) hm hfind⟩
  rw [translate_eq h', hfind]

/-- C9, witness: the scenario of `test_reset_clears_state` on `cfg_small`, reset after
a mapping and a write; the read of the written address then returns `ERR_ADDR`. -/
theorem reset_clears_everything_witness :
    Reachable small_written ∧
    ∃ s', memory_model_reset (.cell small_written) = some (MEMORY_MODEL_ERROR_OK, .cell s') ∧
      memory_model_active_entries (.cell s') = 0 ∧
      memory_model_tlb_write_index (.cell s') = 0 ∧
      ∀ a m d x, m < 2 ^ s'.bytes_per_word →
        memory_model_translate (.cell s') a (.cell x) =
          some (MEMORY_MODEL_STATUS_ERR_ADDR, .cell 0) ∧
        memory_model_read (.cell s') a m (.cell x) =
          some (MEMORY_MODEL_STATUS_ERR_ADDR, .cell 0) ∧
        memory_model_write (.cell s') a m d =
          some (MEMORY_MODEL_STATUS_ERR_ADDR, .cell s') :=
  ⟨small_written_reachable, reset_clears_everything small_written_reachable⟩

/-! ## C10: reset zeroes storage and preserves configuration -/

theorem run_calls_zero_store :
    ∀ (cs : List call) (s s' : memory_model), model_inv s →
      (∀ c ∈ cs, call_in_range c ∧ c.is_write = false) →
      (∀ b ∈ s.memory, b = 0) → run_calls s cs = some s' →
      model_inv s' ∧ ∀ b ∈ s'.memory, b = 0 := by
  intro cs
  induction cs with
  | nil =>
    intro s s' h _ hz hrun
    simp only [run_calls] at hrun
    cases hrun
    exact ⟨h, hz⟩
  | cons c cs ih =>
    intro s s' h hcs hz hrun
    have hc := hcs c (List.mem_cons_self _ _)
    have hrest : ∀ c' ∈ cs, call_in_range c' ∧ c'.is_write = false :=
      fun c' hc' => hcs c' (List.mem_cons_of_mem _ hc')
    simp only [run_calls] at hrun
    cases hstep : run_call s c with
    | none => rw [hstep] at hrun; cases hrun
    | some s1 =>
      rw [hstep] at hrun
      have h1 := run_call_inv h hc.1 hstep
      have hz1 : ∀ b ∈ s1.memory, b = 0 := by
        cases c with
        | load_tlb v p =>
          simp only [run_call, load_tlb_eq h] at hstep
          cases hstep
          exact hz
        | write a m d =>
          have := hc.2
          simp [call.is_write] at this
        | read a m =>
          simp only [run_call] at hstep
          split at hstep
          · cases hstep; exact hz
          · cases hstep
        | translate a =>
          simp only [run_call] at hstep
          split at hstep
          · cases hstep; exact hz
          · cases hstep
        | reset =>
          simp only [run_call, reset_eq h] at hstep
          cases hstep
          intro b hb
          exact List.eq_of_mem_replicate hb
      exact ih s1 s' h1 hrest hz1 hrun

theorem read_zero_store {s : memory_model} (h : model_inv s) (hz : ∀ b ∈ s.memory, b = 0)
    {a m x data : Nat} (hm32 : m < 2 ^ 32)
    (hr : memory_model_read (.cell s) a m (.cell x) =
      some (MEMORY_MODEL_STATUS_OK, .cell data)) : data = 0 := by
  by_cases hm : m < 2 ^ s.bytes_per_word
  · cases hfind : s.tlb.find? (slot_hit s a) with
    | none =>
      rw [read_miss h a x hm32 hm hfind] at hr
      cases hr
    | some e =>
      by_cases hok : index_ok s (word_index s (slot_phys s e a))
      · obtain ⟨data', hr', hbits⟩ := read_ok h a x hm32 hm hfind hok
        rw [hr'] at hr
        cases hr
        apply Nat.eq_of_testBit_eq
        intro k
        rw [hbits k]
        have hbyte : s.memory.getD (word_index s (slot_phys s e a) * s.bytes_per_word + k / 8) 0
            = 0 := by
          rw [List.getD_eq_getElem?_getD]
          cases hg : s.memory[word_index s (slot_phys s e a) * s.bytes_per_word + k / 8]? with
          | none => rfl
          | some b => exact hz b (List.mem_iff_getElem?.mpr ⟨_, hg⟩)
        rw [hbyte]
        simp
      · rw [read_bad_index h a x hm32 hm hfind hok] at hr
        cases hr
  · rw [read_bad_mask h a x hm32 hm] at hr
    cases hr

/-- C10.  In every reachable state `memory_model_reset` returns OK and leaves a
state whose backing store has the same size with every byte 0, whose TLB has the
same capacity with every slot invalid, and whose configuration and derived masks
and bit counts are unchanged.  After it, following any sequence of calls that
contains no write (loads, reads, translates, resets, arguments of the C types), every
read that returns OK returns data 0. -/
theorem reset_zeroes_storage {s : memory_model} (hs : Reachable s) :
    ∃ s', memory_model_reset (.cell s) = some (MEMORY_MODEL_ERROR_OK, .cell s') ∧
      s'.memory.length = s.memory.length ∧ (∀ b ∈ s'.memory, b = 0) ∧
      s'.tlb.length = s.tlb.length ∧ (∀ e ∈ s'.tlb, e.valid = false) ∧
      memory_model_get_config (.cell s') = memory_model_get_config (.cell s) ∧
      memory_model_tlb_capacity (.cell s') = memory_model_tlb_capacity (.cell s) ∧
      static_part s' = static_part s ∧
      ∀ (cs : List call) (s'' : memory_model) (a m x data : Nat),
        (∀ c ∈ cs, call_in_range c ∧ c.is_write = false) →
        run_calls s' cs = some s'' → m < 2 ^ 32 →
        memory_model_read (.cell s'') a m (.cell x) =
          some (MEMORY_MODEL_STATUS_OK, .cell data) →
        data = 0 := by
  have h := hs.inv
  have h' := reset_state_inv h
  have hz : ∀ b ∈ (reset_state s).memory, b = 0 := fun b hb => List.eq_of_mem_replicate hb
  refine ⟨reset_state s, reset_eq h, ?_, hz, ?_, ?_, rfl, rfl, rfl, ?_⟩
  · rw [h'.mem_len, h.mem_len]
    rfl
  · rw [h'.tlb_len, h.tlb_len]
    rfl
  · intro e he
    simp only [reset_state] at he
    rw [List.eq_of_mem_replicate he]
    rfl
  · intro cs s'' a m x data hcs hrun hm32 hr
    obtain ⟨h'', hz''⟩ := run_calls_zero_store cs (reset_state s) s'' h' hcs hz hrun
    exact read_zero_store h'' hz'' hm32 hr

/-- C10, witness: `small_written` holds `0xFFEEDDCCBBAA9988` at address `0x10`; after
a reset and a new mapping of page 0 the same read returns 0. -/
theorem reset_zeroes_storage_witness :
    Reachable small_written ∧
    memory_model_read (.cell small_written) 0x10 0xFF (.cell 0) =
      some (MEMORY_MODEL_STATUS_OK, .cell 0xFFEEDDCCBBAA9988) ∧
    ∃ s' s'', memory_model_reset (.cell small_written) =
        some (MEMORY_MODEL_ERROR_OK, .cell s') ∧
      static_part s' = static_part small_written ∧
      run_calls s' [.load_tlb 0 0x4000] = some s'' ∧
      memory_model_read (.cell s'') 0x10 0xFF (.cell 0) =
        some (MEMORY_MODEL_STATUS_OK, .cell 0) := by
  refine ⟨small_written_reachable, by decide, ?_⟩
  obtain ⟨s', hreset, _, _, _, _, _, _, hst, hread⟩ :=
    reset_zeroes_storage small_written_reachable
  have hs' : s' = reset_state small_written := by
    rw [reset_eq small_written_reachable.inv] at hreset
    cases hreset
    rfl
  subst hs'
  refine ⟨_, load_state (reset_state small_written) 0 0x4000, hreset, hst, by decide, ?_⟩
  have hr : ∃ data, memory_model_read
      (.cell (load_state (reset_state small_written) 0 0x4000)) 0x10 0xFF (.cell 0) =
        some (MEMORY_MODEL_STATUS_OK, .cell data) := ⟨0, by decide⟩
  obtain ⟨data, hd⟩ := hr
  have := hread [.load_tlb 0 0x4000] _ 0x10 0xFF 0 data (by decide) (by decide) (by decide) hd
  rw [hd, this]

/-! ## C11: a zero-mask write is a no-op -/

/-- C11.  In every reachable state, for every virtual address `a` and data `d`,
`write(a, 0, d)` returns with the entire instance unchanged; its status is OK
whenever `a` translates successfully (and `ERR_ADDR` otherwise), so every read
issued after it returns exactly what it would have returned before. -/
theorem zero_mask_write_noop {s : memory_model} (hs : Reachable s) (a d : Nat) :
    ∃ st, memory_model_write (.cell s) a 0 d = some (st, .cell s) ∧
      ((∃ p x, memory_model_translate (.cell s) a (.cell x) =
          some (MEMORY_MODEL_STATUS_OK, .cell p)) → st = MEMORY_MODEL_STATUS_OK) ∧
      ((¬ ∃ p x, memory_model_translate (.cell s) a (.cell x) =
          some (MEMORY_MODEL_STATUS_OK, .cell p)) → st = MEMORY_MODEL_STATUS_ERR_ADDR) ∧
      ∀ s' st', memory_model_write (.cell s) a 0 d = some (st', .cell s') →
        s' = s ∧
        ∀ a' m x, memory_model_read (.cell s') a' m (.cell x) =
          memory_model_read (.cell s) a' m (.cell x) := by
  have h := hs.inv
  have hpos : 0 < 2 ^ s.bytes_per_word := Nat.pow_pos (by decide)
  cases hfind : s.tlb.find? (slot_hit s a) with
  | none =>
    have hw := write_miss h a d (by decide : 0 < 2 ^ 32) hpos hfind
    refine ⟨_, hw, ?_, fun _ => rfl, ?_⟩
    · rintro ⟨p, x, hp⟩
      obtain ⟨e, he, _⟩ := (translate_ok_iff h a x p).mp hp
      rw [hfind] at he
      cases he
    · intro s' st' hw'
      rw [hw] at hw'
      cases hw'
      exact ⟨rfl, fun _ _ _ => rfl⟩
  | some e =>
    have hw := write_zero_mask h a d hfind
    refine ⟨_, hw, fun _ => rfl, ?_, ?_⟩
    · intro hno
      exact absurd ⟨_, 0, (translate_ok_iff h a 0 _).mpr ⟨e, hfind, rfl⟩⟩ hno
    · intro s' st' hw'
      rw [hw] at hw'
      cases hw'
      exact ⟨rfl, fun _ _ _ => rfl⟩

/-- C11, witness: on `small_written` (page 0 mapped, `0xFFEEDDCCBBAA9988` stored at
`0x10`) the zero-mask write of another value returns OK and changes nothing. -/
theorem zero_mask_write_noop_witness :
    Reachable small_written ∧
    memory_model_write (.cell small_written) 0x10 0 0x1122334455667788 =
      some (MEMORY_MODEL_STATUS_OK, .cell small_written) ∧
    memory_model_read (.cell small_written) 0x10 0 (.cell 0) =
      some (MEMORY_MODEL_STATUS_OK, .cell 0xFFEEDDCCBBAA9988) ∧
    ∃ st, memory_model_write (.cell small_written) 0x10 0 0x1122334455667788 =
        some (st, .cell small_written) ∧
      ((∃ p x, memory_model_translate (.cell small_written) 0x10 (.cell x) =
          some (MEMORY_MODEL_STATUS_OK, .cell p)) → st = MEMORY_MODEL_STATUS_OK) ∧
      ((¬ ∃ p x, memory_model_translate (.cell small_written) 0x10 (.cell x) =
          some (MEMORY_MODEL_STATUS_OK, .cell p)) → st = MEMORY_MODEL_STATUS_ERR_ADDR) ∧
      ∀ s' st', memory_model_write (.cell small_written) 0x10 0 0x1122334455667788 =
          some (st', .cell s') →
        s' = small_written ∧
        ∀ a' m x, memory_model_read (.cell s') a' m (.cell x) =
          memory_model_read (.cell small_written) a' m (.cell x) :=
  ⟨small_written_reachable, by decide, by decide,
    zero_mask_write_noop small_written_reachable 0x10 0x1122334455667788⟩

/-! ## C12: a zero-mask read is a full read -/

/-- C12.  In every reachable state and for every virtual address `a`, `read(a, 0)`
returns the same status and the same data as `read(a, full_mask)` with
`full_mask = 2 ^ bytes_per_word - 1`. -/
theorem zero_mask_read_full {s : memory_model} (hs : Reachable s) (a x : Nat) :
    ∃ st data, memory_model_read (.cell s) a 0 (.cell x) = some (st, .cell data) ∧
      memory_model_read (.cell s) a (2 ^ s.bytes_per_word - 1) (.cell x) =
        some (st, .cell data) := by
  have h := hs.inv
  have hb8 := h.static.bpw_le
  have hpos : 0 < 2 ^ s.bytes_per_word := Nat.pow_pos (by decide)
  have hpow : 2 ^ s.bytes_per_word ≤ 2 ^ 32 := Nat.pow_le_pow_right (by decide) (by omega)
  have hf : 2 ^ s.bytes_per_word - 1 < 2 ^ s.bytes_per_word := by omega
  have hf32 : 2 ^ s.bytes_per_word - 1 < 2 ^ 32 := by omega
  have h032 : (0 : Nat) < 2 ^ 32 := by decide
  cases hfind : s.tlb.find? (slot_hit s a) with
  | none =>
    exact ⟨_, _, read_miss h a x h032 hpos hfind, read_miss h a x hf32 hf hfind⟩
  | some e =>
    by_cases hok : index_ok s (word_index s (slot_phys s e a))
    · obtain ⟨d0, hr0, hb0⟩ := read_ok h a x h032 hpos hfind hok
      obtain ⟨d1, hr1, hb1⟩ := read_ok h a x hf32 hf hfind hok
      have : d1 = d0 := by
        apply Nat.eq_of_testBit_eq
        intro k
        rw [hb0 k, hb1 k, Nat.testBit_two_pow_sub_one]
        by_cases hk : k / 8 < s.bytes_per_word <;> simp [hk]
      subst this
      exact ⟨_, _, hr0, hr1⟩
    · exact ⟨_, _, read_bad_index h a x h032 hpos hfind hok,
        read_bad_index h a x hf32 hf hfind hok⟩

theorem small_rewritten_reachable : Reachable small_rewritten :=
  Reachable.run_calls small_written_reachable [.write 0x10 0x0F 0x1122334455667788]
    (by decide) (by decide)

/-- C12, witness: the two reads of `test_byte_mask_operations` after the masked
overwrite, on `cfg_small`: mask 0 and mask `0xFF` both return `0xFFEEDDCC55667788`. -/
theorem zero_mask_read_full_witness :
    Reachable small_rewritten ∧ 2 ^ small_rewritten.bytes_per_word - 1 = 0xFF ∧
    memory_model_read (.cell small_rewritten) 0x10 0 (.cell 0) =
      some (MEMORY_MODEL_STATUS_OK, .cell 0xFFEEDDCC55667788) ∧
    ∃ st data, memory_model_read (.cell small_rewritten) 0x10 0 (.cell 0) =
        some (st, .cell data) ∧
      memory_model_read (.cell small_rewritten) 0x10
          (2 ^ small_rewritten.bytes_per_word - 1) (.cell 0) = some (st, .cell data) :=
  ⟨small_rewritten_reachable, by decide, by decide,
    zero_mask_read_full small_rewritten_reachable 0x10 0⟩

/-! ## C13: malformed masks -/

/-- C13.  In every reachable state, for every address and data, if the `uint32_t`
byte mask has a bit set at a position `≥ bytes_per_word` then `read` returns
`ERR_ACCESS` with data 0 and `write` returns `ERR_WRITE` with the instance
unchanged, whether or not the address is mapped. -/
theorem malformed_mask {s : memory_model} (hs : Reachable s) (a d x : Nat) {m : Nat}
    (hm32 : m < 2 ^ 32) (hbit : ∃ i, s.bytes_per_word ≤ i ∧ m.testBit i = true) :
    memory_model_read (.cell s) a m (.cell x) =
      some (MEMORY_MODEL_STATUS_ERR_ACCESS, .cell 0) ∧
    memory_model_write (.cell s) a m d = some (MEMORY_MODEL_STATUS_ERR_WRITE, .cell s) := by
  have h := hs.inv
  have hm : ¬ m < 2 ^ s.bytes_per_word := by
    intro hlt
    obtain ⟨i, hi, hb⟩ := hbit
    rw [(lt_two_pow_iff_testBit m s.bytes_per_word).mp hlt i hi] at hb
    cases hb
  exact ⟨read_bad_mask h a x hm32 hm, write_bad_mask h a d hm32 hm⟩

/-- C13, witness: on `cfg_small` (8 bytes per word) the mask `0x100` has bit 8 set;
the accesses fail on a mapped address (`0x10` in `small_mapped`) and on an unmapped
one (`0x5000`). -/
theorem malformed_mask_witness :
    Reachable small_mapped ∧ 0x100 < 2 ^ 32 ∧
    (∃ i, small_mapped.bytes_per_word ≤ i ∧ (0x100).testBit i = true) ∧
    (memory_model_read (.cell small_mapped) 0x10 0x100 (.cell 7) =
        some (MEMORY_MODEL_STATUS_ERR_ACCESS, .cell 0) ∧
      memory_model_write (.cell small_mapped) 0x10 0x100 0xAB =
        some (MEMORY_MODEL_STATUS_ERR_WRITE, .cell small_mapped)) ∧
    (memory_model_read (.cell small_mapped) 0x5000 0x100 (.cell 7) =
        some (MEMORY_MODEL_STATUS_ERR_ACCESS, .cell 0) ∧
      memory_model_write (.cell small_mapped) 0x5000 0x100 0xAB =
        some (MEMORY_MODEL_STATUS_ERR_WRITE, .cell small_mapped)) :=
  ⟨small_mapped_reachable, by decide, ⟨8, by decide, by decide⟩,
    malformed_mask small_mapped_reachable 0x10 0xAB 7 (by decide) ⟨8, by decide, by decide⟩,
    malformed_mask small_mapped_reachable 0x5000 0xAB 7 (by decide) ⟨8, by decide, by decide⟩⟩

/-! ## C14: the bound check -/

theorem ceil_log2_u32_eq_clog {v : Nat} (h : v < 2 ^ 32) :
    ceil_log2_u32 v = some (Nat.clog 2 v) := by
  obtain ⟨n, _, heq, hle, hgt⟩ := ceil_log2_u32_spec h
  have h1 : Nat.clog 2 v ≤ n := (Nat.le_pow_iff_clog_le (by decide)).mp hle
  have h2 : n ≤ Nat.clog 2 v := by
    by_cases hn : n = 0
    · omega
    · have := (Nat.pow_lt_iff_lt_clog (by decide)).mp (hgt hn)
      omega
  rw [heq]
  congr 1
  omega

theorem static_inv.mab_eq {s : memory_model} (h : static_inv s) :
    s.mem_addr_bits = Nat.clog 2 s.cfg.mem_depth := by
  have := h.mab
  rw [ceil_log2_u32_eq_clog h.in_range.2.2.2.2.1] at this
  exact (Option.some.inj this).symm

theorem static_inv.mamask_eq {s : memory_model} (h : static_inv s) :
    s.mem_addr_mask = 2 ^ Nat.clog 2 s.cfg.mem_depth - 1 := by
  have hr := h.in_range.2.2.2.2.1
  have hpos : s.cfg.mem_depth > 0 := Nat.pos_of_ne_zero h.mem_depth_pos
  have hbits : s.mem_addr_bits ≤ 32 := ceil_log2_u32_le hr h.mab
  rw [h.mamask, h.pow2]
  unfold mem_addr_mask_of
  cases hp : is_power_of_two s.cfg.mem_depth with
  | true =>
    obtain ⟨k, hk⟩ := exists_two_pow_of_is_power_of_two hp
    simp only [Bool.true_and, decide_eq_true_eq, hpos, if_true]
    rw [Nat.mod_eq_of_lt (by omega), hk, Nat.clog_pow 2 k (by decide)]
  | false =>
    have h64 : ¬ s.mem_addr_bits ≥ 64 := by omega
    simp only [Bool.false_and, Bool.false_eq_true, if_false, h64]
    rw [← h.mab_eq]
    by_cases h0 : s.mem_addr_bits = 0
    · simp [h0]
    · simp [h0, Nat.one_shiftLeft]

theorem static_inv.word_index_eq {s : memory_model} (h : static_inv s) (p : Nat) :
    word_index s p = p &&& s.mem_addr_mask := by
  unfold word_index SIZE_WIDTH
  apply Nat.mod_eq_of_lt
  have hbits : Nat.clog 2 s.cfg.mem_depth ≤ 32 := by
    rw [← h.mab_eq]
    exact ceil_log2_u32_le h.in_range.2.2.2.2.1 h.mab
  have h1 : p &&& s.mem_addr_mask ≤ s.mem_addr_mask := Nat.and_le_right
  have h2 : (2 : Nat) ^ Nat.clog 2 s.cfg.mem_depth ≤ 2 ^ 32 :=
    Nat.pow_le_pow_right (by decide) hbits
  have h3 := h.mamask_eq
  omega

theorem index_ok_iff {s : memory_model} (h : static_inv s) (p : Nat) :
    index_ok s (word_index s p) ↔
      (is_power_of_two s.cfg.mem_depth = true ∨ p &&& s.mem_addr_mask < s.cfg.mem_depth) := by
  unfold index_ok
  rw [h.word_index_eq, h.pow2]

/-- C14.  In every reachable state the index mask is
`mem_addr_mask = 2 ^ ceil(log2(mem_depth)) - 1`.  For an access to an address whose
translation succeeds with physical address `p`: when `mem_depth` is not a power of
two, a read with a valid mask returns `ERR_ACCESS` (then with data 0), and a write
with a non-zero valid mask returns `ERR_ACCESS` (then with the instance unchanged),
if and only if `(p & mem_addr_mask) >= mem_depth`; when `mem_depth` is a power of
two, `(q & mem_addr_mask) < mem_depth` for every `q` and neither access returns
`ERR_ACCESS`. -/
theorem bound_check {s : memory_model} (hs : Reachable s) (a x d p m : Nat)
    (hm : m < 2 ^ s.bytes_per_word)
    (htr : memory_model_translate (.cell s) a (.cell 0) =
      some (MEMORY_MODEL_STATUS_OK, .cell p)) :
    s.mem_addr_mask = 2 ^ Nat.clog 2 s.cfg.mem_depth - 1 ∧
    (∃ st data, memory_model_read (.cell s) a m (.cell x) = some (st, .cell data) ∧
      (st = MEMORY_MODEL_STATUS_ERR_ACCESS → data = 0) ∧
      (is_power_of_two s.cfg.mem_depth = false →
        (st = MEMORY_MODEL_STATUS_ERR_ACCESS ↔ s.cfg.mem_depth ≤ p &&& s.mem_addr_mask)) ∧
      (is_power_of_two s.cfg.mem_depth = true → st ≠ MEMORY_MODEL_STATUS_ERR_ACCESS)) ∧
    (m ≠ 0 →
      ∃ st s', memory_model_write (.cell s) a m d = some (st, .cell s') ∧
        (st = MEMORY_MODEL_STATUS_ERR_ACCESS → s' = s) ∧
        (is_power_of_two s.cfg.mem_depth = false →
          (st = MEMORY_MODEL_STATUS_ERR_ACCESS ↔ s.cfg.mem_depth ≤ p &&& s.mem_addr_mask)) ∧
        (is_power_of_two s.cfg.mem_depth = true → st ≠ MEMORY_MODEL_STATUS_ERR_ACCESS)) ∧
    (is_power_of_two s.cfg.mem_depth = true → ∀ q, q &&& s.mem_addr_mask < s.cfg.mem_depth) := by
  have h := hs.inv
  have hb8 := h.static.bpw_le
  have hpow : 2 ^ s.bytes_per_word ≤ 2 ^ 32 := Nat.pow_le_pow_right (by decide) (by omega)
  have hm32 : m < 2 ^ 32 := by omega
  obtain ⟨e, hfind, hp⟩ := (translate_ok_iff h a 0 p).mp htr
  subst hp
  have hiff := index_ok_iff h.static (slot_phys s e a)
  refine ⟨h.static.mamask_eq, ?_, ?_, ?_⟩
  · by_cases hok : index_ok s (word_index s (slot_phys s e a))
    · obtain ⟨data, hr, _⟩ := read_ok h a x hm32 hm hfind hok
      refine ⟨_, data, hr, (by intro hc; cases hc), ?_, (by intro _ hc; cases hc)⟩
      intro hnp
      constructor
      · intro hc; cases hc
      · intro hge
        rcases hiff.mp hok with hp2 | hlt
        · rw [hnp] at hp2; cases hp2
        · omega
    · refine ⟨_, 0, read_bad_index h a x hm32 hm hfind hok, fun _ => rfl, ?_, ?_⟩
      · intro _
        constructor
        · intro _
          by_contra hlt
          exact hok (hiff.mpr (Or.inr (by omega)))
        · intro _; rfl
      · intro hp2
        exact absurd (hiff.mpr (Or.inl hp2)) hok
  · intro hm0
    by_cases hok : index_ok s (word_index s (slot_phys s e a))
    · obtain ⟨mem', hw, _, _⟩ := write_ok h a d hm32 hm hm0 hfind hok
      refine ⟨_, _, hw, (by intro hc; cases hc), ?_, (by intro _ hc; cases hc)⟩
      intro hnp
      constructor
      · intro hc; cases hc
      · intro hge
        rcases hiff.mp hok with hp2 | hlt
        · rw [hnp] at hp2; cases hp2
        · omega
    · refine ⟨_, s, write_bad_index h a d hm32 hm hm0 hfind hok, fun _ => rfl, ?_, ?_⟩
      · intro _
        constructor
        · intro _
          by_contra hlt
          exact hok (hiff.mpr (Or.inr (by omega)))
        · intro _; rfl
      · intro hp2
        exact absurd (hiff.mpr (Or.inl hp2)) hok
  · intro hp2 q
    have := h.static.word_index_lt (p := q) (Or.inl (by rw [h.static.pow2]; exact hp2))
    rwa [h.static.word_index_eq] at this

/-- C14, witness: on `cfg_depth3` (3 words, mask 3) with page 0 mapped, address 3
translates to physical address 3, whose index 3 is not below the depth: the read and
the write with mask 1 return `ERR_ACCESS`. -/
theorem bound_check_witness :
    Reachable depth3_mapped ∧ 1 < 2 ^ depth3_mapped.bytes_per_word ∧
    memory_model_translate (.cell depth3_mapped) 3 (.cell 0) =
      some (MEMORY_MODEL_STATUS_OK, .cell 3) ∧
    is_power_of_two depth3_mapped.cfg.mem_depth = false ∧
    depth3_mapped.cfg.mem_depth ≤ 3 &&& depth3_mapped.mem_addr_mask ∧
    memory_model_read (.cell depth3_mapped) 3 1 (.cell 7) =
      some (MEMORY_MODEL_STATUS_ERR_ACCESS, .cell 0) ∧
    memory_model_write (.cell depth3_mapped) 3 1 0xAB =
      some (MEMORY_MODEL_STATUS_ERR_ACCESS, .cell depth3_mapped) ∧
    depth3_mapped.mem_addr_mask = 2 ^ Nat.clog 2 depth3_mapped.cfg.mem_depth - 1 ∧
    (∃ st data, memory_model_read (.cell depth3_mapped) 3 1 (.cell 7) =
        some (st, .cell data) ∧
      (st = MEMORY_MODEL_STATUS_ERR_ACCESS → data = 0) ∧
      (is_power_of_two depth3_mapped.cfg.mem_depth = false →
        (st = MEMORY_MODEL_STATUS_ERR_ACCESS ↔
          depth3_mapped.cfg.mem_depth ≤ 3 &&& depth3_mapped.mem_addr_mask)) ∧
      (is_power_of_two depth3_mapped.cfg.mem_depth = true →
        st ≠ MEMORY_MODEL_STATUS_ERR_ACCESS)) :=
  ⟨depth3_mapped_reachable, by decide, by decide, by decide, by decide, by decide, by decide,
    (bound_check depth3_mapped_reachable 3 7 0xAB 3 1 (by decide) (by decide)).1,
    (bound_check depth3_mapped_reachable 3 7 0xAB 3 1 (by decide) (by decide)).2.1⟩

/-! ## C15: out-of-range physical addresses -/

/-- C15, counterexample.  On the valid configuration `cfg_small` (32 words) with
virtual page 0 mapped to physical base `0x4000`, address `0x10` translates to the
physical address `0x4010 >= mem_depth`, yet the write and the read return OK: the
address is reduced by the index mask to word `0x10`, whose first byte is modified. -/
theorem out_of_range_counterexample :
    memory_model_translate (.cell small_mapped) 0x10 (.cell 0) =
        some (MEMORY_MODEL_STATUS_OK, .cell 0x4010) ∧
      small_mapped.cfg.mem_depth = 32 ∧ small_mapped.cfg.mem_depth ≤ 0x4010 ∧
      memory_model_write (.cell small_mapped) 0x10 0xFF 0xFFEEDDCCBBAA9988 =
        some (MEMORY_MODEL_STATUS_OK, .cell small_written) ∧
      small_mapped.memory[0x10 * 8]? = some 0 ∧ small_written.memory[0x10 * 8]? = some 0x88 ∧
      memory_model_read (.cell small_written) 0x10 0xFF (.cell 0) =
        some (MEMORY_MODEL_STATUS_OK, .cell 0xFFEEDDCCBBAA9988) := by
  decide

/-- C15, amended.  In every reachable state, for an access to an address whose
translation succeeds with physical address `p`, the word index is
`p & mem_addr_mask = p mod 2 ^ ceil(log2(mem_depth))`.  When that index is
`>= mem_depth`, a read with a valid mask returns `ERR_ACCESS` with data 0 and a
write with a non-zero valid mask returns `ERR_ACCESS` with the instance unchanged;
when it is below `mem_depth` both return OK, whatever the size of `p` itself. -/
theorem out_of_range_reported {s : memory_model} (hs : Reachable s) (a x d p m : Nat)
    (hm : m < 2 ^ s.bytes_per_word)
    (htr : memory_model_translate (.cell s) a (.cell 0) =
      some (MEMORY_MODEL_STATUS_OK, .cell p)) :
    p &&& s.mem_addr_mask = p % 2 ^ Nat.clog 2 s.cfg.mem_depth ∧
    (s.cfg.mem_depth ≤ p &&& s.mem_addr_mask →
      memory_model_read (.cell s) a m (.cell x) =
        some (MEMORY_MODEL_STATUS_ERR_ACCESS, .cell 0) ∧
      (m ≠ 0 → memory_model_write (.cell s) a m d =
        some (MEMORY_MODEL_STATUS_ERR_ACCESS, .cell s))) ∧
    (p &&& s.mem_addr_mask < s.cfg.mem_depth →
      (∃ data, memory_model_read (.cell s) a m (.cell x) =
        some (MEMORY_MODEL_STATUS_OK, .cell data)) ∧
      (m ≠ 0 → ∃ s', memory_model_write (.cell s) a m d =
        some (MEMORY_MODEL_STATUS_OK, .cell s'))) := by
  have h := hs.inv
  have hb8 := h.static.bpw_le
  have hpow : 2 ^ s.bytes_per_word ≤ 2 ^ 32 := Nat.pow_le_pow_right (by decide) (by omega)
  have hm32 : m < 2 ^ 32 := by omega
  obtain ⟨e, hfind, hp⟩ := (translate_ok_iff h a 0 p).mp htr
  subst hp
  have hiff := index_ok_iff h.static (slot_phys s e a)
  refine ⟨by rw [h.static.mamask_eq, Nat.and_pow_two_sub_one_eq_mod], ?_, ?_⟩
  · intro hge
    have hno : ¬ index_ok s (word_index s (slot_phys s e a)) := by
      intro hok
      rcases hiff.mp hok with hp2 | hlt
      · have := h.static.word_index_lt hok
        rw [h.static.word_index_eq] at this
        omega
      · omega
    exact ⟨read_bad_index h a x hm32 hm hfind hno,
      fun hm0 => write_bad_index h a d hm32 hm hm0 hfind hno⟩
  · intro hlt
    have hok : index_ok s (word_index s (slot_phys s e a)) := hiff.mpr (Or.inr hlt)
    refine ⟨?_, ?_⟩
    · obtain ⟨data, hr, _⟩ := read_ok h a x hm32 hm hfind hok
      exact ⟨data, hr⟩
    · intro hm0
      obtain ⟨mem', hw, _, _⟩ := write_ok h a d hm32 hm hm0 hfind hok
      exact ⟨_, hw⟩

/-- C15, witness: on `cfg_depth3` with page 0 mapped, address 3 has word index 3,
not below the depth 3: read and write with mask 1 return `ERR_ACCESS`. -/
theorem out_of_range_reported_witness :
    Reachable depth3_mapped ∧ 1 < 2 ^ depth3_mapped.bytes_per_word ∧
    memory_model_translate (.cell depth3_mapped) 3 (.cell 0) =
      some (MEMORY_MODEL_STATUS_OK, .cell 3) ∧
    depth3_mapped.cfg.mem_depth ≤ 3 &&& depth3_mapped.mem_addr_mask ∧
    memory_model_read (.cell depth3_mapped) 3 1 (.cell 7) =
      some (MEMORY_MODEL_STATUS_ERR_ACCESS, .cell 0) ∧
    (1 ≠ 0 → memory_model_write (.cell depth3_mapped) 3 1 0xAB =
      some (MEMORY_MODEL_STATUS_ERR_ACCESS, .cell depth3_mapped)) :=
  ⟨depth3_mapped_reachable, by decide, by decide, by decide,
    (out_of_range_reported depth3_mapped_reachable 3 7 0xAB 3 1 (by decide) (by decide)).2.1
      (by decide)⟩

/-! ## Successful construction in closed form -/

theorem total_bytes_check_false {depth bpw : Nat} (hd : depth ≠ 0)
    (hsz : depth * bpw < 2 ^ SIZE_WIDTH) : total_bytes_check SIZE_WIDTH depth bpw = false := by
  unfold total_bytes_check
  have hpos : 0 < depth := Nat.pos_of_ne_zero hd
  simp only [Nat.mod_eq_of_lt hsz, Nat.mul_div_cancel_left _ hpos, bne_self_eq_false,
    Bool.and_false]

/-- A configuration of `uint32_t` fields that passes every check of
`memory_model_create` yields, when all allocations succeed, the reset form of the
filled-in instance. -/
theorem create_eq {c : memory_model_config_t} (h : Ptr memory_model) {pob mab : Nat}
    (hr : config_in_range c)
    (hdw0 : c.data_width ≠ 0) (hdw8 : c.data_width % 8 = 0) (hdw64 : c.data_width ≤ 64)
    (hps : is_power_of_two c.page_size = true)
    (hmd : c.mem_depth ≠ 0) (hte : c.tlb_entries ≠ 0)
    (hvw0 : c.virt_addr_width ≠ 0) (hvw : c.virt_addr_width ≤ 64)
    (hpw0 : c.phys_addr_width ≠ 0) (hpw : c.phys_addr_width ≤ 64)
    (hpob : ceil_log2_u32 c.page_size = some pob) (hmab : ceil_log2_u32 c.mem_depth = some mab)
    (hpv : pob ≤ c.virt_addr_width) (hpp : pob ≤ c.phys_addr_width) :
    memory_model_create (.cell c) (.cell h) calloc_ok =
      some (MEMORY_MODEL_ERROR_OK, .cell (.cell (reset_state (create_fill c pob mab)))) := by
  have hps0 : c.page_size ≠ 0 := by
    intro h0
    rw [h0] at hps
    simp [is_power_of_two] at hps
  have c1 : (c.data_width == 0 || c.data_width % 8 != 0 || decide (c.data_width > 64)) = false := by
    simp [hdw0, hdw8]; omega
  have c2 : (c.page_size == 0 || !is_power_of_two c.page_size) = false := by
    simp [hps0, hps]
  have c3 : (c.mem_depth == 0 || c.tlb_entries == 0) = false := by simp [hmd, hte]
  have c4 : (c.virt_addr_width == 0 || decide (c.virt_addr_width > 64)) = false := by
    simp [hvw0]; omega
  have c5 : (c.phys_addr_width == 0 || decide (c.phys_addr_width > 64)) = false := by
    simp [hpw0]; omega
  have c6 : (decide (pob > c.virt_addr_width) || decide (pob > c.phys_addr_width)) = false := by
    simp; omega
  have hbpw : (c.data_width / 8) % 2 ^ 32 = c.data_width / 8 := Nat.mod_eq_of_lt (by omega)
  have hsz : c.mem_depth * (c.data_width / 8) < 2 ^ SIZE_WIDTH := by
    unfold SIZE_WIDTH
    have : c.data_width / 8 ≤ 8 := by omega
    have := hr.2.2.2.2.1
    calc c.mem_depth * (c.data_width / 8) ≤ c.mem_depth * 8 := Nat.mul_le_mul_left _ ‹_›
      _ < 2 ^ 64 := by omega
  have hmod : (c.mem_depth * (c.data_width / 8)) % 2 ^ SIZE_WIDTH
      = c.mem_depth * (c.data_width / 8) := Nat.mod_eq_of_lt hsz
  have hreset : memory_model_reset (.cell (create_fill c pob mab)) =
      some (MEMORY_MODEL_ERROR_OK, .cell (reset_state (create_fill c pob mab))) := by
    apply reset_eq_of_lengths
    · simp [create_fill]
    · simp only [create_fill, List.length_replicate, hbpw, hmod]
    · change c.mem_depth * ((c.data_width / 8) % 2 ^ 32) < _
      rw [hbpw]; exact hsz
  unfold memory_model_create
  simp only [c1, c2, c3, c4, c5, Bool.false_eq_true, if_false]
  unfold create_alloc
  simp only [hpob, hmab, c6, hbpw, total_bytes_check_false hmd hsz, hreset, calloc_ok,
    Bool.not_true, Bool.false_eq_true, if_false, bne_self_eq_false]

/-! ## Reading a written word through another mapping -/

/-- After a successful write through one mapping, a read in any later state with the
same store and static members, through any mapping whose physical address has the
same word index, returns the written bytes. -/
theorem write_then_read_alias {s : memory_model} (h : model_inv s) (a m d : Nat)
    {e : tlb_entry} (hm : m < 2 ^ s.bytes_per_word) (hm0 : m ≠ 0)
    (hfind : s.tlb.find? (slot_hit s a) = some e)
    (hok : index_ok s (word_index s (slot_phys s e a))) :
    ∃ mem', memory_model_write (.cell s) a m d =
        some (MEMORY_MODEL_STATUS_OK, .cell { s with memory := mem' }) ∧
      model_inv { s with memory := mem' } ∧
      ∀ (s2 : memory_model) (a2 y fm : Nat) (e2 : tlb_entry), model_inv s2 →
        s2.memory = mem' → static_part s2 = static_part s → fm < 2 ^ s.bytes_per_word →
        s2.tlb.find? (slot_hit s2 a2) = some e2 →
        word_index s2 (slot_phys s2 e2 a2) = word_index s (slot_phys s e a) →
        ∃ after, memory_model_read (.cell s2) a2 fm (.cell y) =
            some (MEMORY_MODEL_STATUS_OK, .cell after) ∧
          ∀ k, after.testBit k =
            (decide (k / 8 < s.bytes_per_word) && (decide (fm = 0) || fm.testBit (k / 8)) &&
              (if m.testBit (k / 8) = true then (d &&& s.data_mask).testBit k
               else (s.memory.getD (word_index s (slot_phys s e a) * s.bytes_per_word + k / 8)
                  0).testBit (k % 8))) := by
  have hb8 := h.static.bpw_le
  have hpow : 2 ^ s.bytes_per_word ≤ 2 ^ 32 := Nat.pow_le_pow_right (by decide) (by omega)
  have hm32 : m < 2 ^ 32 := by omega
  obtain ⟨mem', hw, hlen, hget⟩ := write_ok h a d hm32 hm hm0 hfind hok
  have hbytes : ∀ b ∈ mem', b < 256 := by
    intro b hb
    obtain ⟨j, hj⟩ := List.mem_iff_getElem?.mp hb
    rw [hget j] at hj
    split at hj
    · cases hj
      exact byte_of_lt _ _
    · exact h.mem_bytes b (List.mem_iff_getElem?.mpr ⟨j, hj⟩)
  refine ⟨mem', hw, memory_update_inv h hlen hbytes, ?_⟩
  intro s2 a2 y fm e2 h2 hmem hst hfm hfind2 hidx
  have hst' := hst
  simp only [static_part, Prod.mk.injEq] at hst'
  obtain ⟨hcfg, hbpw, _, _, hp2, _, _, _, _, _⟩ := hst'
  have hfm32 : fm < 2 ^ 32 := by omega
  have hok2 : index_ok s2 (word_index s2 (slot_phys s2 e2 a2)) := by
    unfold index_ok at hok ⊢
    rw [hidx, hp2, hcfg]
    exact hok
  obtain ⟨after, hr, hbits⟩ := read_ok h2 a2 y hfm32 (by rw [hbpw]; exact hfm) hfind2 hok2
  refine ⟨after, hr, ?_⟩
  intro k
  rw [hbits k, hidx, hbpw, hmem, List.getD_eq_getElem?_getD]
  by_cases hk : k / 8 < s.bytes_per_word
  · have hj := hget (word_index s (slot_phys s e a) * s.bytes_per_word + k / 8)
    have e1 : word_index s (slot_phys s e a) * s.bytes_per_word + k / 8
        - word_index s (slot_phys s e a) * s.bytes_per_word = k / 8 := by omega
    rw [e1] at hj
    by_cases hbit : m.testBit (k / 8) = true
    · rw [if_pos ⟨by omega, by omega, hbit⟩] at hj
      have e2' : 8 * (k / 8) + k % 8 = k := by omega
      have e3 : k % 8 < 8 := by omega
      rw [if_pos hbit, hj]
      simp [testBit_byte_of, e2', e3]
    · rw [if_neg (fun hc => hbit hc.2.2)] at hj
      rw [if_neg hbit, hj, List.getD_eq_getElem?_getD]
  · simp [hk]

theorem Reachable.load {s : memory_model} (hs : Reachable s) (v p : Nat)
    (hv : v < 2 ^ 64) (hp : p < 2 ^ 64) : Reachable (load_state s v p) :=
  Reachable.step (.load_tlb v p) hs ⟨hv, hp⟩ (run_call_load hs.inv v p)

theorem wrap_fresh_created :
    memory_model_create (.cell cfg_wrap) (.cell .null) calloc_ok =
      some (MEMORY_MODEL_ERROR_OK, .cell (.cell wrap_fresh)) :=
  create_eq .null (by decide) (by decide) (by decide) (by decide) (by decide) (by decide)
    (by decide) (by decide) (by decide) (by decide) (by decide) (by decide) (by decide)
    (by decide) (by decide)

theorem wrap_fresh_reachable : Reachable wrap_fresh :=
  @Reachable.create (.cell cfg_wrap) .null calloc_ok wrap_fresh (by decide) wrap_fresh_created

theorem wrap_full_reachable : Reachable wrap_full :=
  ((((wrap_fresh_reachable.load 0 0x1000 (by decide) (by decide)).load 0x1000 0x2000
    (by decide) (by decide)).load 0x2000 0x3000 (by decide) (by decide)).load 0x3000 0x4000
    (by decide) (by decide))

theorem static_part_with_memory (s : memory_model) (mem' : List Nat) :
    static_part { s with memory := mem' } = static_part s := rfl

theorem word_index_congr {s s' : memory_model} (h : static_part s' = static_part s)
    (p : Nat) : word_index s' p = word_index s p := by
  simp only [static_part, Prod.mk.injEq] at h
  obtain ⟨_, _, _, _, _, _, _, _, h9, _⟩ := h
  simp [word_index, h9]

theorem find_after_remap (s : memory_model) (mem' : List Nat) (v p a : Nat) :
    (load_state { s with memory := mem' } v p).tlb.find?
        (slot_hit (load_state { s with memory := mem' } v p) a) =
      (load_state s v p).tlb.find? (slot_hit (load_state s v p) a) := rfl

theorem run_calls_cons_some {s s' : memory_model} {c : call} (cs : List call)
    (h : run_call s c = some s') : run_calls s (c :: cs) = run_calls s' cs := by
  simp only [run_calls, h]

theorem run_calls_nil (s : memory_model) : run_calls s [] = some s := rfl

theorem run_call_write_eq {s s' : memory_model} {a m d : Nat} {st : memory_model_status_t}
    (h : memory_model_write (.cell s) a m d = some (st, .cell s')) :
    run_call s (.write a m d) = some s' := by
  simp only [run_call, h]

/-! ## C16: reading a remapped location -/

/-- C16, evaluation of the code on `test_tlb_wraparound` (default configuration with
`tlb_entries = 4`).  After the four seeding loads, `write(0x34, 0xFF,
0x1111222233334444)` goes through the mapping of page 0 to `0x1000`; the fifth load
remaps page 0 to `0x5000`.  The physical addresses `0x1034` and `0x5034` have the
same word index `0x1034` under `mem_addr_mask = 0x3FFF`, so `read(0x34, 0xFF)`
returns OK with the written data `0x1111222233334444`, not 0. -/
theorem remap_reads_written_data :
    memory_model_create (.cell cfg_wrap) (.cell .null) calloc_ok =
      some (MEMORY_MODEL_ERROR_OK, .cell (.cell wrap_fresh)) ∧
    (wrap_fresh.mem_addr_mask = 0x3FFF ∧ 0x1034 &&& 0x3FFF = 0x1034 ∧
      0x5034 &&& 0x3FFF = 0x1034) ∧
    ∃ s, run_calls wrap_fresh
        [.load_tlb 0 0x1000, .load_tlb 0x1000 0x2000, .load_tlb 0x2000 0x3000,
          .load_tlb 0x3000 0x4000, .write 0x34 0xFF 0x1111222233334444,
          .load_tlb 0 0x5000] = some s ∧
      memory_model_translate (.cell s) 0x34 (.cell 0) =
        some (MEMORY_MODEL_STATUS_OK, .cell 0x5034) ∧
      memory_model_read (.cell s) 0x34 0xFF (.cell 0) =
        some (MEMORY_MODEL_STATUS_OK, .cell 0x1111222233334444) := by
  refine ⟨wrap_fresh_created, ⟨by decide, by decide, by decide⟩, ?_⟩
  have r0 := wrap_fresh_reachable
  have r1 := r0.load 0 0x1000 (by decide) (by decide)
  have r2 := r1.load 0x1000 0x2000 (by decide) (by decide)
  have r3 := r2.load 0x2000 0x3000 (by decide) (by decide)
  have h4 : model_inv wrap_full := wrap_full_reachable.inv
  have hfind : wrap_full.tlb.find? (slot_hit wrap_full 0x34)
      = some (loaded_slot wrap_fresh 0 0x1000) := by decide
  have hok : index_ok wrap_full
      (word_index wrap_full (slot_phys wrap_full (loaded_slot wrap_fresh 0 0x1000) 0x34)) := by
    decide
  obtain ⟨mem', hw, h5, hread⟩ := write_then_read_alias h4 0x34 0xFF 0x1111222233334444
    (by decide) (by decide) hfind hok
  have h6 := load_state_inv h5 0 0x5000
  have hst6 : static_part (load_state { wrap_full with memory := mem' } 0 0x5000)
      = static_part wrap_full :=
    (static_part_load_state _ 0 0x5000).trans (static_part_with_memory wrap_full mem')
  have hfind6 : (load_state { wrap_full with memory := mem' } 0 0x5000).tlb.find?
      (slot_hit (load_state { wrap_full with memory := mem' } 0 0x5000) 0x34)
      = some (loaded_slot wrap_fresh 0 0x5000) := by
    rw [find_after_remap]
    decide
  have hphys : slot_phys (load_state { wrap_full with memory := mem' } 0 0x5000)
      (loaded_slot wrap_fresh 0 0x5000) 0x34 = 0x5034 := by
    rw [slot_phys_congr hst6]
    decide
  have hidx : word_index (load_state { wrap_full with memory := mem' } 0 0x5000)
      (slot_phys (load_state { wrap_full with memory := mem' } 0 0x5000)
        (loaded_slot wrap_fresh 0 0x5000) 0x34)
      = word_index wrap_full (slot_phys wrap_full (loaded_slot wrap_fresh 0 0x1000) 0x34) := by
    rw [word_index_congr hst6, slot_phys_congr hst6]
    decide
  obtain ⟨after, hr, hbits⟩ := hread (load_state { wrap_full with memory := mem' } 0 0x5000)
    0x34 0 0xFF (loaded_slot wrap_fresh 0 0x5000) h6 rfl hst6 (by decide) hfind6 hidx
  have hafter : after = 0x1111222233334444 := by
    have hsel : after = select_bytes 0xFF (0x1111222233334444 &&& wrap_full.data_mask)
        wrap_full.bytes_per_word := by
      apply Nat.eq_of_testBit_eq
      intro k
      rw [hbits k, testBit_select_bytes]
      by_cases hbit : (0xFF : Nat).testBit (k / 8) = true
      · simp [hbit, Bool.and_comm]
      · have hbit' : (0xFF : Nat).testBit (k / 8) = false := by simpa using hbit
        simp [hbit']
    rw [hsel]
    decide
  have l1 : run_call wrap_fresh (.load_tlb 0 0x1000) = some (load_state wrap_fresh 0 0x1000) :=
    run_call_load r0.inv 0 0x1000
  have l2 := run_call_load r1.inv 0x1000 0x2000
  have l3 := run_call_load r2.inv 0x2000 0x3000
  have l4 := run_call_load r3.inv 0x3000 0x4000
  have l5 : run_call wrap_full (.write 0x34 0xFF 0x1111222233334444)
      = some { wrap_full with memory := mem' } := run_call_write_eq hw
  have l6 := run_call_load h5 0 0x5000
  refine ⟨load_state { wrap_full with memory := mem' } 0 0x5000, ?_, ?_, ?_⟩
  · rw [run_calls_cons_some _ l1, run_calls_cons_some _ l2, run_calls_cons_some _ l3,
      run_calls_cons_some _ l4]
    unfold wrap_full at l5
    rw [run_calls_cons_some _ l5]
    unfold wrap_full at l6
    rw [run_calls_cons_some _ l6, run_calls_nil]
    rfl
  · rw [← hphys]
    exact (translate_ok_iff h6 0x34 0 _).mpr ⟨_, hfind6, rfl⟩
  · rw [hr, hafter]

/-! ## C17: TLB counter invariant -/

/-- C17.  In every reachable state (any sequence of reset, load, translate, read and
write calls after a successful create) `active_entries <= tlb_entries` and
`tlb_write_ptr < tlb_entries`, so the scoreboard check `verify_tlb_state` succeeds. -/
theorem tlb_counter_invariant {s : memory_model} (hs : Reachable s) :
    0 ≤ memory_model_active_entries (.cell s) ∧
    memory_model_active_entries (.cell s) ≤ memory_model_tlb_capacity (.cell s) ∧
    0 ≤ memory_model_tlb_write_index (.cell s) ∧
    memory_model_tlb_write_index (.cell s) < memory_model_tlb_capacity (.cell s) ∧
    verify_tlb_state (.cell s) = true := by
  have h := hs.inv
  have ha : s.active_entries ≤ s.cfg.tlb_entries := h.active_le
  refine ⟨Nat.zero_le _, ha, Nat.zero_le _, h.ptr_lt, ?_⟩
  simp only [verify_tlb_state, memory_model_active_entries, memory_model_tlb_capacity]
  rw [if_neg (by omega)]

/-- C17, witness: `small_duplicate` (two loads on `cfg_small`) has count 2, cursor 2
and capacity 4. -/
theorem tlb_counter_invariant_witness :
    Reachable small_duplicate ∧
    memory_model_active_entries (.cell small_duplicate) = 2 ∧
    memory_model_tlb_write_index (.cell small_duplicate) = 2 ∧
    memory_model_tlb_capacity (.cell small_duplicate) = 4 ∧
    memory_model_active_entries (.cell small_duplicate) ≤
      memory_model_tlb_capacity (.cell small_duplicate) ∧
    memory_model_tlb_write_index (.cell small_duplicate) <
      memory_model_tlb_capacity (.cell small_duplicate) ∧
    verify_tlb_state (.cell small_duplicate) = true :=
  ⟨small_duplicate_reachable, by decide, by decide, by decide,
    (tlb_counter_invariant small_duplicate_reachable).2.1,
    (tlb_counter_invariant small_duplicate_reachable).2.2.2.1,
    (tlb_counter_invariant small_duplicate_reachable).2.2.2.2⟩

/-! ## C18: `active_entries` counts the valid slots -/

theorem countP_initial_segment {α : Type} (p : α → Bool) :
    ∀ (l : List α) (n : Nat), n ≤ l.length →
      (∀ j e, l[j]? = some e → (p e = true ↔ j < n)) → l.countP p = n := by
  intro l
  induction l with
  | nil =>
    intro n hn _
    simp only [List.length_nil, Nat.le_zero_eq] at hn
    simp [hn]
  | cons a l ih =>
    intro n hn hiff
    cases n with
    | zero =>
      rw [List.countP_eq_zero]
      intro e he
      obtain ⟨j, hj⟩ := List.mem_iff_getElem?.mp he
      have := (hiff j e hj).not.mpr (Nat.not_lt_zero _)
      simpa using this
    | succ n =>
      have ha : p a = true := (hiff 0 a (by simp)).mpr (Nat.succ_pos _)
      rw [List.countP_cons_of_pos _ _ ha]
      congr 1
      apply ih n (by simpa using hn)
      intro j e hj
      have := hiff (j + 1) e (by simpa using hj)
      rw [this]
      omega

/-- C18.  In every reachable state `memory_model_active_entries` equals the number of
TLB slots whose valid flag is set, and a slot is valid exactly when its index is
below `active_entries`. -/
theorem active_entries_counts_valid {s : memory_model} (hs : Reachable s) :
    s.tlb.length = memory_model_tlb_capacity (.cell s) ∧
    memory_model_active_entries (.cell s) = s.tlb.countP (fun e => e.valid) ∧
    ∀ j e, s.tlb[j]? = some e →
      (e.valid = true ↔ j < memory_model_active_entries (.cell s)) := by
  have h := hs.inv
  refine ⟨h.tlb_len, ?_, h.valid_iff⟩
  exact (countP_initial_segment (fun e => e.valid) s.tlb s.active_entries
    (by rw [h.tlb_len]; exact h.active_le) h.valid_iff).symm

/-- C18, witness: in `small_duplicate` slots 0 and 1 are valid, slots 2 and 3 are
not, and the count is 2. -/
theorem active_entries_counts_valid_witness :
    Reachable small_duplicate ∧
    small_duplicate.tlb.map (fun e => e.valid) = [true, true, false, false] ∧
    memory_model_active_entries (.cell small_duplicate) = 2 ∧
    memory_model_active_entries (.cell small_duplicate) =
      small_duplicate.tlb.countP (fun e => e.valid) :=
  ⟨small_duplicate_reachable, by decide, by decide,
    (active_entries_counts_valid small_duplicate_reachable).2.1⟩

/-! ## C19: read data stays within the data width -/

/-- C19.  In every reachable state, for every address and every `uint32_t` mask, the
data stored by `memory_model_read` satisfies `data & ~data_mask == 0`, that is
`data < 2 ^ data_width`, whatever status is returned, and it is exactly 0 on every
status other than OK. -/
theorem read_data_within_width {s : memory_model} (hs : Reachable s) (a x m : Nat)
    (hm32 : m < 2 ^ 32) :
    ∃ st data, memory_model_read (.cell s) a m (.cell x) = some (st, .cell data) ∧
      data &&& not_u64 s.data_mask = 0 ∧ data < 2 ^ s.cfg.data_width ∧
      (st ≠ MEMORY_MODEL_STATUS_OK → data = 0) := by
  have h := hs.inv
  have hzero : (0 : Nat) &&& not_u64 s.data_mask = 0 ∧ 0 < 2 ^ s.cfg.data_width :=
    ⟨by simp, Nat.pow_pos (by decide)⟩
  by_cases hm : m < 2 ^ s.bytes_per_word
  · cases hfind : s.tlb.find? (slot_hit s a) with
    | none => exact ⟨_, 0, read_miss h a x hm32 hm hfind, hzero.1, hzero.2, fun _ => rfl⟩
    | some e =>
      by_cases hok : index_ok s (word_index s (slot_phys s e a))
      · obtain ⟨data, hr, hbits⟩ := read_ok h a x hm32 hm hfind hok
        have hb8 := h.static.bpw_le
        have hhigh : ∀ k, 8 * s.bytes_per_word ≤ k → data.testBit k = false := by
          intro k hk
          rw [hbits k]
          have : ¬ k / 8 < s.bytes_per_word := by omega
          simp [this]
        refine ⟨_, data, hr, ?_, ?_, fun hne => absurd rfl hne⟩
        · apply Nat.eq_of_testBit_eq
          intro k
          rw [Nat.testBit_and, testBit_not_u64, h.static.dmask_eq, Nat.testBit_two_pow_sub_one]
          by_cases hk : k < 8 * s.bytes_per_word
          · have : k < 64 := by omega
            simp [hk, this]
          · simp [hhigh k (by omega)]
        · rw [h.static.data_width_eq]
          exact Nat.lt_pow_two_of_testBit data hhigh
      · exact ⟨_, 0, read_bad_index h a x hm32 hm hfind hok, hzero.1, hzero.2, fun _ => rfl⟩
  · exact ⟨_, 0, read_bad_mask h a x hm32 hm, hzero.1, hzero.2, fun _ => rfl⟩

/-- C19, witness: a full read of the written word in `small_written` (64-bit data)
and a read with a malformed mask. -/
theorem read_data_within_width_witness :
    Reachable small_written ∧ 0xFF < 2 ^ 32 ∧
    memory_model_read (.cell small_written) 0x10 0xFF (.cell 0) =
      some (MEMORY_MODEL_STATUS_OK, .cell 0xFFEEDDCCBBAA9988) ∧
    memory_model_read (.cell small_written) 0x10 0x100 (.cell 5) =
      some (MEMORY_MODEL_STATUS_ERR_ACCESS, .cell 0) ∧
    ∃ st data, memory_model_read (.cell small_written) 0x10 0xFF (.cell 0) =
        some (st, .cell data) ∧
      data &&& not_u64 small_written.data_mask = 0 ∧
      data < 2 ^ small_written.cfg.data_width ∧
      (st ≠ MEMORY_MODEL_STATUS_OK → data = 0) :=
  ⟨small_written_reachable, by decide, by decide, by decide,
    read_data_within_width small_written_reachable 0x10 0 0xFF (by decide)⟩

/-! ## C20: stored TLB addresses are pre-masked -/

/-- C20.  In every reachable state every valid TLB entry satisfies
`virt_base == virt_base & virt_addr_mask` and `phys_base == phys_base &
phys_addr_mask`; and `load_tlb(v, p)` returns OK and stores exactly
`(v & virt_addr_mask, p & phys_addr_mask)`, marked valid, in the slot under the
cursor. -/
theorem stored_addresses_premasked {s : memory_model} (hs : Reachable s) :
    (∀ e ∈ s.tlb, e.valid = true →
      e.virt_base = e.virt_base &&& s.virt_addr_mask ∧
      e.phys_base = e.phys_base &&& s.phys_addr_mask) ∧
    ∀ v p, ∃ s', memory_model_load_tlb (.cell s) v p =
        some (MEMORY_MODEL_ERROR_OK, .cell s') ∧
      s'.tlb[memory_model_tlb_write_index (.cell s)]? =
        some { valid := true, virt_base := v &&& s.virt_addr_mask,
               phys_base := p &&& s.phys_addr_mask } := by
  have h := hs.inv
  refine ⟨fun e he _ => ⟨(h.masked e he).1.symm, (h.masked e he).2.symm⟩, ?_⟩
  intro v p
  refine ⟨load_state s v p, load_tlb_eq h v p, ?_⟩
  have hlt : s.tlb_write_ptr < s.tlb.length := by rw [h.tlb_len]; exact h.ptr_lt
  simp [load_state, loaded_slot, memory_model_tlb_write_index, List.getElem?_set, hlt]

/-- C20, witness: on `small_fresh` (32-bit virtual, 28-bit physical addresses)
`load_tlb(0x1_0000_2000, 0x3000_5000)` stores `(0x2000, 0x5000)` in slot 0. -/
theorem stored_addresses_premasked_witness :
    Reachable small_fresh ∧
    0x100002000 &&& small_fresh.virt_addr_mask = 0x2000 ∧
    0x30005000 &&& small_fresh.phys_addr_mask = 0x5000 ∧
    ∃ s', memory_model_load_tlb (.cell small_fresh) 0x100002000 0x30005000 =
        some (MEMORY_MODEL_ERROR_OK, .cell s') ∧
      s'.tlb[memory_model_tlb_write_index (.cell small_fresh)]? =
        some { valid := true, virt_base := 0x100002000 &&& small_fresh.virt_addr_mask,
               phys_base := 0x30005000 &&& small_fresh.phys_addr_mask } :=
  ⟨small_fresh_reachable, by decide, by decide,
    (stored_addresses_premasked small_fresh_reachable).2 0x100002000 0x30005000⟩

/-! ## C21: the validation decision table -/

theorem create_alloc_handle {c : memory_model_config_t} {alloc : calloc_results}
    {e : memory_model_error_t} {out : Ptr (Ptr memory_model)}
    (h : create_alloc c alloc = some (e, out)) (hne : e ≠ MEMORY_MODEL_ERROR_OK) :
    out = .cell .null := by
  unfold create_alloc at h
  split at h
  · cases h
  split at h
  · cases h; rfl
  split at h
  · cases h; rfl
  split at h
  · cases h
  split at h
  · cases h; rfl
  split at h
  · cases h; rfl
  split at h
  · cases h; rfl
  split at h
  · cases h
  split at h
  · cases h; rfl
  · cases h; exact absurd rfl hne

theorem create_handle_null {config : Ptr memory_model_config_t} {h : Ptr memory_model}
    {alloc : calloc_results} {e : memory_model_error_t} {out : Ptr (Ptr memory_model)}
    (hc : memory_model_create config (.cell h) alloc = some (e, out))
    (hne : e ≠ MEMORY_MODEL_ERROR_OK) : out = .cell .null := by
  unfold memory_model_create at hc
  simp only [] at hc
  split at hc
  · cases hc; rfl
  split at hc
  · cases hc; rfl
  split at hc
  · cases hc; rfl
  split at hc
  · cases hc; rfl
  split at hc
  · cases hc; rfl
  exact create_alloc_handle hc hne

theorem is_power_of_two_iff (v : Nat) : is_power_of_two v = true ↔ ∃ n, v = 2 ^ n :=
  ⟨exists_two_pow_of_is_power_of_two, fun ⟨n, hn⟩ => hn ▸ is_power_of_two_two_pow n⟩

/-- The page-offset bit count computed for a power-of-two page size is
`log2(page_size)`. -/
theorem ceil_log2_u32_page {v : Nat} (hv : v < 2 ^ 32) (hp : is_power_of_two v = true) :
    ceil_log2_u32 v = some (Nat.log 2 v) := by
  obtain ⟨n, _, heq, _, _⟩ := ceil_log2_u32_spec hv
  have := ceil_log2_u32_of_pow2 hv hp heq
  rw [heq, this, Nat.log_pow (by decide)]

/-- C21.  For a configuration of `uint32_t` fields and successful allocations,
`memory_model_create` returns UNSUPPORTED when `data_width` is 0, not a multiple of
8 or above 64 (whatever the other fields are); otherwise BAD_ARGUMENT when
`page_size` is 0 or not a power of two, `mem_depth` or `tlb_entries` is 0, an
address width is outside `[1, 64]`, or `log2(page_size)` exceeds an address width;
otherwise OK with a model of that configuration.  On every result other than OK,
whatever the allocations do, the handle cell is left NULL. -/
theorem validation_table (c : memory_model_config_t) (h : Ptr memory_model)
    (hr : config_in_range c) :
    (data_width_unsupported c →
      memory_model_create (.cell c) (.cell h) calloc_ok =
        some (MEMORY_MODEL_ERROR_UNSUPPORTED, .cell .null)) ∧
    (¬ data_width_unsupported c → config_bad_argument c →
      memory_model_create (.cell c) (.cell h) calloc_ok =
        some (MEMORY_MODEL_ERROR_BAD_ARGUMENT, .cell .null)) ∧
    (¬ data_width_unsupported c → ¬ config_bad_argument c →
      ∃ s, memory_model_create (.cell c) (.cell h) calloc_ok =
        some (MEMORY_MODEL_ERROR_OK, .cell (.cell s)) ∧ s.cfg = c) ∧
    (∀ alloc e out, memory_model_create (.cell c) (.cell h) alloc = some (e, out) →
      e ≠ MEMORY_MODEL_ERROR_OK → out = .cell .null) := by
  refine ⟨?_, ?_, ?_, fun alloc e out hc hne => create_handle_null hc hne⟩
  · intro hw
    have c1 : (c.data_width == 0 || c.data_width % 8 != 0 || decide (c.data_width > 64))
        = true := by
      unfold data_width_unsupported at hw
      rcases hw with h0 | h8 | h64
      · simp [h0]
      · simp [h8]
      · simp [h64]
    unfold memory_model_create
    simp only [c1, if_true]
  · intro hw hb
    unfold data_width_unsupported at hw
    have c1 : (c.data_width == 0 || c.data_width % 8 != 0 || decide (c.data_width > 64))
        = false := by
      simp only [not_or, ne_eq, not_not, not_lt] at hw
      simp [hw.1, hw.2.1]
      omega
    by_cases h2 : c.page_size = 0 ∨ is_power_of_two c.page_size = false
    · have c2 : (c.page_size == 0 || !is_power_of_two c.page_size) = true := by
        rcases h2 with h2 | h2 <;> simp [h2]
      unfold memory_model_create
      simp only [c1, c2, Bool.false_eq_true, if_false, if_true]
    have c2 : (c.page_size == 0 || !is_power_of_two c.page_size) = false := by
      simp only [not_or, Bool.not_eq_false] at h2
      simp [h2.1, h2.2]
    by_cases h3 : c.mem_depth = 0 ∨ c.tlb_entries = 0
    · have c3 : (c.mem_depth == 0 || c.tlb_entries == 0) = true := by
        rcases h3 with h3 | h3 <;> simp [h3]
      unfold memory_model_create
      simp only [c1, c2, c3, Bool.false_eq_true, if_false, if_true]
    have c3 : (c.mem_depth == 0 || c.tlb_entries == 0) = false := by
      simp only [not_or] at h3
      simp [h3.1, h3.2]
    by_cases h4 : c.virt_addr_width = 0 ∨ 64 < c.virt_addr_width
    · have c4 : (c.virt_addr_width == 0 || decide (c.virt_addr_width > 64)) = true := by
        rcases h4 with h4 | h4 <;> simp [h4]
      unfold memory_model_create
      simp only [c1, c2, c3, c4, Bool.false_eq_true, if_false, if_true]
    have c4 : (c.virt_addr_width == 0 || decide (c.virt_addr_width > 64)) = false := by
      simp only [not_or, not_lt] at h4
      simp [h4.1]
      omega
    by_cases h5 : c.phys_addr_width = 0 ∨ 64 < c.phys_addr_width
    · have c5 : (c.phys_addr_width == 0 || decide (c.phys_addr_width > 64)) = true := by
        rcases h5 with h5 | h5 <;> simp [h5]
      unfold memory_model_create
      simp only [c1, c2, c3, c4, c5, Bool.false_eq_true, if_false, if_true]
    have c5 : (c.phys_addr_width == 0 || decide (c.phys_addr_width > 64)) = false := by
      simp only [not_or, not_lt] at h5
      simp [h5.1]
      omega
    simp only [not_or, Bool.not_eq_false] at h2 h3 h4 h5
    have hpob := ceil_log2_u32_page hr.2.2.1 h2.2
    have c6 : (decide (Nat.log 2 c.page_size > c.virt_addr_width)
        || decide (Nat.log 2 c.page_size > c.phys_addr_width)) = true := by
      unfold config_bad_argument at hb
      rcases hb with hb | hb | hb | hb | hb | hb | hb | hb | hb | hb
      · exact absurd hb h2.1
      · exact absurd ((is_power_of_two_iff _).mp h2.2) hb
      · exact absurd hb h3.1
      · exact absurd hb h3.2
      · omega
      · omega
      · omega
      · omega
      · simp [hb]
      · simp [hb]
    unfold memory_model_create
    simp only [c1, c2, c3, c4, c5, Bool.false_eq_true, if_false]
    unfold create_alloc
    simp only [hpob, c6, if_true]
  · intro hw hb
    unfold data_width_unsupported at hw
    unfold config_bad_argument at hb
    simp only [not_or, ne_eq, not_not, not_lt, Nat.lt_one_iff] at hw hb
    obtain ⟨b1, b2, b3, b4, b5, b6, b7, b8, b9, b10⟩ := hb
    have hp := (is_power_of_two_iff _).mpr b2
    obtain ⟨mab, _, hmab, _, _⟩ := ceil_log2_u32_spec hr.2.2.2.2.1
    exact ⟨_, create_eq h hr hw.1 hw.2.1 hw.2.2 hp b3 b4 b5 b6 b7 b8
      (ceil_log2_u32_page hr.2.2.1 hp) hmab b9 b10, rfl⟩

/-- C21, witness: `cfg_all_bad` (every field invalid) is UNSUPPORTED, `cfg_big_page`
(4096-byte pages, 8-bit virtual addresses) is BAD_ARGUMENT, `cfg_small` is OK. -/
theorem validation_table_witness :
    (config_in_range cfg_all_bad ∧ data_width_unsupported cfg_all_bad ∧
      memory_model_create (.cell cfg_all_bad) (.cell .null) calloc_ok =
        some (MEMORY_MODEL_ERROR_UNSUPPORTED, .cell .null)) ∧
    (config_in_range cfg_big_page ∧ ¬ data_width_unsupported cfg_big_page ∧
      config_bad_argument cfg_big_page ∧
      memory_model_create (.cell cfg_big_page) (.cell .null) calloc_ok =
        some (MEMORY_MODEL_ERROR_BAD_ARGUMENT, .cell .null)) ∧
    (config_in_range cfg_small ∧ ¬ data_width_unsupported cfg_small ∧
      memory_model_create (.cell cfg_small) (.cell .null) calloc_ok =
        some (MEMORY_MODEL_ERROR_OK, .cell (.cell small_fresh))) :=
  have hlog : Nat.log 2 4096 = 12 := Nat.log_pow (by decide : 1 < 2) 12
  have hbig : config_bad_argument cfg_big_page :=
    Or.inr (Or.inr (Or.inr (Or.inr (Or.inr (Or.inr (Or.inr (Or.inr (Or.inl
      (by show 8 < Nat.log 2 4096; rw [hlog]; decide)))))))))
  ⟨⟨by decide, by decide,
      (validation_table cfg_all_bad .null (by decide)).1 (by decide)⟩,
    ⟨by decide, by decide, hbig,
      (validation_table cfg_big_page .null (by decide)).2.1 (by decide) hbig⟩,
    ⟨by decide, by decide, small_fresh_created⟩⟩

/-! ## C22: the default configuration -/

theorem default_fresh_created (h : Ptr memory_model) :
    memory_model_create (.cell memory_model_config_default) (.cell h) calloc_ok =
      some (MEMORY_MODEL_ERROR_OK, .cell (.cell default_fresh)) :=
  create_eq h (by decide) (by decide) (by decide) (by decide) (by decide) (by decide)
    (by decide) (by decide) (by decide) (by decide) (by decide) (by decide) (by decide)
    (by decide) (by decide)

/-- C22.  Function `memory_model_config_default` returns (32, 28, 4096, 64, 16384,
256); `memory_model_create` with a NULL configuration returns, for every handle cell
and every allocation outcome, exactly what it returns for that default record; and
with successful allocations it returns OK with a model holding the default
configuration. -/
theorem default_configuration :
    memory_model_config_default =
      { virt_addr_width := 32, phys_addr_width := 28, page_size := 4096, data_width := 64,
        mem_depth := 16384, tlb_entries := 256 } ∧
    (∀ out alloc, memory_model_create .null out alloc =
      memory_model_create (.cell memory_model_config_default) out alloc) ∧
    (∀ h, memory_model_create .null (.cell h) calloc_ok =
        some (MEMORY_MODEL_ERROR_OK, .cell (.cell default_fresh)) ∧
      memory_model_create (.cell memory_model_config_default) (.cell h) calloc_ok =
        some (MEMORY_MODEL_ERROR_OK, .cell (.cell default_fresh))) ∧
    memory_model_get_config (.cell default_fresh) = .cell memory_model_config_default ∧
    ¬ data_width_unsupported memory_model_config_default ∧
    ¬ config_bad_argument memory_model_config_default := by
  have hlog : Nat.log 2 4096 = 12 := Nat.log_pow (by decide : 1 < 2) 12
  refine ⟨rfl, create_null_config, fun h => ⟨?_, default_fresh_created h⟩, rfl, by decide, ?_⟩
  · rw [create_null_config]
    exact default_fresh_created h
  · unfold config_bad_argument
    have e : memory_model_config_default.page_size = 2 ^ 12 := rfl
    have hl : Nat.log 2 memory_model_config_default.page_size = 12 := by rw [e]; exact hlog
    rw [hl]
    simp only [not_or, not_not, not_lt]
    exact ⟨by decide, ⟨12, e⟩, by decide, by decide, by decide, by decide, by decide,
      by decide, by decide, by decide⟩

/-! ## C23: a new model is in the reset state -/

theorem reset_state_fixed {s : memory_model}
    (ht : s.tlb = List.replicate s.cfg.tlb_entries empty_slot)
    (hm : s.memory = List.replicate (s.cfg.mem_depth * s.bytes_per_word) 0)
    (hp : s.tlb_write_ptr = 0) (ha : s.active_entries = 0) : reset_state s = s := by
  cases s
  simp only at ht hm hp ha
  subst hp ha
  simp only [reset_state]
  rw [← ht, ← hm]

/-- C23.  Every model published by a successful `memory_model_create` has cursor 0,
count 0, exactly `tlb_entries` slots, all invalid, `bytes_per_word = data_width / 8`
and a store of exactly `mem_depth * bytes_per_word` bytes, all zero; and
`memory_model_reset` on it returns OK and leaves the identical state. -/
theorem new_model_is_reset {config : Ptr memory_model_config_t} {h : Ptr memory_model}
    {alloc : calloc_results} {s : memory_model}
    (hr : config_ptr_in_range config)
    (hc : memory_model_create config (.cell h) alloc =
      some (MEMORY_MODEL_ERROR_OK, .cell (.cell s))) :
    memory_model_tlb_write_index (.cell s) = 0 ∧
    memory_model_active_entries (.cell s) = 0 ∧
    s.tlb.length = memory_model_tlb_capacity (.cell s) ∧
    (∀ e ∈ s.tlb, e.valid = false) ∧
    s.bytes_per_word = s.cfg.data_width / 8 ∧
    s.memory.length = s.cfg.mem_depth * (s.cfg.data_width / 8) ∧
    (∀ b ∈ s.memory, b = 0) ∧
    memory_model_reset (.cell s) = some (MEMORY_MODEL_ERROR_OK, .cell s) := by
  obtain ⟨hinv, ht, hm, hp, ha⟩ := create_ok_state hr hc
  refine ⟨hp, ha, hinv.tlb_len, ?_, hinv.static.bpw, ?_, ?_, ?_⟩
  · intro e he
    rw [ht] at he
    rw [List.eq_of_mem_replicate he]
    rfl
  · rw [← hinv.static.bpw]
    exact hinv.mem_len
  · intro b hb
    rw [hm] at hb
    exact List.eq_of_mem_replicate hb
  · rw [reset_eq hinv, reset_state_fixed ht hm hp ha]

/-- C23, witness: the model created for `cfg_small` has 4 invalid slots and 256
zero bytes. -/
theorem new_model_is_reset_witness :
    config_ptr_in_range (.cell cfg_small) ∧
    memory_model_create (.cell cfg_small) (.cell .null) calloc_ok =
      some (MEMORY_MODEL_ERROR_OK, .cell (.cell small_fresh)) ∧
    small_fresh.tlb.length = 4 ∧ small_fresh.memory.length = 256 ∧
    (memory_model_tlb_write_index (.cell small_fresh) = 0 ∧
      memory_model_active_entries (.cell small_fresh) = 0 ∧
      small_fresh.tlb.length = memory_model_tlb_capacity (.cell small_fresh) ∧
      (∀ e ∈ small_fresh.tlb, e.valid = false) ∧
      small_fresh.bytes_per_word = small_fresh.cfg.data_width / 8 ∧
      small_fresh.memory.length = small_fresh.cfg.mem_depth * (small_fresh.cfg.data_width / 8) ∧
      (∀ b ∈ small_fresh.memory, b = 0) ∧
      memory_model_reset (.cell small_fresh) =
        some (MEMORY_MODEL_ERROR_OK, .cell small_fresh)) :=
  ⟨by decide, small_fresh_created, by decide, by decide,
    new_model_is_reset (by decide) small_fresh_created⟩

/-! ## C24: translate, read and the accessors are pure -/

/-- C24.  In every reachable state `memory_model_translate` and `memory_model_read`
return (no undefined behaviour), their status and output value do not depend on the
previous content of the output cell, the instance is the same after the call, and
so a repeated call returns the same status and value; the accessors are functions
of the state alone. -/
theorem reads_are_pure {s : memory_model} (hs : Reachable s) (a m x y : Nat)
    (hm32 : m < 2 ^ 32) :
    (∃ st p, memory_model_translate (.cell s) a (.cell x) = some (st, .cell p) ∧
      memory_model_translate (.cell s) a (.cell y) = some (st, .cell p)) ∧
    (∃ st data, memory_model_read (.cell s) a m (.cell x) = some (st, .cell data) ∧
      memory_model_read (.cell s) a m (.cell y) = some (st, .cell data)) ∧
    run_call s (.translate a) = some s ∧ run_call s (.read a m) = some s ∧
    run_calls s [.translate a, .read a m, .translate a, .read a m] = some s ∧
    (∀ c s', (c = .translate a ∨ c = .read a m) → run_call s c = some s' →
      memory_model_active_entries (.cell s') = memory_model_active_entries (.cell s) ∧
      memory_model_tlb_write_index (.cell s') = memory_model_tlb_write_index (.cell s) ∧
      memory_model_tlb_capacity (.cell s') = memory_model_tlb_capacity (.cell s) ∧
      memory_model_get_config (.cell s') = memory_model_get_config (.cell s)) := by
  have h := hs.inv
  obtain ⟨st, data, hrd⟩ := read_total h a x hm32
  have hrd0 : memory_model_read (.cell s) a m (.cell 0) = some (st, .cell data) := hrd
  have ht : run_call s (.translate a) = some s := by
    simp only [run_call, translate_eq h]
  have hr : run_call s (.read a m) = some s := by
    simp only [run_call, hrd0]
  refine ⟨?_, ⟨st, data, hrd, hrd⟩, ht, hr, ?_, ?_⟩
  · cases hfind : s.tlb.find? (slot_hit s a) with
    | none => exact ⟨_, _, by rw [translate_eq h, hfind], by rw [translate_eq h, hfind]⟩
    | some e => exact ⟨_, _, by rw [translate_eq h, hfind], by rw [translate_eq h, hfind]⟩
  · rw [run_calls_cons_some _ ht, run_calls_cons_some _ hr, run_calls_cons_some _ ht,
      run_calls_cons_some _ hr, run_calls_nil]
  · intro c s' hc hrun
    rcases hc with rfl | rfl
    · rw [ht] at hrun
      cases hrun
      exact ⟨rfl, rfl, rfl, rfl⟩
    · rw [hr] at hrun
      cases hrun
      exact ⟨rfl, rfl, rfl, rfl⟩

/-- C24, witness: on `small_written` the read of the written word gives the same
result for two different initial contents of the output cell, and the state after
the calls is `small_written`. -/
theorem reads_are_pure_witness :
    Reachable small_written ∧ 0xFF < 2 ^ 32 ∧
    memory_model_read (.cell small_written) 0x10 0xFF (.cell 0) =
      some (MEMORY_MODEL_STATUS_OK, .cell 0xFFEEDDCCBBAA9988) ∧
    memory_model_read (.cell small_written) 0x10 0xFF (.cell 5) =
      some (MEMORY_MODEL_STATUS_OK, .cell 0xFFEEDDCCBBAA9988) ∧
    run_calls small_written [.translate 0x10, .read 0x10 0xFF, .translate 0x10,
      .read 0x10 0xFF] = some small_written :=
  ⟨small_written_reachable, by decide, by decide, by decide,
    (reads_are_pure small_written_reachable 0x10 0xFF 0 5 (by decide)).2.2.2.2.1⟩

/-! ## C25: write is idempotent -/

/-- C25.  In every reachable state, for every address, `uint32_t` mask and data,
`write(a, m, d)` returns a status and a state on which the same `write(a, m, d)`
returns the same status and leaves that state unchanged. -/
theorem write_idempotent {s : memory_model} (hs : Reachable s) (a m d : Nat)
    (hm32 : m < 2 ^ 32) :
    ∃ st s', memory_model_write (.cell s) a m d = some (st, .cell s') ∧
      memory_model_write (.cell s') a m d = some (st, .cell s') := by
  have h := hs.inv
  by_cases hm : m < 2 ^ s.bytes_per_word
  · cases hfind : s.tlb.find? (slot_hit s a) with
    | none =>
      exact ⟨_, s, write_miss h a d hm32 hm hfind, write_miss h a d hm32 hm hfind⟩
    | some e =>
      by_cases hm0 : m = 0
      · subst hm0
        exact ⟨_, s, write_zero_mask h a d hfind, write_zero_mask h a d hfind⟩
      · by_cases hok : index_ok s (word_index s (slot_phys s e a))
        · obtain ⟨mem', hw, hlen, hget⟩ := write_ok h a d hm32 hm hm0 hfind hok
          have hb : ∀ b ∈ mem', b < 256 := by
            intro b hb
            obtain ⟨j, hj⟩ := List.mem_iff_getElem?.mp hb
            rw [hget j] at hj
            split at hj
            · cases hj
              exact byte_of_lt _ _
            · exact h.mem_bytes b (List.mem_iff_getElem?.mpr ⟨j, hj⟩)
          have h' : model_inv { s with memory := mem' } := memory_update_inv h hlen hb
          have hfind' : ({ s with memory := mem' } : memory_model).tlb.find?
              (slot_hit { s with memory := mem' } a) = some e := hfind
          have hok' : index_ok { s with memory := mem' }
              (word_index { s with memory := mem' }
                (slot_phys { s with memory := mem' } e a)) := hok
          obtain ⟨mem2, hw2, hlen2, hget2⟩ :=
            write_ok h' a d hm32 (show m < 2 ^ s.bytes_per_word from hm) hm0 hfind' hok'
          have heq : mem2 = mem' := by
            apply List.ext_getElem?
            intro j
            rw [hget2 j]
            change (if word_index s (slot_phys s e a) * s.bytes_per_word ≤ j ∧
                j < word_index s (slot_phys s e a) * s.bytes_per_word + s.bytes_per_word ∧
                m.testBit (j - word_index s (slot_phys s e a) * s.bytes_per_word) = true
              then some (byte_of (d &&& s.data_mask)
                (j - word_index s (slot_phys s e a) * s.bytes_per_word))
              else mem'[j]?) = mem'[j]?
            rw [hget j]
            split <;> rfl
          rw [heq] at hw2
          exact ⟨_, _, hw, hw2⟩
        · exact ⟨_, s, write_bad_index h a d hm32 hm hm0 hfind hok,
            write_bad_index h a d hm32 hm hm0 hfind hok⟩
  · exact ⟨_, s, write_bad_mask h a d hm32 hm, write_bad_mask h a d hm32 hm⟩

/-- C25, witness: the write that produced `small_written` from `small_mapped`,
repeated on `small_written`, returns OK again and leaves `small_written`. -/
theorem write_idempotent_witness :
    Reachable small_mapped ∧ 0xFF < 2 ^ 32 ∧
    memory_model_write (.cell small_mapped) 0x10 0xFF 0xFFEEDDCCBBAA9988 =
      some (MEMORY_MODEL_STATUS_OK, .cell small_written) ∧
    memory_model_write (.cell small_written) 0x10 0xFF 0xFFEEDDCCBBAA9988 =
      some (MEMORY_MODEL_STATUS_OK, .cell small_written) ∧
    ∃ st s', memory_model_write (.cell small_mapped) 0x10 0xFF 0xFFEEDDCCBBAA9988 =
        some (st, .cell s') ∧
      memory_model_write (.cell s') 0x10 0xFF 0xFFEEDDCCBBAA9988 = some (st, .cell s') :=
  ⟨small_mapped_reachable, by decide, by decide, by decide,
    write_idempotent small_mapped_reachable 0x10 0xFF 0xFFEEDDCCBBAA9988 (by decide)⟩

/-! ## C26: PENDING is never produced -/

/-- C26.  In every reachable state, for all arguments of the C types,
`memory_model_translate` (non-NULL output pointer) returns OK or ERR_ADDR,
`memory_model_read` returns OK, ERR_ADDR or ERR_ACCESS, and `memory_model_write`
returns OK, ERR_ADDR, ERR_ACCESS or ERR_WRITE; with a NULL handle or output pointer
`read` and `write` return ERR_ACCESS.  None returns PENDING (`0xF`). -/
theorem pending_never_produced {s : memory_model} (hs : Reachable s) (a m d x : Nat)
    (hm32 : m < 2 ^ 32) :
    (∃ st p, memory_model_translate (.cell s) a (.cell x) = some (st, .cell p) ∧
      (st = MEMORY_MODEL_STATUS_OK ∨ st = MEMORY_MODEL_STATUS_ERR_ADDR) ∧
      st ≠ MEMORY_MODEL_STATUS_PENDING) ∧
    (∃ st data, memory_model_read (.cell s) a m (.cell x) = some (st, .cell data) ∧
      (st = MEMORY_MODEL_STATUS_OK ∨ st = MEMORY_MODEL_STATUS_ERR_ADDR ∨
        st = MEMORY_MODEL_STATUS_ERR_ACCESS) ∧
      st ≠ MEMORY_MODEL_STATUS_PENDING) ∧
    (∃ st s', memory_model_write (.cell s) a m d = some (st, .cell s') ∧
      (st = MEMORY_MODEL_STATUS_OK ∨ st = MEMORY_MODEL_STATUS_ERR_ADDR ∨
        st = MEMORY_MODEL_STATUS_ERR_ACCESS ∨ st = MEMORY_MODEL_STATUS_ERR_WRITE) ∧
      st ≠ MEMORY_MODEL_STATUS_PENDING) ∧
    memory_model_read (.cell s) a m .null = some (MEMORY_MODEL_STATUS_ERR_ACCESS, .null) ∧
    memory_model_read .null a m (.cell x) = some (MEMORY_MODEL_STATUS_ERR_ACCESS, .cell 0) ∧
    memory_model_write .null a m d = some (MEMORY_MODEL_STATUS_ERR_ACCESS, .null) ∧
    MEMORY_MODEL_STATUS_PENDING.value = 0xF := by
  have h := hs.inv
  refine ⟨?_, ?_, ?_, rfl, rfl, rfl, rfl⟩
  · cases hfind : s.tlb.find? (slot_hit s a) with
    | none =>
      exact ⟨_, _, by rw [translate_eq h, hfind], Or.inr rfl, by intro hc; cases hc⟩
    | some e =>
      exact ⟨_, _, by rw [translate_eq h, hfind], Or.inl rfl, by intro hc; cases hc⟩
  · by_cases hm : m < 2 ^ s.bytes_per_word
    · cases hfind : s.tlb.find? (slot_hit s a) with
      | none =>
        exact ⟨_, _, read_miss h a x hm32 hm hfind, Or.inr (Or.inl rfl),
          by intro hc; cases hc⟩
      | some e =>
        by_cases hok : index_ok s (word_index s (slot_phys s e a))
        · obtain ⟨data, hr, _⟩ := read_ok h a x hm32 hm hfind hok
          exact ⟨_, _, hr, Or.inl rfl, by intro hc; cases hc⟩
        · exact ⟨_, _, read_bad_index h a x hm32 hm hfind hok, Or.inr (Or.inr rfl),
            by intro hc; cases hc⟩
    · exact ⟨_, _, read_bad_mask h a x hm32 hm, Or.inr (Or.inr rfl), by intro hc; cases hc⟩
  · by_cases hm : m < 2 ^ s.bytes_per_word
    · cases hfind : s.tlb.find? (slot_hit s a) with
      | none =>
        exact ⟨_, _, write_miss h a d hm32 hm hfind, Or.inr (Or.inl rfl),
          by intro hc; cases hc⟩
      | some e =>
        by_cases hm0 : m = 0
        · subst hm0
          exact ⟨_, _, write_zero_mask h a d hfind, Or.inl rfl, by intro hc; cases hc⟩
        · by_cases hok : index_ok s (word_index s (slot_phys s e a))
          · obtain ⟨mem', hw, _, _⟩ := write_ok h a d hm32 hm hm0 hfind hok
            exact ⟨_, _, hw, Or.inl rfl, by intro hc; cases hc⟩
          · exact ⟨_, _, write_bad_index h a d hm32 hm hm0 hfind hok,
              Or.inr (Or.inr (Or.inl rfl)), by intro hc; cases hc⟩
    · exact ⟨_, _, write_bad_mask h a d hm32 hm, Or.inr (Or.inr (Or.inr rfl)),
        by intro hc; cases hc⟩

/-- C26, witness: on `depth3_mapped` the four write outcomes and the three read
outcomes all occur (mapped word 0, unmapped address 4, out-of-range word 3,
malformed mask 2). -/
theorem pending_never_produced_witness :
    Reachable depth3_mapped ∧ 1 < 2 ^ 32 ∧
    memory_model_write (.cell depth3_mapped) 0 1 0xAB =
      some (MEMORY_MODEL_STATUS_OK, .cell (exec depth3_mapped [.write 0 1 0xAB])) ∧
    memory_model_write (.cell depth3_mapped) 4 1 0xAB =
      some (MEMORY_MODEL_STATUS_ERR_ADDR, .cell depth3_mapped) ∧
    memory_model_write (.cell depth3_mapped) 3 1 0xAB =
      some (MEMORY_MODEL_STATUS_ERR_ACCESS, .cell depth3_mapped) ∧
    memory_model_write (.cell depth3_mapped) 0 2 0xAB =
      some (MEMORY_MODEL_STATUS_ERR_WRITE, .cell depth3_mapped) ∧
    memory_model_read (.cell depth3_mapped) 0 1 (.cell 7) =
      some (MEMORY_MODEL_STATUS_OK, .cell 0) ∧
    memory_model_read (.cell depth3_mapped) 4 1 (.cell 7) =
      some (MEMORY_MODEL_STATUS_ERR_ADDR, .cell 0) ∧
    memory_model_read (.cell depth3_mapped) 0 2 (.cell 7) =
      some (MEMORY_MODEL_STATUS_ERR_ACCESS, .cell 0) ∧
    ∃ st s', memory_model_write (.cell depth3_mapped) 3 1 0xAB = some (st, .cell s') ∧
      (st = MEMORY_MODEL_STATUS_OK ∨ st = MEMORY_MODEL_STATUS_ERR_ADDR ∨
        st = MEMORY_MODEL_STATUS_ERR_ACCESS ∨ st = MEMORY_MODEL_STATUS_ERR_WRITE) ∧
      st ≠ MEMORY_MODEL_STATUS_PENDING :=
  ⟨depth3_mapped_reachable, by decide, by decide, by decide, by decide, by decide, by decide,
    by decide, by decide,
    (pending_never_produced depth3_mapped_reachable 3 1 0xAB 7 (by decide)).2.2.1⟩

/-! ## C27: a failed write changes nothing -/

/-- C27.  In every reachable state, whenever `memory_model_write` (mask of type
`uint32_t`) returns a status other than OK, the instance after the call is
identical to the instance before it; hence after any sequence of failing writes
the state is still the original one and every later call behaves as if they had
not happened. -/
theorem failed_write_changes_nothing {s : memory_model} (hs : Reachable s) :
    (∀ a m d st s', m < 2 ^ 32 →
      memory_model_write (.cell s) a m d = some (st, .cell s') →
      st ≠ MEMORY_MODEL_STATUS_OK →
      (st = MEMORY_MODEL_STATUS_ERR_ADDR ∨ st = MEMORY_MODEL_STATUS_ERR_ACCESS ∨
        st = MEMORY_MODEL_STATUS_ERR_WRITE) ∧ s' = s) ∧
    (∀ cs : List call,
      (∀ c ∈ cs, ∃ a m d st s', c = .write a m d ∧ m < 2 ^ 32 ∧
        memory_model_write (.cell s) a m d = some (st, .cell s') ∧
        st ≠ MEMORY_MODEL_STATUS_OK) →
      run_calls s cs = some s ∧ ∀ c, run_call (exec s cs) c = run_call s c) := by
  have h := hs.inv
  have single : ∀ a m d st s', m < 2 ^ 32 →
      memory_model_write (.cell s) a m d = some (st, .cell s') →
      st ≠ MEMORY_MODEL_STATUS_OK →
      (st = MEMORY_MODEL_STATUS_ERR_ADDR ∨ st = MEMORY_MODEL_STATUS_ERR_ACCESS ∨
        st = MEMORY_MODEL_STATUS_ERR_WRITE) ∧ s' = s := by
    intro a m d st s' hm32 hw hne
    by_cases hm : m < 2 ^ s.bytes_per_word
    · cases hfind : s.tlb.find? (slot_hit s a) with
      | none =>
        rw [write_miss h a d hm32 hm hfind] at hw
        cases hw
        exact ⟨Or.inl rfl, rfl⟩
      | some e =>
        by_cases hm0 : m = 0
        · subst hm0
          rw [write_zero_mask h a d hfind] at hw
          cases hw
          exact absurd rfl hne
        · by_cases hok : index_ok s (word_index s (slot_phys s e a))
          · obtain ⟨mem', hw', _, _⟩ := write_ok h a d hm32 hm hm0 hfind hok
            rw [hw'] at hw
            cases hw
            exact absurd rfl hne
          · rw [write_bad_index h a d hm32 hm hm0 hfind hok] at hw
            cases hw
            exact ⟨Or.inr (Or.inl rfl), rfl⟩
    · rw [write_bad_mask h a d hm32 hm] at hw
      cases hw
      exact ⟨Or.inr (Or.inr rfl), rfl⟩
  refine ⟨single, ?_⟩
  intro cs hcs
  have hrun : run_calls s cs = some s := by
    induction cs with
    | nil => rfl
    | cons c cs ih =>
      obtain ⟨a, m, d, st, s', hc, hm32, hw, hne⟩ := hcs c (List.mem_cons_self _ _)
      obtain ⟨_, hs'⟩ := single a m d st s' hm32 hw hne
      subst hs'
      subst hc
      rw [run_calls_cons_some cs (run_call_write_eq hw)]
      exact ih (fun c' hc' => hcs c' (List.mem_cons_of_mem _ hc'))
  refine ⟨hrun, fun c => ?_⟩
  unfold exec
  rw [hrun]
  rfl

/-- C27, witness: three failing writes on `depth3_mapped` (unmapped address, index
out of range, malformed mask), the first one repeated, leave `depth3_mapped`. -/
theorem failed_write_changes_nothing_witness :
    Reachable depth3_mapped ∧
    run_calls depth3_mapped [.write 4 1 0xAB, .write 4 1 0xAB, .write 3 1 0xAB,
      .write 0 2 0xAB] = some depth3_mapped :=
  ⟨depth3_mapped_reachable,
    ((failed_write_changes_nothing depth3_mapped_reachable).2
      [.write 4 1 0xAB, .write 4 1 0xAB, .write 3 1 0xAB, .write 0 2 0xAB]
      (by
        intro c hc
        simp only [List.mem_cons, List.mem_singleton, List.not_mem_nil, or_false] at hc
        rcases hc with rfl | rfl | rfl | rfl
        · exact ⟨4, 1, 0xAB, MEMORY_MODEL_STATUS_ERR_ADDR, depth3_mapped, rfl, by decide,
            by decide, by decide⟩
        · exact ⟨4, 1, 0xAB, MEMORY_MODEL_STATUS_ERR_ADDR, depth3_mapped, rfl, by decide,
            by decide, by decide⟩
        · exact ⟨3, 1, 0xAB, MEMORY_MODEL_STATUS_ERR_ACCESS, depth3_mapped, rfl, by decide,
            by decide, by decide⟩
        · exact ⟨0, 2, 0xAB, MEMORY_MODEL_STATUS_ERR_WRITE, depth3_mapped, rfl, by decide,
            by decide, by decide⟩)).1⟩

/-! ## C28: NULL handles -/

/-- C28, counterexample.  With a NULL model handle `memory_model_translate`,
`memory_model_read` and `memory_model_write` return ERR_ACCESS (value 2), the
access-error status that an out-of-range word index on a live instance gives as
well; no status code has the value of BAD_ARGUMENT (-1). -/
theorem null_handle_counterexample :
    memory_model_translate .null 0x10 (.cell 7) =
      some (MEMORY_MODEL_STATUS_ERR_ACCESS, .cell 0) ∧
    memory_model_read .null 0x10 0xFF (.cell 7) =
      some (MEMORY_MODEL_STATUS_ERR_ACCESS, .cell 0) ∧
    memory_model_write .null 0x10 0xFF 1 = some (MEMORY_MODEL_STATUS_ERR_ACCESS, .null) ∧
    memory_model_read (.cell depth3_mapped) 3 1 (.cell 7) =
      some (MEMORY_MODEL_STATUS_ERR_ACCESS, .cell 0) ∧
    MEMORY_MODEL_STATUS_ERR_ACCESS.value = 2 ∧
    MEMORY_MODEL_ERROR_BAD_ARGUMENT.value = -1 ∧
    ∀ st : memory_model_status_t, st.value ≠ MEMORY_MODEL_ERROR_BAD_ARGUMENT.value := by
  refine ⟨rfl, rfl, rfl, by decide, rfl, rfl, ?_⟩
  intro st
  cases st <;> decide

/-- C28, amended.  With a NULL model handle `memory_model_reset` and
`memory_model_load_tlb` return BAD_ARGUMENT; `memory_model_translate`,
`memory_model_read` and `memory_model_write` return the status ERR_ACCESS, and
`translate` and `read` store 0 through a non-NULL output pointer. -/
theorem null_handle_rejected (a m d x v p : Nat) :
    memory_model_reset .null = some (MEMORY_MODEL_ERROR_BAD_ARGUMENT, .null) ∧
    memory_model_load_tlb .null v p = some (MEMORY_MODEL_ERROR_BAD_ARGUMENT, .null) ∧
    memory_model_translate .null a (.cell x) =
      some (MEMORY_MODEL_STATUS_ERR_ACCESS, .cell 0) ∧
    memory_model_translate .null a .null = some (MEMORY_MODEL_STATUS_ERR_ACCESS, .null) ∧
    memory_model_read .null a m (.cell x) = some (MEMORY_MODEL_STATUS_ERR_ACCESS, .cell 0) ∧
    memory_model_read .null a m .null = some (MEMORY_MODEL_STATUS_ERR_ACCESS, .null) ∧
    memory_model_write .null a m d = some (MEMORY_MODEL_STATUS_ERR_ACCESS, .null) :=
  ⟨rfl, rfl, rfl, rfl, rfl, rfl, rfl⟩

/-- C28, witness: the calls of the counterexample, with output cells holding 7. -/
theorem null_handle_rejected_witness :
    memory_model_reset .null = some (MEMORY_MODEL_ERROR_BAD_ARGUMENT, .null) ∧
    memory_model_load_tlb .null 0x1000 0x2000 =
      some (MEMORY_MODEL_ERROR_BAD_ARGUMENT, .null) ∧
    memory_model_translate .null 0x10 (.cell 7) =
      some (MEMORY_MODEL_STATUS_ERR_ACCESS, .cell 0) ∧
    memory_model_translate .null 0x10 .null = some (MEMORY_MODEL_STATUS_ERR_ACCESS, .null) ∧
    memory_model_read .null 0x10 0xFF (.cell 7) =
      some (MEMORY_MODEL_STATUS_ERR_ACCESS, .cell 0) ∧
    memory_model_read .null 0x10 0xFF .null = some (MEMORY_MODEL_STATUS_ERR_ACCESS, .null) ∧
    memory_model_write .null 0x10 0xFF 1 = some (MEMORY_MODEL_STATUS_ERR_ACCESS, .null) :=
  null_handle_rejected 0x10 0xFF 1 7 0x1000 0x2000

/-! ## C29: frame of `load_tlb` -/

/-- C29.  In every reachable state `load_tlb(v, p)` returns OK, puts
`{valid, v & virt_addr_mask, p & phys_addr_mask}` into the slot under the old
cursor whatever that slot held, and leaves every other slot, the number of slots,
every byte of the store, the configuration and the derived members unchanged. -/
theorem load_tlb_frame {s : memory_model} (hs : Reachable s) (v p : Nat) :
    ∃ s', memory_model_load_tlb (.cell s) v p = some (MEMORY_MODEL_ERROR_OK, .cell s') ∧
      s'.tlb[memory_model_tlb_write_index (.cell s)]? =
        some { valid := true, virt_base := v &&& s.virt_addr_mask,
               phys_base := p &&& s.phys_addr_mask } ∧
      (∀ j, j ≠ memory_model_tlb_write_index (.cell s) → s'.tlb[j]? = s.tlb[j]?) ∧
      s'.tlb.length = s.tlb.length ∧
      s'.memory = s.memory ∧
      memory_model_get_config (.cell s') = memory_model_get_config (.cell s) ∧
      static_part s' = static_part s := by
  have h := hs.inv
  have hlt : s.tlb_write_ptr < s.tlb.length := by rw [h.tlb_len]; exact h.ptr_lt
  refine ⟨load_state s v p, load_tlb_eq h v p, ?_, ?_, ?_, rfl, rfl, rfl⟩
  · simp [load_state, loaded_slot, memory_model_tlb_write_index, List.getElem?_set, hlt]
  · intro j hj
    simp only [memory_model_tlb_write_index] at hj
    simp only [load_state]
    rw [List.getElem?_set_ne (Ne.symm hj)]
  · simp [load_state]

/-- C29, witness: on `small_duplicate` (slots 0 and 1 occupied, cursor 2)
`load_tlb(0x5000, 0x6000)` fills slot 2 and keeps slots 0, 1 and 3. -/
theorem load_tlb_frame_witness :
    Reachable small_duplicate ∧ memory_model_tlb_write_index (.cell small_duplicate) = 2 ∧
    (load_state small_duplicate 0x5000 0x6000).tlb =
      [{ valid := true, virt_base := 0x1000, phys_base := 0x2000 },
       { valid := true, virt_base := 0x1000, phys_base := 0x7000 },
       { valid := true, virt_base := 0x5000, phys_base := 0x6000 },
       { valid := false, virt_base := 0, phys_base := 0 }] ∧
    ∃ s', memory_model_load_tlb (.cell small_duplicate) 0x5000 0x6000 =
        some (MEMORY_MODEL_ERROR_OK, .cell s') ∧
      s'.tlb[memory_model_tlb_write_index (.cell small_duplicate)]? =
        some { valid := true, virt_base := 0x5000 &&& small_duplicate.virt_addr_mask,
               phys_base := 0x6000 &&& small_duplicate.phys_addr_mask } ∧
      (∀ j, j ≠ memory_model_tlb_write_index (.cell small_duplicate) →
        s'.tlb[j]? = small_duplicate.tlb[j]?) ∧
      s'.tlb.length = small_duplicate.tlb.length ∧
      s'.memory = small_duplicate.memory ∧
      memory_model_get_config (.cell s') = memory_model_get_config (.cell small_duplicate) ∧
      static_part s' = static_part small_duplicate :=
  ⟨small_duplicate_reachable, by decide, by decide,
    load_tlb_frame small_duplicate_reachable 0x5000 0x6000⟩

/-! ## C30: FIFO contents of the table -/

theorem mod_eq_lt_add_le {i k n : Nat} (hlt : i < k) (hmod : i % n = k % n) :
    i + n ≤ k := by
  have hi := Nat.div_add_mod i n
  have hk := Nat.div_add_mod k n
  have hq : i / n < k / n := by
    by_contra hge
    have : n * (k / n) ≤ n * (i / n) := Nat.mul_le_mul_left _ (by omega)
    omega
  have : n * (i / n + 1) ≤ n * (k / n) := Nat.mul_le_mul_left _ hq
  rw [Nat.mul_add, Nat.mul_one] at this
  omega

/-- State after loading the mappings `l`, in order, into an empty table: slot `j`
is empty when `j ≥ l.length` and otherwise holds the mapping with the largest
position `i` such that `i mod N = j`; the cursor is `l.length mod N`. -/
theorem fifo_run {s0 : memory_model} (h0 : model_inv s0)
    (ht : s0.tlb = List.replicate s0.cfg.tlb_entries empty_slot)
    (hp : s0.tlb_write_ptr = 0) (l : List (Nat × Nat)) :
    ∃ s, run_calls s0 (load_calls l) = some s ∧ model_inv s ∧
      static_part s = static_part s0 ∧
      s.tlb_write_ptr = l.length % s0.cfg.tlb_entries ∧
      ∀ j, j < s0.cfg.tlb_entries → ∃ e, s.tlb[j]? = some e ∧
        (l.length ≤ j → e = empty_slot) ∧
        (j < l.length → ∃ i vp, l[i]? = some vp ∧ i % s0.cfg.tlb_entries = j ∧
          (∀ i2, i2 < l.length → i2 % s0.cfg.tlb_entries = j → i2 ≤ i) ∧
          e = loaded_slot s0 vp.1 vp.2) := by
  have hNpos : 0 < s0.cfg.tlb_entries := Nat.pos_of_ne_zero h0.static.tlb_entries_pos
  induction l using List.reverseRecOn with
  | nil =>
    refine ⟨s0, rfl, h0, rfl, by simp [hp], ?_⟩
    intro j hj
    refine ⟨empty_slot, ?_, fun _ => rfl, fun hlt => absurd hlt (by simp)⟩
    rw [ht, List.getElem?_replicate, if_pos hj]
  | append_singleton l vp ih =>
    obtain ⟨s, hrun, h, hst, hptr, hslots⟩ := ih
    have hcap := capacity_congr hst
    refine ⟨load_state s vp.1 vp.2, ?_, load_state_inv h vp.1 vp.2,
      (static_part_load_state s vp.1 vp.2).trans hst, ?_, ?_⟩
    · unfold load_calls
      rw [List.map_append, run_calls_append]
      change (run_calls s0 (load_calls l)).bind _ = _
      rw [hrun]
      change run_calls s [call.load_tlb vp.1 vp.2] = _
      rw [run_calls_cons_some _ (run_call_load h vp.1 vp.2), run_calls_nil]
    · change (if s.tlb_write_ptr + 1 < s.cfg.tlb_entries then s.tlb_write_ptr + 1 else 0) = _
      rw [hptr, hcap, List.length_append, List.length_singleton]
      exact succ_mod_cases _ _ hNpos
    · intro j hj
      have hlen : (l ++ [vp]).length = l.length + 1 := by
        rw [List.length_append, List.length_singleton]
      have htlb : (load_state s vp.1 vp.2).tlb =
          s.tlb.set (l.length % s0.cfg.tlb_entries) (loaded_slot s0 vp.1 vp.2) := by
        change s.tlb.set s.tlb_write_ptr (loaded_slot s vp.1 vp.2) = _
        rw [hptr, loaded_slot_congr hst]
      have hmodle : l.length % s0.cfg.tlb_entries ≤ l.length := Nat.mod_le _ _
      by_cases hjk : j = l.length % s0.cfg.tlb_entries
      · refine ⟨loaded_slot s0 vp.1 vp.2, ?_, ?_, ?_⟩
        · rw [htlb, hjk, List.getElem?_set_self]
          rw [h.tlb_len, hcap]
          exact Nat.mod_lt _ hNpos
        · intro hle
          rw [hlen] at hle
          omega
        · intro _
          refine ⟨l.length, vp, ?_, hjk.symm, ?_, rfl⟩
          · rw [List.getElem?_append_right (Nat.le_refl _)]
            simp
          · intro i2 hi2 _
            rw [hlen] at hi2
            omega
      · obtain ⟨e, he, hempty, hfull⟩ := hslots j hj
        have hjne : j ≠ l.length := by
          intro heq
          apply hjk
          rw [heq, Nat.mod_eq_of_lt (by omega)]
        refine ⟨e, ?_, ?_, ?_⟩
        · rw [htlb, List.getElem?_set_ne (Ne.symm hjk)]
          exact he
        · intro hle
          rw [hlen] at hle
          exact hempty (by omega)
        · intro hlt
          rw [hlen] at hlt
          obtain ⟨i, vp', hi, himod, hmax, hev⟩ := hfull (by omega)
          have hil : i < l.length := by
            by_contra hge
            rw [List.getElem?_eq_none (by omega)] at hi
            cases hi
          refine ⟨i, vp', ?_, himod, ?_, hev⟩
          · rw [List.getElem?_append_left hil]
            exact hi
          · intro i2 hi2 hi2mod
            rw [hlen] at hi2
            have : i2 ≠ l.length := by
              intro heq
              apply hjk
              rw [← hi2mod, heq]
            exact hmax i2 (by omega) hi2mod

/-- C30.  Starting from the instance published by `memory_model_create`, or from the
state left by `memory_model_reset` on a reachable state, with capacity `N >= 1`,
after the loads `l` (`k = l.length` mappings, positions counted from 0): slot
`j < N` is valid iff `j < k`, and then holds the masked mapping at the largest
position `i < k` with `i mod N = j`; the valid slots hold exactly the mappings at
the last `min k N` positions; when the table is full (`k >= N`) the slot under the
cursor, which the next load overwrites, holds the oldest of them (position
`k - N`), and otherwise the slot under the cursor is empty. -/
theorem fifo_contents {s0 : memory_model}
    (hstart : (∃ config h alloc, config_ptr_in_range config ∧
        memory_model_create config (.cell h) alloc =
          some (MEMORY_MODEL_ERROR_OK, .cell (.cell s0))) ∨
      (∃ s, Reachable s ∧
        memory_model_reset (.cell s) = some (MEMORY_MODEL_ERROR_OK, .cell s0)))
    (l : List (Nat × Nat)) :
    ∃ s, run_calls s0 (load_calls l) = some s ∧
      1 ≤ memory_model_tlb_capacity (.cell s0) ∧
      s.tlb.length = memory_model_tlb_capacity (.cell s0) ∧
      (∀ j, j < memory_model_tlb_capacity (.cell s0) →
        ∃ e, s.tlb[j]? = some e ∧ (e.valid = true ↔ j < l.length) ∧
          (j < l.length → ∃ i vp, l[i]? = some vp ∧
            i % memory_model_tlb_capacity (.cell s0) = j ∧
            (∀ i2, i2 < l.length → i2 % memory_model_tlb_capacity (.cell s0) = j → i2 ≤ i) ∧
            e = loaded_slot s0 vp.1 vp.2)) ∧
      (∀ e, (e ∈ s.tlb ∧ e.valid = true) ↔
        ∃ i vp, l[i]? = some vp ∧ l.length - memory_model_tlb_capacity (.cell s0) ≤ i ∧
          e = loaded_slot s0 vp.1 vp.2) ∧
      (memory_model_tlb_capacity (.cell s0) ≤ l.length →
        ∃ vp, l[l.length - memory_model_tlb_capacity (.cell s0)]? = some vp ∧
          s.tlb[memory_model_tlb_write_index (.cell s)]? =
            some (loaded_slot s0 vp.1 vp.2)) ∧
      (l.length < memory_model_tlb_capacity (.cell s0) →
        s.tlb[memory_model_tlb_write_index (.cell s)]? = some empty_slot) := by
  have hinit : model_inv s0 ∧ s0.tlb = List.replicate s0.cfg.tlb_entries empty_slot ∧
      s0.tlb_write_ptr = 0 := by
    rcases hstart with ⟨config, h, alloc, hr, hc⟩ | ⟨s, hs, hreset⟩
    · obtain ⟨h0, ht, _, hp, _⟩ := create_ok_state hr hc
      exact ⟨h0, ht, hp⟩
    · rw [reset_eq hs.inv] at hreset
      cases hreset
      exact ⟨reset_state_inv hs.inv, rfl, rfl⟩
  obtain ⟨h0, ht, hp⟩ := hinit
  have hNpos : 0 < s0.cfg.tlb_entries := Nat.pos_of_ne_zero h0.static.tlb_entries_pos
  obtain ⟨s, hrun, h, hst, hptr, hslots⟩ := fifo_run h0 ht hp l
  have hcap := capacity_congr hst
  have hlen : s.tlb.length = s0.cfg.tlb_entries := by rw [h.tlb_len, hcap]
  simp only [memory_model_tlb_capacity, memory_model_tlb_write_index]
  refine ⟨s, hrun, hNpos, hlen, ?_, ?_, ?_, ?_⟩
  · intro j hj
    obtain ⟨e, he, hempty, hfull⟩ := hslots j hj
    refine ⟨e, he, ?_, hfull⟩
    constructor
    · intro hv
      by_contra hge
      rw [hempty (by omega)] at hv
      cases hv
    · intro hlt
      obtain ⟨i, vp, _, _, _, hev⟩ := hfull hlt
      rw [hev]
      rfl
  · intro e
    constructor
    · rintro ⟨hmem, hv⟩
      obtain ⟨j, hj⟩ := List.mem_iff_getElem?.mp hmem
      have hjN : j < s0.cfg.tlb_entries := by
        by_contra hge
        rw [List.getElem?_eq_none (by omega)] at hj
        cases hj
      obtain ⟨e', he', hempty, hfull⟩ := hslots j hjN
      rw [hj] at he'
      cases he'
      have hjl : j < l.length := by
        by_contra hge
        rw [hempty (by omega)] at hv
        cases hv
      obtain ⟨i, vp, hi, himod, hmax, hev⟩ := hfull hjl
      refine ⟨i, vp, hi, ?_, hev⟩
      by_contra hlt
      have h1 : i + s0.cfg.tlb_entries < l.length := by omega
      have h2 : (i + s0.cfg.tlb_entries) % s0.cfg.tlb_entries = j := by
        rw [Nat.add_mod_right, himod]
      have := hmax _ h1 h2
      omega
    · rintro ⟨i, vp, hi, hge, hev⟩
      have hil : i < l.length := by
        by_contra hge'
        rw [List.getElem?_eq_none (by omega)] at hi
        cases hi
      have hjN : i % s0.cfg.tlb_entries < s0.cfg.tlb_entries := Nat.mod_lt _ hNpos
      have hjl : i % s0.cfg.tlb_entries < l.length :=
        Nat.lt_of_le_of_lt (Nat.mod_le _ _) hil
      obtain ⟨e', he', _, hfull⟩ := hslots _ hjN
      obtain ⟨i', vp', hi', himod', hmax, hev'⟩ := hfull hjl
      have hi'l : i' < l.length := by
        by_contra hge'
        rw [List.getElem?_eq_none (by omega)] at hi'
        cases hi'
      have hle : i ≤ i' := hmax i hil rfl
      have heq : i = i' := by
        by_contra hne
        have := mod_eq_lt_add_le (show i < i' by omega) himod'.symm
        omega
      subst heq
      rw [hi] at hi'
      cases hi'
      rw [hev, ← hev']
      refine ⟨List.mem_iff_getElem?.mpr ⟨_, he'⟩, ?_⟩
      rw [hev']
      rfl
  · intro hge
    have hjN : l.length % s0.cfg.tlb_entries < s0.cfg.tlb_entries := Nat.mod_lt _ hNpos
    have hkpos : 0 < l.length := by omega
    have hjl : l.length % s0.cfg.tlb_entries < l.length := by
      have := Nat.mod_le l.length s0.cfg.tlb_entries
      omega
    obtain ⟨e, he, _, hfull⟩ := hslots _ hjN
    obtain ⟨i, vp, hi, himod, hmax, hev⟩ := hfull hjl
    have hil : i < l.length := by
      by_contra hge'
      rw [List.getElem?_eq_none (by omega)] at hi
      cases hi
    have h1 : i + s0.cfg.tlb_entries ≤ l.length := mod_eq_lt_add_le hil himod
    have h2 : (l.length - s0.cfg.tlb_entries) % s0.cfg.tlb_entries
        = l.length % s0.cfg.tlb_entries := by
      conv_rhs => rw [show l.length = (l.length - s0.cfg.tlb_entries) + s0.cfg.tlb_entries
        by omega]
      rw [Nat.add_mod_right]
    have h3 := hmax (l.length - s0.cfg.tlb_entries) (by omega) h2
    have heq : i = l.length - s0.cfg.tlb_entries := by omega
    subst heq
    exact ⟨vp, hi, by rw [hptr, he, hev]⟩
  · intro hlt
    have hjN : l.length % s0.cfg.tlb_entries < s0.cfg.tlb_entries := Nat.mod_lt _ hNpos
    obtain ⟨e, he, hempty, _⟩ := hslots _ hjN
    rw [hptr, he, hempty (by rw [Nat.mod_eq_of_lt hlt])]

/-- C30, witness: five loads on `small_fresh` (capacity 4): slot 0 holds the fifth
mapping, slots 1 to 3 hold the second to fourth, and the cursor is at slot 1, which
holds the oldest remaining mapping. -/
theorem fifo_contents_witness :
    run_calls small_fresh (load_calls [(0, 0x1000), (0x1000, 0x2000), (0x2000, 0x3000),
        (0x3000, 0x4000), (0x4000, 0x5000)]) =
      some (exec small_fresh (load_calls [(0, 0x1000), (0x1000, 0x2000), (0x2000, 0x3000),
        (0x3000, 0x4000), (0x4000, 0x5000)])) ∧
    (exec small_fresh (load_calls [(0, 0x1000), (0x1000, 0x2000), (0x2000, 0x3000),
        (0x3000, 0x4000), (0x4000, 0x5000)])).tlb =
      [{ valid := true, virt_base := 0x4000, phys_base := 0x5000 },
       { valid := true, virt_base := 0x1000, phys_base := 0x2000 },
       { valid := true, virt_base := 0x2000, phys_base := 0x3000 },
       { valid := true, virt_base := 0x3000, phys_base := 0x4000 }] ∧
    memory_model_tlb_write_index (.cell (exec small_fresh (load_calls [(0, 0x1000),
      (0x1000, 0x2000), (0x2000, 0x3000), (0x3000, 0x4000), (0x4000, 0x5000)]))) = 1 ∧
    ∃ s, run_calls small_fresh (load_calls [(0, 0x1000), (0x1000, 0x2000),
          (0x2000, 0x3000), (0x3000, 0x4000), (0x4000, 0x5000)]) = some s ∧
      1 ≤ memory_model_tlb_capacity (.cell small_fresh) ∧
      s.tlb.length = memory_model_tlb_capacity (.cell small_fresh) :=
  ⟨by decide, by decide, by decide,
    (fifo_contents (Or.inl ⟨.cell cfg_small, .null, calloc_ok, by decide, small_fresh_created⟩)
      [(0, 0x1000), (0x1000, 0x2000), (0x2000, 0x3000), (0x3000, 0x4000),
        (0x4000, 0x5000)]).imp (fun _ hs => ⟨hs.1, hs.2.1, hs.2.2.1⟩)⟩

/-! ## C37: a zero-mask write skips the bound check -/

/-- C37.  In a reachable state whose `mem_depth` is not a power of two, for an
address that translates OK to a physical address with word index
`(phys & mem_addr_mask) >= mem_depth`: `write(a, 0, d)` returns OK (state
unchanged), whereas `read(a, 0)`, every `read(a, m)` and every `write(a, m, d)` with
a non-zero valid mask `m` return ERR_ACCESS. -/
theorem zero_mask_write_skips_bound_check {s : memory_model} (hs : Reachable s)
    (a d x p : Nat)
    (hp2 : is_power_of_two s.cfg.mem_depth = false)
    (htr : memory_model_translate (.cell s) a (.cell 0) =
      some (MEMORY_MODEL_STATUS_OK, .cell p))
    (hge : s.cfg.mem_depth ≤ p &&& s.mem_addr_mask) :
    memory_model_write (.cell s) a 0 d = some (MEMORY_MODEL_STATUS_OK, .cell s) ∧
    memory_model_read (.cell s) a 0 (.cell x) =
      some (MEMORY_MODEL_STATUS_ERR_ACCESS, .cell 0) ∧
    ∀ m, m ≠ 0 → m < 2 ^ s.bytes_per_word →
      memory_model_write (.cell s) a m d =
        some (MEMORY_MODEL_STATUS_ERR_ACCESS, .cell s) ∧
      memory_model_read (.cell s) a m (.cell x) =
        some (MEMORY_MODEL_STATUS_ERR_ACCESS, .cell 0) := by
  have h := hs.inv
  have hb8 := h.static.bpw_le
  have hpow : 2 ^ s.bytes_per_word ≤ 2 ^ 32 := Nat.pow_le_pow_right (by decide) (by omega)
  have hpos : 0 < 2 ^ s.bytes_per_word := Nat.pow_pos (by decide)
  obtain ⟨e, hfind, hp⟩ := (translate_ok_iff h a 0 p).mp htr
  subst hp
  have hno : ¬ index_ok s (word_index s (slot_phys s e a)) := by
    intro hok
    rcases (index_ok_iff h.static _).mp hok with hp | hlt
    · rw [hp2] at hp
      cases hp
    · omega
  refine ⟨write_zero_mask h a d hfind,
    read_bad_index h a x (by decide) hpos hfind hno, ?_⟩
  intro m hm0 hm
  exact ⟨write_bad_index h a d (by omega) hm hm0 hfind hno,
    read_bad_index h a x (by omega) hm hfind hno⟩

/-- C37, witness: on `depth3_mapped` (3 words, index mask 3) address 3 translates
to physical address 3, word index 3. -/
theorem zero_mask_write_skips_bound_check_witness :
    Reachable depth3_mapped ∧ is_power_of_two depth3_mapped.cfg.mem_depth = false ∧
    memory_model_translate (.cell depth3_mapped) 3 (.cell 0) =
      some (MEMORY_MODEL_STATUS_OK, .cell 3) ∧
    depth3_mapped.cfg.mem_depth ≤ 3 &&& depth3_mapped.mem_addr_mask ∧
    memory_model_write (.cell depth3_mapped) 3 0 0xAB =
      some (MEMORY_MODEL_STATUS_OK, .cell depth3_mapped) ∧
    memory_model_read (.cell depth3_mapped) 3 0 (.cell 7) =
      some (MEMORY_MODEL_STATUS_ERR_ACCESS, .cell 0) ∧
    memory_model_write (.cell depth3_mapped) 3 1 0xAB =
      some (MEMORY_MODEL_STATUS_ERR_ACCESS, .cell depth3_mapped) :=
  ⟨depth3_mapped_reachable, by decide, by decide, by decide,
    (zero_mask_write_skips_bound_check depth3_mapped_reachable 3 0xAB 7 3 (by decide)
      (by decide) (by decide)).1,
    (zero_mask_write_skips_bound_check depth3_mapped_reachable 3 0xAB 7 3 (by decide)
      (by decide) (by decide)).2.1,
    ((zero_mask_write_skips_bound_check depth3_mapped_reachable 3 0xAB 7 3 (by decide)
      (by decide) (by decide)).2.2 1 (by decide) (by decide)).1⟩

/-! ## C38: width masks -/

/-- C38.  Function `mask_from_width` gives `2 ^ w - 1` for `w <= 63` and
`2 ^ 64 - 1` for `w >= 64`; `byte_mask_for_word(b) = 2 ^ b - 1` for `1 <= b <= 8`;
and in every reachable state `virt_addr_mask`, `phys_addr_mask` and `data_mask` are
`2 ^ width - 1` for their configured widths. -/
theorem width_masks (w b : Nat) :
    (w ≤ 63 → mask_from_width w = 2 ^ w - 1) ∧
    (64 ≤ w → mask_from_width w = 2 ^ 64 - 1) ∧
    (1 ≤ b → b ≤ 8 → byte_mask_for_word b = 2 ^ b - 1) ∧
    ∀ s, Reachable s →
      s.virt_addr_mask = 2 ^ s.cfg.virt_addr_width - 1 ∧
      s.phys_addr_mask = 2 ^ s.cfg.phys_addr_width - 1 ∧
      s.data_mask = 2 ^ s.cfg.data_width - 1 ∧
      (∀ k, (s.virt_addr_mask).testBit k = decide (k < s.cfg.virt_addr_width)) ∧
      (∀ k, (s.phys_addr_mask).testBit k = decide (k < s.cfg.phys_addr_width)) ∧
      (∀ k, (s.data_mask).testBit k = decide (k < s.cfg.data_width)) := by
  refine ⟨fun hw => mask_from_width_eq (by omega), ?_,
    fun _ hb => byte_mask_for_word_eq (by omega), ?_⟩
  · intro hw
    unfold mask_from_width
    have h0 : (w == 0) = false := by simp; omega
    simp only [h0, Bool.false_eq_true, if_false, ge_iff_le, hw, if_true]
    rfl
  · intro s hs
    have h := hs.inv.static
    have hd : s.data_mask = 2 ^ s.cfg.data_width - 1 := by
      rw [h.dmask, mask_from_width_eq h.data_width_le]
    refine ⟨h.vmask_eq, h.pmask_eq, hd, ?_, ?_, ?_⟩
    · intro k
      rw [h.vmask_eq, Nat.testBit_two_pow_sub_one]
    · intro k
      rw [h.pmask_eq, Nat.testBit_two_pow_sub_one]
    · intro k
      rw [hd, Nat.testBit_two_pow_sub_one]

/-- C38, witness: widths 28, 64 and 100, 8 bytes per word, and the masks of
`small_fresh` (32-bit virtual, 28-bit physical, 64-bit data). -/
theorem width_masks_witness :
    mask_from_width 28 = 0xFFFFFFF ∧ mask_from_width 64 = 0xFFFFFFFFFFFFFFFF ∧
    mask_from_width 100 = 0xFFFFFFFFFFFFFFFF ∧ byte_mask_for_word 8 = 0xFF ∧
    (28 ≤ 63 → mask_from_width 28 = 2 ^ 28 - 1) ∧
    (64 ≤ 100 → mask_from_width 100 = 2 ^ 64 - 1) ∧
    (1 ≤ 8 → 8 ≤ 8 → byte_mask_for_word 8 = 2 ^ 8 - 1) ∧
    (small_fresh.virt_addr_mask = 2 ^ small_fresh.cfg.virt_addr_width - 1 ∧
      small_fresh.phys_addr_mask = 2 ^ small_fresh.cfg.phys_addr_width - 1 ∧
      small_fresh.data_mask = 2 ^ small_fresh.cfg.data_width - 1) :=
  ⟨by decide, by decide, by decide, by decide, (width_masks 28 8).1, (width_masks 100 8).2.1,
    (width_masks 28 8).2.2.1,
    ((width_masks 28 8).2.2.2 small_fresh small_fresh_reachable).1,
    ((width_masks 28 8).2.2.2 small_fresh small_fresh_reachable).2.1,
    ((width_masks 28 8).2.2.2 small_fresh small_fresh_reachable).2.2.1⟩

/-! ## C39: page-offset derivation -/

/-- C39.  For every `uint32_t` input `ceil_log2_u32` returns (its loop ends within
32 iterations) the least `n` with `2 ^ n >= value`, which is 0 for `value <= 1`; for
a power of two it returns exactly `log2(value)`; and in every reachable state
`page_offset_bits = log2(page_size)`, `page_offset_mask = page_size - 1`, and
`k < page_size` iff `(k & page_offset_mask) = k`. -/
theorem page_offset_derivation (v : Nat) (hv : v < 2 ^ 32) :
    (∃ n, ceil_log2_u32 v = some n ∧ v ≤ 2 ^ n ∧ (∀ k, v ≤ 2 ^ k → n ≤ k) ∧
      (v ≤ 1 → n = 0) ∧
      (is_power_of_two v = true → v = 2 ^ n ∧ n = Nat.log 2 v)) ∧
    ∀ s, Reachable s →
      s.page_offset_bits = Nat.log 2 s.cfg.page_size ∧
      s.cfg.page_size = 2 ^ s.page_offset_bits ∧
      s.page_offset_mask = s.cfg.page_size - 1 ∧
      ∀ k, k < s.cfg.page_size ↔ k &&& s.page_offset_mask = k := by
  constructor
  · have heq := ceil_log2_u32_eq_clog hv
    refine ⟨Nat.clog 2 v, heq, Nat.le_pow_clog (by decide) v, ?_, ?_, ?_⟩
    · intro k hk
      exact (Nat.le_pow_iff_clog_le (by decide)).mp hk
    · intro h1
      exact Nat.clog_of_right_le_one h1 2
    · intro hp
      have h2 := ceil_log2_u32_page hv hp
      rw [heq] at h2
      have h3 : Nat.clog 2 v = Nat.log 2 v := Option.some.inj h2
      exact ⟨ceil_log2_u32_of_pow2 hv hp heq, h3⟩
  · intro s hs
    have h := hs.inv.static
    have hps := h.page_size_eq
    have hlog : s.page_offset_bits = Nat.log 2 s.cfg.page_size := by
      rw [hps, Nat.log_pow (by decide)]
    have hmask : s.page_offset_mask = s.cfg.page_size - 1 := by
      rw [h.pomask_eq, hps]
    refine ⟨hlog, hps, hmask, ?_⟩
    intro k
    rw [h.pomask_eq, hps, Nat.and_pow_two_sub_one_eq_mod]
    constructor
    · exact Nat.mod_eq_of_lt
    · intro hk
      rw [← hk]
      exact Nat.mod_lt _ (Nat.pow_pos (by decide))

/-- C39, witness: `ceil_log2_u32` on 4096, 5 and 1, and the page-offset mask of
`small_fresh` (4096-byte pages). -/
theorem page_offset_derivation_witness :
    4096 < 2 ^ 32 ∧ ceil_log2_u32 4096 = some 12 ∧ ceil_log2_u32 5 = some 3 ∧
    ceil_log2_u32 1 = some 0 ∧ ceil_log2_u32 0 = some 0 ∧
    ceil_log2_u32 0xFFFFFFFF = some 32 ∧
    (∃ n, ceil_log2_u32 4096 = some n ∧ 4096 ≤ 2 ^ n ∧ (∀ k, 4096 ≤ 2 ^ k → n ≤ k) ∧
      (4096 ≤ 1 → n = 0) ∧
      (is_power_of_two 4096 = true → 4096 = 2 ^ n ∧ n = Nat.log 2 4096)) ∧
    small_fresh.page_offset_mask = 0xFFF ∧
    small_fresh.page_offset_mask = small_fresh.cfg.page_size - 1 :=
  ⟨by decide, by decide, by decide, by decide, by decide, by decide,
    (page_offset_derivation 4096 (by decide)).1, by decide,
    ((page_offset_derivation 4096 (by decide)).2 small_fresh small_fresh_reachable).2.2.1⟩

/-! ## C35: the sizing check -/

theorem reset_cell_status {s : memory_model} {e : memory_model_error_t}
    {out : Ptr memory_model} (h : memory_model_reset (.cell s) = some (e, out)) :
    e = MEMORY_MODEL_ERROR_OK := by
  unfold memory_model_reset at h
  simp only at h
  split at h
  · cases h; rfl
  · cases h

theorem create_alloc_unsupported {c : memory_model_config_t} {alloc : calloc_results}
    {out : Ptr (Ptr memory_model)}
    (h : create_alloc c alloc = some (MEMORY_MODEL_ERROR_UNSUPPORTED, out)) :
    total_bytes_check SIZE_WIDTH c.mem_depth ((c.data_width / 8) % 2 ^ 32) = true := by
  unfold create_alloc at h
  split at h
  · cases h
  split at h
  · cases h
  split at h
  · cases h
  split at h
  · cases h
  split at h
  · assumption
  split at h
  · cases h
  split at h
  · cases h
  split at h
  · cases h
  rename_i rs model' hreset
  have := reset_cell_status hreset
  subst this
  simp at h

/-- C35.  With the store size computed in `w`-bit unsigned arithmetic, for every
`mem_depth >= 1` and `bytes_per_word >= 1` (in particular `1..8`) the check
`total / mem_depth != bytes_per_word` of lines 146-147 is true iff
`mem_depth * bytes_per_word >= 2 ^ w`.  With the 64-bit `size_t` of the embedding,
a `uint32_t` depth and at most 8 bytes per word the check is false, and
`memory_model_create` returns UNSUPPORTED only for a rejected `data_width`. -/
theorem overflow_check_exact (w depth bpw : Nat) (hd : 1 ≤ depth) (hb : 1 ≤ bpw) :
    (total_bytes_check w depth bpw = true ↔ 2 ^ w ≤ depth * bpw) ∧
    (depth < 2 ^ 32 → bpw ≤ 8 → total_bytes_check SIZE_WIDTH depth bpw = false) ∧
    (∀ c h alloc out, config_in_range c →
      memory_model_create (.cell c) (.cell h) alloc =
        some (MEMORY_MODEL_ERROR_UNSUPPORTED, out) → data_width_unsupported c) := by
  have key : ∀ w', (total_bytes_check w' depth bpw = true ↔ 2 ^ w' ≤ depth * bpw) := by
    intro w'
    unfold total_bytes_check
    have hd0 : (depth != 0) = true := by simp; omega
    have hb0 : (bpw != 0) = true := by simp; omega
    simp only [hd0, hb0, Bool.true_and, bne_iff_ne, ne_eq]
    constructor
    · intro hne
      by_contra hlt
      apply hne
      rw [Nat.mod_eq_of_lt (by omega), Nat.mul_div_cancel_left _ (by omega)]
    · intro hge heq
      have hlt : depth * bpw % 2 ^ w' < 2 ^ w' := Nat.mod_lt _ (Nat.pow_pos (by decide))
      have h1 : depth * bpw % 2 ^ w' < depth * bpw := by omega
      have h2 : depth * bpw % 2 ^ w' / depth < bpw :=
        (Nat.div_lt_iff_lt_mul (by omega)).mpr (by rw [Nat.mul_comm bpw depth]; exact h1)
      omega
  have h64 : depth < 2 ^ 32 → bpw ≤ 8 → total_bytes_check SIZE_WIDTH depth bpw = false := by
    intro hd32 hb8
    apply total_bytes_check_false (by omega)
    unfold SIZE_WIDTH
    calc depth * bpw ≤ depth * 8 := Nat.mul_le_mul_left _ hb8
      _ < 2 ^ 64 := by omega
  refine ⟨key w, h64, ?_⟩
  intro c h alloc out hr hc
  by_contra hw
  unfold data_width_unsupported at hw
  simp only [not_or, ne_eq, not_not, not_lt] at hw
  have c1 : (c.data_width == 0 || c.data_width % 8 != 0 || decide (c.data_width > 64))
      = false := by
    simp [hw.1, hw.2.1]
    omega
  unfold memory_model_create at hc
  simp only [c1, Bool.false_eq_true, if_false] at hc
  split at hc
  · cases hc
  rename_i h2
  split at hc
  · cases hc
  rename_i h3
  split at hc
  · cases hc
  split at hc
  · cases hc
  have hchk := create_alloc_unsupported hc
  have hbpw : (c.data_width / 8) % 2 ^ 32 = c.data_width / 8 := Nat.mod_eq_of_lt (by omega)
  have hmd : c.mem_depth ≠ 0 := by
    intro h0
    apply h3
    simp [h0]
  rw [hbpw, total_bytes_check_false hmd] at hchk
  · cases hchk
  · unfold SIZE_WIDTH
    have := hr.2.2.2.2.1
    calc c.mem_depth * (c.data_width / 8) ≤ c.mem_depth * 8 :=
          Nat.mul_le_mul_left _ (by omega)
      _ < 2 ^ 64 := by omega

/-- C35, witness: in 8-bit arithmetic 64 words of 8 bytes overflow (512 bytes, the
check fires), 31 words of 8 bytes do not (248 bytes). -/
theorem overflow_check_exact_witness :
    total_bytes_check 8 64 8 = true ∧ total_bytes_check 8 31 8 = false ∧
    2 ^ 8 ≤ 64 * 8 ∧ ¬ 2 ^ 8 ≤ 31 * 8 ∧
    (total_bytes_check 8 64 8 = true ↔ 2 ^ 8 ≤ 64 * 8) ∧
    (total_bytes_check 8 31 8 = true ↔ 2 ^ 8 ≤ 31 * 8) ∧
    total_bytes_check SIZE_WIDTH 0xFFFFFFFF 8 = false :=
  ⟨by decide, by decide, by decide, by decide,
    (overflow_check_exact 8 64 8 (by decide) (by decide)).1,
    (overflow_check_exact 8 31 8 (by decide) (by decide)).1,
    (overflow_check_exact 64 0xFFFFFFFF 8 (by decide) (by decide)).2.1 (by decide)
      (by decide)⟩

/-! ## C36: indexing is always in bounds -/

/-- C36.  In every reachable state every interface call with arguments of the C
types returns (the out-of-bounds and over-wide-shift branches of the embedding are
never taken) and leads to a reachable state.  The bounds behind it: the cursor is
below `tlb_entries`, the table has `tlb_entries` slots and the store
`mem_depth * bytes_per_word` bytes, and for a word index that passes the bound
check and `i < bytes_per_word`, the byte index `idx * bytes_per_word + i` is below
`mem_depth * bytes_per_word`, `i * 8 < 64` and `i < 32`. -/
theorem indexing_in_bounds {s : memory_model} (hs : Reachable s) :
    (∀ c, call_in_range c → ∃ s' o, run_call s c = some s' ∧ observe s c = some o ∧
      Reachable s') ∧
    (∀ v p, ∃ r, memory_model_load_tlb (.cell s) v p = some r) ∧
    (∀ a x, ∃ r, memory_model_translate (.cell s) a (.cell x) = some r) ∧
    (∀ a m x, m < 2 ^ 32 → ∃ r, memory_model_read (.cell s) a m (.cell x) = some r) ∧
    (∀ a m d, m < 2 ^ 32 → ∃ r, memory_model_write (.cell s) a m d = some r) ∧
    (∃ r, memory_model_reset (.cell s) = some r) ∧
    s.tlb_write_ptr < s.tlb.length ∧ s.tlb.length = s.cfg.tlb_entries ∧
    s.memory.length = s.cfg.mem_depth * s.bytes_per_word ∧
    (∀ p i, index_ok s ((p &&& s.mem_addr_mask) % 2 ^ SIZE_WIDTH) → i < s.bytes_per_word →
      (((p &&& s.mem_addr_mask) % 2 ^ SIZE_WIDTH) * s.bytes_per_word % 2 ^ SIZE_WIDTH + i)
          % 2 ^ SIZE_WIDTH < s.cfg.mem_depth * s.bytes_per_word ∧
      (p &&& s.mem_addr_mask) * s.bytes_per_word + i < s.cfg.mem_depth * s.bytes_per_word ∧
      i * 8 < 64 ∧ i < 32) ∧
    s.page_offset_bits < 64 := by
  have h := hs.inv
  have hb8 := h.static.bpw_le
  have hload : ∀ v p, ∃ r, memory_model_load_tlb (.cell s) v p = some r :=
    fun v p => ⟨_, load_tlb_eq h v p⟩
  have htr : ∀ a x, ∃ r, memory_model_translate (.cell s) a (.cell x) = some r :=
    fun a x => ⟨_, translate_eq h a x⟩
  have hrd : ∀ a m x, m < 2 ^ 32 → ∃ r, memory_model_read (.cell s) a m (.cell x) = some r := by
    intro a m x hm
    obtain ⟨st, data, hr⟩ := read_total h a x hm
    exact ⟨_, hr⟩
  have hwr : ∀ a m d, m < 2 ^ 32 → ∃ r, memory_model_write (.cell s) a m d = some r := by
    intro a m d hm
    obtain ⟨st, mem', hw, _⟩ := write_total h a d hm
    exact ⟨_, hw⟩
  refine ⟨?_, hload, htr, hrd, hwr, ⟨_, reset_eq h⟩, ?_, h.tlb_len, h.mem_len, ?_, ?_⟩
  · intro c hc
    have hrun : ∃ s' o, run_call s c = some s' ∧ observe s c = some o := by
      cases c with
      | load_tlb v p => exact ⟨_, _, by simp only [run_call, load_tlb_eq h]; rfl,
          by simp only [observe, load_tlb_eq h]; rfl⟩
      | write a m d =>
        obtain ⟨st, mem', hw, _⟩ := write_total h a d hc.2.1
        exact ⟨_, _, by simp only [run_call, hw]; rfl, by simp only [observe, hw]; rfl⟩
      | read a m =>
        obtain ⟨st, data, hr⟩ := read_total h a 0 hc.2
        exact ⟨_, _, by simp only [run_call, hr]; rfl, by simp only [observe, hr]; rfl⟩
      | translate a =>
        cases hfind : s.tlb.find? (slot_hit s a) with
        | none => exact ⟨_, _, by simp only [run_call, translate_eq h]; rfl,
            by simp only [observe, translate_eq h, hfind]; rfl⟩
        | some e => exact ⟨_, _, by simp only [run_call, translate_eq h]; rfl,
            by simp only [observe, translate_eq h, hfind]; rfl⟩
      | reset => exact ⟨_, _, by simp only [run_call, reset_eq h]; rfl,
          by simp only [observe, reset_eq h]; rfl⟩
    obtain ⟨s', o, hr, ho⟩ := hrun
    exact ⟨s', o, hr, ho, Reachable.step c hs hc hr⟩
  · rw [h.tlb_len]
    exact h.ptr_lt
  · intro p i hok hi
    have hok' : index_ok s (word_index s p) := hok
    obtain ⟨hmod, hle, hsz⟩ := h.offset_bound hok'
    unfold word_index at hmod hle
    rw [h.mem_len] at hle hsz
    have hwi : (p &&& s.mem_addr_mask) % 2 ^ SIZE_WIDTH = p &&& s.mem_addr_mask := by
      have := h.static.word_index_eq p
      unfold word_index at this
      exact this
    rw [hmod, Nat.mod_eq_of_lt (by omega)]
    rw [hwi] at hle
    rw [hwi]
    exact ⟨by omega, by omega, by omega, by omega⟩
  · have := h.static.pob_le_32
    omega

/-- C36, witness: on `small_written` the last word (index 31, reached through
physical address `0x4FFF`) ends exactly at the end of the 256-byte store, and a
read, a write and a load return. -/
theorem indexing_in_bounds_witness :
    Reachable small_written ∧ small_written.memory.length = 256 ∧
    (0x4FFF &&& small_written.mem_addr_mask) * small_written.bytes_per_word + 7 = 255 ∧
    (∀ c, call_in_range c → ∃ s' o, run_call small_written c = some s' ∧
      observe small_written c = some o ∧ Reachable s') ∧
    small_written.tlb_write_ptr < small_written.tlb.length :=
  ⟨small_written_reachable, by decide, by decide,
    (indexing_in_bounds small_written_reachable).1,
    (indexing_in_bounds small_written_reachable).2.2.2.2.2.2.1⟩

/-! ## C34: a masked read is the full read with unselected bytes zeroed -/

theorem testBit_expand_mask (m n k : Nat) :
    (expand_mask m n).testBit k = (m.testBit (k / 8) && decide (k / 8 < n)) := by
  induction n with
  | zero => simp [expand_mask]
  | succ n ih =>
    rw [expand_mask, Nat.testBit_or, ih]
    by_cases hk : k / 8 = n
    · subst hk
      by_cases hm : m.testBit (k / 8)
      · simp only [hm, if_true, Nat.testBit_shiftLeft]
        have h1 : (0xFF : Nat).testBit (k - 8 * (k / 8)) = true := by
          rw [show (0xFF : Nat) = 2 ^ 8 - 1 by norm_num, Nat.testBit_two_pow_sub_one]
          simp; omega
        have h2 : k ≥ 8 * (k / 8) := by omega
        simp [h1, h2]
      · simp [hm]
    · by_cases hlt : k / 8 < n
      · have : k / 8 < n + 1 := by omega
        simp only [hlt, this, decide_True, Bool.and_true]
        by_cases hm : m.testBit n
        · simp only [hm, if_true, Nat.testBit_shiftLeft]
          have : decide (k ≥ 8 * n) = false := by simp; omega
          simp [this]
        · simp [hm]
      · have h1 : ¬ k / 8 < n + 1 := by omega
        simp only [hlt, h1, decide_False, Bool.and_false, Bool.false_or]
        by_cases hm : m.testBit n
        · simp only [hm, if_true, Nat.testBit_shiftLeft]
          have : decide (k ≥ 8 * n) = true := by simp; omega
          have h3 : (0xFF : Nat).testBit (k - 8 * n) = false := by
            rw [show (0xFF : Nat) = 2 ^ 8 - 1 by norm_num, Nat.testBit_two_pow_sub_one]
            simp; omega
          simp [h3]
        · simp [hm]

/-- C34.  In every reachable state, for every address and every non-zero valid mask
`m`, `read(a, m)` returns the same status as `read(a, 0)`, and when that status is
OK its data is the data of `read(a, 0)` ANDed with the 64-bit expansion of `m`
(`0xFF` in byte position `i` for each set bit `i` of `m`); on any other status both
data values are 0. -/
theorem masked_read_is_full_read {s : memory_model} (hs : Reachable s) (a m x : Nat)
    (hm0 : m ≠ 0) (hm : m < 2 ^ s.bytes_per_word) :
    ∃ st dm d0, memory_model_read (.cell s) a m (.cell x) = some (st, .cell dm) ∧
      memory_model_read (.cell s) a 0 (.cell x) = some (st, .cell d0) ∧
      dm = d0 &&& expand_mask m 8 := by
  have h := hs.inv
  have hb8 := h.static.bpw_le
  have hpow : 2 ^ s.bytes_per_word ≤ 2 ^ 32 := Nat.pow_le_pow_right (by decide) (by omega)
  have hpos : 0 < 2 ^ s.bytes_per_word := Nat.pow_pos (by decide)
  have hm32 : m < 2 ^ 32 := by omega
  cases hfind : s.tlb.find? (slot_hit s a) with
  | none =>
    exact ⟨_, 0, 0, read_miss h a x hm32 hm hfind, read_miss h a x (by decide) hpos hfind,
      by simp⟩
  | some e =>
    by_cases hok : index_ok s (word_index s (slot_phys s e a))
    · obtain ⟨dm, hrm, hbm⟩ := read_ok h a x hm32 hm hfind hok
      obtain ⟨d0, hr0, hb0⟩ := read_ok h a x (by decide) hpos hfind hok
      refine ⟨_, dm, d0, hrm, hr0, ?_⟩
      apply Nat.eq_of_testBit_eq
      intro k
      rw [Nat.testBit_and, hbm k, hb0 k, testBit_expand_mask]
      by_cases hk : k / 8 < s.bytes_per_word
      · have hk8 : k / 8 < 8 := by omega
        simp only [hk, hk8, hm0, decide_True, decide_False, Bool.true_and, Bool.false_or,
          Bool.true_or, Bool.and_true]
        cases m.testBit (k / 8) <;> simp
      · simp [hk]
    · exact ⟨_, 0, 0, read_bad_index h a x hm32 hm hfind hok,
        read_bad_index h a x (by decide) hpos hfind hok, by simp⟩

/-- C34, witness: `small_rewritten` holds `0xFFEEDDCC55667788` at `0x10`; the read
with mask `0x0F` gives `0x0000000055667788`, and the expansion of `0x0F` is
`0x00000000FFFFFFFF`. -/
theorem masked_read_is_full_read_witness :
    Reachable small_rewritten ∧ 0x0F ≠ 0 ∧ 0x0F < 2 ^ small_rewritten.bytes_per_word ∧
    memory_model_read (.cell small_rewritten) 0x10 0 (.cell 0) =
      some (MEMORY_MODEL_STATUS_OK, .cell 0xFFEEDDCC55667788) ∧
    memory_model_read (.cell small_rewritten) 0x10 0x0F (.cell 0) =
      some (MEMORY_MODEL_STATUS_OK, .cell 0x0000000055667788) ∧
    expand_mask 0x0F 8 = 0x00000000FFFFFFFF ∧
    ∃ st dm d0, memory_model_read (.cell small_rewritten) 0x10 0x0F (.cell 0) =
        some (st, .cell dm) ∧
      memory_model_read (.cell small_rewritten) 0x10 0 (.cell 0) = some (st, .cell d0) ∧
      dm = d0 &&& expand_mask 0x0F 8 :=
  ⟨small_rewritten_reachable, by decide, by decide, by decide, by decide, by decide,
    masked_read_is_full_read small_rewritten_reachable 0x10 0x0F 0 (by decide) (by decide)⟩

/-! ## C31: frame of `write` -/

theorem word_ranges_disjoint {i1 i2 b j k : Nat} (hne : i1 ≠ i2) (hk : k < b)
    (hj : j = i1 * b + k) : ¬ (i2 * b ≤ j ∧ j < i2 * b + b) := by
  rintro ⟨h1, h2⟩
  rcases Nat.lt_or_gt_of_ne hne with hlt | hgt
  · have : (i1 + 1) * b ≤ i2 * b := Nat.mul_le_mul_right _ hlt
    rw [Nat.add_mul, Nat.one_mul] at this
    omega
  · have : (i2 + 1) * b ≤ i1 * b := Nat.mul_le_mul_right _ hgt
    rw [Nat.add_mul, Nat.one_mul] at this
    omega

/-- C31.  In every reachable state, whenever `write(a, m, d)` returns OK, the
address translates to some physical address `p`; a byte of the store can differ
afterwards only at an index `(p & mem_addr_mask) * bytes_per_word + i` with bit
`i < bytes_per_word` of `m` set; the TLB slots, cursor, count, configuration and
derived members are unchanged; every translation gives the same result, and every
read of an address that does not resolve to the word index of `p` gives the same
result as before. -/
theorem write_frame {s s' : memory_model} (hs : Reachable s) (a m d : Nat)
    (hm32 : m < 2 ^ 32)
    (hw : memory_model_write (.cell s) a m d = some (MEMORY_MODEL_STATUS_OK, .cell s')) :
    ∃ p, memory_model_translate (.cell s) a (.cell 0) =
        some (MEMORY_MODEL_STATUS_OK, .cell p) ∧
      s'.tlb = s.tlb ∧ s'.tlb_write_ptr = s.tlb_write_ptr ∧
      s'.active_entries = s.active_entries ∧ static_part s' = static_part s ∧
      s'.memory.length = s.memory.length ∧
      (∀ j, s'.memory[j]? ≠ s.memory[j]? →
        ∃ i, i < s.bytes_per_word ∧ m.testBit i = true ∧
          j = (p &&& s.mem_addr_mask) * s.bytes_per_word + i) ∧
      (∀ a' x, memory_model_translate (.cell s') a' (.cell x) =
        memory_model_translate (.cell s) a' (.cell x)) ∧
      (∀ a' m' x, m' < 2 ^ 32 →
        (∀ p', memory_model_translate (.cell s) a' (.cell 0) =
            some (MEMORY_MODEL_STATUS_OK, .cell p') →
          p' &&& s.mem_addr_mask ≠ p &&& s.mem_addr_mask) →
        memory_model_read (.cell s') a' m' (.cell x) =
          memory_model_read (.cell s) a' m' (.cell x)) := by
  have h := hs.inv
  by_cases hm : m < 2 ^ s.bytes_per_word
  · cases hfind : s.tlb.find? (slot_hit s a) with
    | none =>
      rw [write_miss h a d hm32 hm hfind] at hw
      cases hw
    | some e =>
      have htr : memory_model_translate (.cell s) a (.cell 0) =
          some (MEMORY_MODEL_STATUS_OK, .cell (slot_phys s e a)) :=
        (translate_ok_iff h a 0 _).mpr ⟨e, hfind, rfl⟩
      by_cases hm0 : m = 0
      · subst hm0
        rw [write_zero_mask h a d hfind] at hw
        cases hw
        exact ⟨_, htr, rfl, rfl, rfl, rfl, rfl, fun j hj => absurd rfl hj,
          fun _ _ => rfl, fun _ _ _ _ _ => rfl⟩
      · by_cases hok : index_ok s (word_index s (slot_phys s e a))
        · obtain ⟨mem', hw', hlen, hget⟩ := write_ok h a d hm32 hm hm0 hfind hok
          rw [hw'] at hw
          cases hw
          have hb : ∀ b ∈ mem', b < 256 := by
            intro b hb
            obtain ⟨j, hj⟩ := List.mem_iff_getElem?.mp hb
            rw [hget j] at hj
            split at hj
            · cases hj
              exact byte_of_lt _ _
            · exact h.mem_bytes b (List.mem_iff_getElem?.mpr ⟨j, hj⟩)
          have h' : model_inv { s with memory := mem' } := memory_update_inv h hlen hb
          have hwi := h.static.word_index_eq (slot_phys s e a)
          refine ⟨_, htr, rfl, rfl, rfl, rfl, hlen, ?_, ?_, ?_⟩
          · intro j hj
            change mem'[j]? ≠ _ at hj
            rw [hget j] at hj
            split at hj
            · rename_i hc
              rw [hwi] at hc
              exact ⟨j - (slot_phys s e a &&& s.mem_addr_mask) * s.bytes_per_word,
                by omega, hc.2.2, by omega⟩
            · exact absurd rfl hj
          · intro a' x
            rw [translate_eq h', translate_eq h]
            rfl
          · intro a' m' x hm32' hdiff
            by_cases hmv : m' < 2 ^ s.bytes_per_word
            · cases hfind' : s.tlb.find? (slot_hit s a') with
              | none =>
                rw [read_miss h a' x hm32' hmv hfind']
                exact read_miss h' a' x hm32' hmv hfind'
              | some e' =>
                by_cases hok' : index_ok s (word_index s (slot_phys s e' a'))
                · obtain ⟨d1, hr1, hb1⟩ := read_ok h a' x hm32' hmv hfind' hok'
                  obtain ⟨d2, hr2, hb2⟩ := read_ok h' a' x hm32'
                    (show m' < 2 ^ s.bytes_per_word from hmv)
                    (show s.tlb.find? (slot_hit s a') = some e' from hfind')
                    (show index_ok s (word_index s (slot_phys s e' a')) from hok')
                  rw [hr1, hr2]
                  have hne := hdiff _ ((translate_ok_iff h a' 0 _).mpr ⟨e', hfind', rfl⟩)
                  have hwi' := h.static.word_index_eq (slot_phys s e' a')
                  have : d2 = d1 := by
                    apply Nat.eq_of_testBit_eq
                    intro k
                    have h2 : d2.testBit k =
                        (decide (k / 8 < s.bytes_per_word) &&
                          (decide (m' = 0) || m'.testBit (k / 8)) &&
                          (mem'.getD (word_index s (slot_phys s e' a') * s.bytes_per_word
                            + k / 8) 0).testBit (k % 8)) := hb2 k
                    rw [hb1 k, h2]
                    by_cases hk : k / 8 < s.bytes_per_word
                    · have hsame : mem'[word_index s (slot_phys s e' a') * s.bytes_per_word
                          + k / 8]? = s.memory[word_index s (slot_phys s e' a')
                            * s.bytes_per_word + k / 8]? := by
                        rw [hget]
                        rw [if_neg]
                        intro hc
                        exact word_ranges_disjoint (by rw [hwi, hwi']; exact hne) hk rfl
                          ⟨hc.1, hc.2.1⟩
                      rw [List.getD_eq_getElem?_getD, List.getD_eq_getElem?_getD, hsame]
                    · simp [hk]
                  rw [this]
                · rw [read_bad_index h a' x hm32' hmv hfind' hok']
                  exact read_bad_index h' a' x hm32' hmv hfind' hok'
            · rw [read_bad_mask h a' x hm32' hmv]
              exact read_bad_mask h' a' x hm32' hmv
        · rw [write_bad_index h a d hm32 hm hm0 hfind hok] at hw
          cases hw
  · rw [write_bad_mask h a d hm32 hm] at hw
    cases hw

/-- C31, witness: the write producing `small_written` from `small_mapped` (address
`0x10`, physical `0x4010`, word 16) changes byte `16 * 8 + 0` and leaves the read of
address `0x18` (word 24) as it was. -/
theorem write_frame_witness :
    Reachable small_mapped ∧ 0xFF < 2 ^ 32 ∧
    memory_model_write (.cell small_mapped) 0x10 0xFF 0xFFEEDDCCBBAA9988 =
      some (MEMORY_MODEL_STATUS_OK, .cell small_written) ∧
    small_mapped.memory[16 * 8]? = some 0 ∧ small_written.memory[16 * 8]? = some 0x88 ∧
    memory_model_read (.cell small_written) 0x18 0xFF (.cell 0) =
      some (MEMORY_MODEL_STATUS_OK, .cell 0) ∧
    ∃ p, memory_model_translate (.cell small_mapped) 0x10 (.cell 0) =
        some (MEMORY_MODEL_STATUS_OK, .cell p) ∧
      small_written.tlb = small_mapped.tlb ∧
      small_written.tlb_write_ptr = small_mapped.tlb_write_ptr ∧
      small_written.active_entries = small_mapped.active_entries ∧
      static_part small_written = static_part small_mapped ∧
      small_written.memory.length = small_mapped.memory.length :=
  ⟨small_mapped_reachable, by decide, by decide, by decide, by decide, by decide,
    (write_frame small_mapped_reachable 0x10 0xFF 0xFFEEDDCCBBAA9988 (by decide)
      (by decide)).imp (fun _ hp => ⟨hp.1, hp.2.1, hp.2.2.1, hp.2.2.2.1, hp.2.2.2.2.1,
        hp.2.2.2.2.2.1⟩)⟩

/-! ## C33: address bits above the configured widths are ignored -/

theorem translate_mask_virt (s : memory_model) (a : Nat) (out : Ptr Nat) :
    memory_model_translate (.cell s) (a &&& s.virt_addr_mask) out =
      memory_model_translate (.cell s) a out := by
  cases out with
  | null => rfl
  | cell x => simp only [memory_model_translate, Nat.and_assoc, Nat.and_self]

theorem load_tlb_mask_args (s : memory_model) (v p : Nat) :
    memory_model_load_tlb (.cell s) (v &&& s.virt_addr_mask) (p &&& s.phys_addr_mask) =
      memory_model_load_tlb (.cell s) v p := by
  simp only [memory_model_load_tlb, Nat.and_assoc, Nat.and_self]

/-- C33.  In every reachable state `translate`, `read` and `write` give the same
result for `a & virt_addr_mask` as for `a`; every physical address stored by
`translate` has no bit outside `phys_addr_mask`; and `load_tlb(v & virt_addr_mask,
p & phys_addr_mask)` returns the same code and state as `load_tlb(v, p)`. -/
theorem high_bits_ignored {s : memory_model} (hs : Reachable s) (a m d x v p : Nat) :
    memory_model_translate (.cell s) (a &&& s.virt_addr_mask) (.cell x) =
      memory_model_translate (.cell s) a (.cell x) ∧
    memory_model_read (.cell s) (a &&& s.virt_addr_mask) m (.cell x) =
      memory_model_read (.cell s) a m (.cell x) ∧
    memory_model_write (.cell s) (a &&& s.virt_addr_mask) m d =
      memory_model_write (.cell s) a m d ∧
    (∃ st phys, memory_model_translate (.cell s) a (.cell x) = some (st, .cell phys) ∧
      phys &&& not_u64 s.phys_addr_mask = 0) ∧
    memory_model_load_tlb (.cell s) (v &&& s.virt_addr_mask) (p &&& s.phys_addr_mask) =
      memory_model_load_tlb (.cell s) v p ∧
    ∃ s', memory_model_load_tlb (.cell s) v p = some (MEMORY_MODEL_ERROR_OK, .cell s') := by
  have h := hs.inv
  refine ⟨translate_mask_virt s a _, ?_, ?_, ?_, load_tlb_mask_args s v p,
    ⟨_, load_tlb_eq h v p⟩⟩
  · simp only [memory_model_read, translate_mask_virt]
  · simp only [memory_model_write, translate_mask_virt]
  · rw [translate_eq h]
    cases hfind : s.tlb.find? (slot_hit s a) with
    | none => exact ⟨_, 0, rfl, by simp⟩
    | some e =>
      refine ⟨_, _, rfl, ?_⟩
      apply Nat.eq_of_testBit_eq
      intro k
      unfold slot_phys
      rw [Nat.testBit_and, Nat.testBit_and, testBit_not_u64, h.static.pmask_eq,
        Nat.testBit_two_pow_sub_one]
      have := h.static.phys_le
      by_cases hk : k < s.cfg.phys_addr_width
      · have : k < 64 := by omega
        simp [hk, this]
      · simp [hk]

/-- C33, witness: on `small_written` (32-bit virtual, 28-bit physical addresses)
address `0x7_0000_0010` behaves as `0x10`. -/
theorem high_bits_ignored_witness :
    Reachable small_written ∧ 0x700000010 &&& small_written.virt_addr_mask = 0x10 ∧
    memory_model_read (.cell small_written) 0x700000010 0xFF (.cell 0) =
      some (MEMORY_MODEL_STATUS_OK, .cell 0xFFEEDDCCBBAA9988) ∧
    memory_model_translate (.cell small_written) 0x700000010 (.cell 0) =
      some (MEMORY_MODEL_STATUS_OK, .cell 0x4010) ∧
    memory_model_read (.cell small_written) (0x700000010 &&& small_written.virt_addr_mask)
        0xFF (.cell 0) =
      memory_model_read (.cell small_written) 0x700000010 0xFF (.cell 0) ∧
    memory_model_load_tlb (.cell small_written)
        (0x100002000 &&& small_written.virt_addr_mask)
        (0x30005000 &&& small_written.phys_addr_mask) =
      memory_model_load_tlb (.cell small_written) 0x100002000 0x30005000 :=
  ⟨small_written_reachable, by decide, by decide, by decide,
    (high_bits_ignored small_written_reachable 0x700000010 0xFF 1 0 0x100002000
      0x30005000).2.1,
    (high_bits_ignored small_written_reachable 0x700000010 0xFF 1 0 0x100002000
      0x30005000).2.2.2.2.1⟩

/-! ## C32: only the page-number bits of a mapping matter -/

theorem capacity_depth_congr {s s' : memory_model} (h : static_part s' = static_part s) :
    s'.cfg.mem_depth = s.cfg.mem_depth := by
  simp only [static_part, Prod.mk.injEq] at h
  rw [h.1]

theorem translate_resolve {s : memory_model} (h : model_inv s) (a x : Nat) :
    memory_model_translate (.cell s) a (.cell x) =
      some (match resolve s a with
        | some p => (MEMORY_MODEL_STATUS_OK, .cell p)
        | none => (MEMORY_MODEL_STATUS_ERR_ADDR, .cell 0)) := by
  rw [translate_eq h]
  unfold resolve
  cases s.tlb.find? (slot_hit s a) <;> rfl

/-- Two instances with the same static members and the same store, in which the
address resolves alike, give the same result for a read. -/
theorem read_congr {s1 s2 : memory_model} (h1 : model_inv s1) (h2 : model_inv s2)
    (hst : static_part s2 = static_part s1) (hmem : s2.memory = s1.memory)
    (a m x : Nat) (hm32 : m < 2 ^ 32) (hres : resolve s2 a = resolve s1 a) :
    memory_model_read (.cell s2) a m (.cell x) = memory_model_read (.cell s1) a m (.cell x) := by
  have hst' := hst
  simp only [static_part, Prod.mk.injEq] at hst'
  obtain ⟨_, hbpw, _, _, hpow, _, _, _, _, _⟩ := hst'
  by_cases hm : m < 2 ^ s1.bytes_per_word
  · have hm' : m < 2 ^ s2.bytes_per_word := by rw [hbpw]; exact hm
    unfold resolve at hres
    cases hf1 : s1.tlb.find? (slot_hit s1 a) with
    | none =>
      cases hf2 : s2.tlb.find? (slot_hit s2 a) with
      | none => rw [read_miss h1 a x hm32 hm hf1, read_miss h2 a x hm32 hm' hf2]
      | some e2 => rw [hf1, hf2] at hres; cases hres
    | some e1 =>
      cases hf2 : s2.tlb.find? (slot_hit s2 a) with
      | none => rw [hf1, hf2] at hres; cases hres
      | some e2 =>
        rw [hf1, hf2] at hres
        have hp : slot_phys s2 e2 a = slot_phys s1 e1 a := Option.some.inj hres
        have hwi : word_index s2 (slot_phys s2 e2 a) = word_index s1 (slot_phys s1 e1 a) := by
          rw [hp, word_index_congr hst]
        have hokiff : index_ok s2 (word_index s2 (slot_phys s2 e2 a)) ↔
            index_ok s1 (word_index s1 (slot_phys s1 e1 a)) := by
          unfold index_ok
          rw [hwi, hpow, capacity_depth_congr hst]
        by_cases hok : index_ok s1 (word_index s1 (slot_phys s1 e1 a))
        · obtain ⟨d1, hr1, hb1⟩ := read_ok h1 a x hm32 hm hf1 hok
          obtain ⟨d2, hr2, hb2⟩ := read_ok h2 a x hm32 hm' hf2 (hokiff.mpr hok)
          rw [hr1, hr2]
          have : d2 = d1 := by
            apply Nat.eq_of_testBit_eq
            intro k
            rw [hb1 k, hb2 k, hwi, hbpw, hmem]
          rw [this]
        · rw [read_bad_index h1 a x hm32 hm hf1 hok,
            read_bad_index h2 a x hm32 hm' hf2 (fun hc => hok (hokiff.mp hc))]
  · have hm' : ¬ m < 2 ^ s2.bytes_per_word := by rw [hbpw]; exact hm
    rw [read_bad_mask h1 a x hm32 hm, read_bad_mask h2 a x hm32 hm']

/-- Two instances with the same static members and the same store, in which the
address resolves alike, give the same status for a write and store the same
bytes. -/
theorem write_congr {s1 s2 : memory_model} (h1 : model_inv s1) (h2 : model_inv s2)
    (hst : static_part s2 = static_part s1) (hmem : s2.memory = s1.memory)
    (a m d : Nat) (hm32 : m < 2 ^ 32) (hres : resolve s2 a = resolve s1 a) :
    ∃ st mem', memory_model_write (.cell s1) a m d =
        some (st, .cell { s1 with memory := mem' }) ∧
      memory_model_write (.cell s2) a m d = some (st, .cell { s2 with memory := mem' }) ∧
      mem'.length = s1.memory.length ∧ (∀ b ∈ mem', b < 256) := by
  have hst' := hst
  simp only [static_part, Prod.mk.injEq] at hst'
  obtain ⟨_, hbpw, _, _, hpow, _, _, _, _, hdm⟩ := hst'
  have same2 : ({ s2 with memory := s1.memory } : memory_model) = s2 := by
    rw [← hmem]
  by_cases hm : m < 2 ^ s1.bytes_per_word
  · have hm' : m < 2 ^ s2.bytes_per_word := by rw [hbpw]; exact hm
    unfold resolve at hres
    cases hf1 : s1.tlb.find? (slot_hit s1 a) with
    | none =>
      cases hf2 : s2.tlb.find? (slot_hit s2 a) with
      | none =>
        exact ⟨_, s1.memory, write_miss h1 a d hm32 hm hf1,
          (by rw [same2]; exact write_miss h2 a d hm32 hm' hf2), rfl, h1.mem_bytes⟩
      | some e2 => rw [hf1, hf2] at hres; cases hres
    | some e1 =>
      cases hf2 : s2.tlb.find? (slot_hit s2 a) with
      | none => rw [hf1, hf2] at hres; cases hres
      | some e2 =>
        rw [hf1, hf2] at hres
        have hp : slot_phys s2 e2 a = slot_phys s1 e1 a := Option.some.inj hres
        have hwi : word_index s2 (slot_phys s2 e2 a) = word_index s1 (slot_phys s1 e1 a) := by
          rw [hp, word_index_congr hst]
        have hokiff : index_ok s2 (word_index s2 (slot_phys s2 e2 a)) ↔
            index_ok s1 (word_index s1 (slot_phys s1 e1 a)) := by
          unfold index_ok
          rw [hwi, hpow, capacity_depth_congr hst]
        by_cases hm0 : m = 0
        · subst hm0
          exact ⟨_, s1.memory, write_zero_mask h1 a d hf1,
            (by rw [same2]; exact write_zero_mask h2 a d hf2), rfl, h1.mem_bytes⟩
        · by_cases hok : index_ok s1 (word_index s1 (slot_phys s1 e1 a))
          · obtain ⟨mem1, hw1, hlen1, hget1⟩ := write_ok h1 a d hm32 hm hm0 hf1 hok
            obtain ⟨mem2, hw2, hlen2, hget2⟩ :=
              write_ok h2 a d hm32 hm' hm0 hf2 (hokiff.mpr hok)
            have heq : mem2 = mem1 := by
              apply List.ext_getElem?
              intro j
              rw [hget1 j, hget2 j, hwi, hbpw, hdm, hmem]
            rw [heq] at hw2
            refine ⟨_, mem1, hw1, hw2, hlen1, ?_⟩
            intro b hb
            obtain ⟨j, hj⟩ := List.mem_iff_getElem?.mp hb
            rw [hget1 j] at hj
            split at hj
            · cases hj
              exact byte_of_lt _ _
            · exact h1.mem_bytes b (List.mem_iff_getElem?.mpr ⟨j, hj⟩)
          · have hno2 : ¬ index_ok s2 (word_index s2 (slot_phys s2 e2 a)) :=
              fun hc => hok (hokiff.mp hc)
            exact ⟨_, s1.memory, write_bad_index h1 a d hm32 hm hm0 hf1 hok,
              (by rw [same2]; exact write_bad_index h2 a d hm32 hm' hm0 hf2 hno2), rfl,
              h1.mem_bytes⟩
  · have hm' : ¬ m < 2 ^ s2.bytes_per_word := by rw [hbpw]; exact hm
    exact ⟨_, s1.memory, write_bad_mask h1 a d hm32 hm,
      (by rw [same2]; exact write_bad_mask h2 a d hm32 hm'), rfl, h1.mem_bytes⟩

theorem find_map_set {α β : Type} (q : α → Bool) (f : α → β) (e1 e2 : α)
    (hq : q e1 = q e2) (hf : f e1 = f e2) :
    ∀ (l : List α) (i : Nat),
      ((l.set i e1).find? q).map f = ((l.set i e2).find? q).map f := by
  intro l
  induction l with
  | nil => intro i; rfl
  | cons y l ih =>
    intro i
    cases i with
    | zero =>
      simp only [List.set_cons_zero, List.find?_cons, hq]
      cases q e2
      · rfl
      · simp only [Option.map_some', hf]
    | succ i =>
      simp only [List.set_cons_succ, List.find?_cons]
      cases q y
      · exact ih i
      · rfl

/-- Clearing the page-offset bits of a virtual base keeps its page number. -/
theorem page_number_clear_offset {s : memory_model} (h : static_inv s) (v : Nat) :
    page_number s (v &&& not_u64 s.page_offset_mask) = page_number s v := by
  unfold page_number
  apply Nat.eq_of_testBit_eq
  intro i
  rw [Nat.testBit_shiftRight, Nat.testBit_shiftRight, Nat.testBit_and, Nat.testBit_and,
    Nat.testBit_and, testBit_not_u64, h.vmask_eq, h.pomask_eq, Nat.testBit_two_pow_sub_one,
    Nat.testBit_two_pow_sub_one]
  have := h.virt_le
  by_cases hk : s.page_offset_bits + i < s.cfg.virt_addr_width
  · have h1 : s.page_offset_bits + i < 64 := by omega
    have h2 : ¬ s.page_offset_bits + i < s.page_offset_bits := by omega
    simp [hk, h1, h2]
  · simp [hk]

/-- The slots stored for a mapping and for the same mapping with the page-offset
bits of both bases cleared hit the same addresses and produce the same physical
addresses. -/
theorem loaded_slot_clear_offset {s : memory_model} (h : static_inv s) (v p a : Nat) :
    slot_hit s a (loaded_slot s (v &&& not_u64 s.page_offset_mask)
        (p &&& not_u64 s.page_offset_mask)) = slot_hit s a (loaded_slot s v p) ∧
    slot_phys s (loaded_slot s (v &&& not_u64 s.page_offset_mask)
        (p &&& not_u64 s.page_offset_mask)) a = slot_phys s (loaded_slot s v p) a := by
  constructor
  · have e1 : ∀ w, page_number s (w &&& s.virt_addr_mask) = page_number s w := by
      intro w
      unfold page_number
      rw [Nat.and_assoc, Nat.and_self]
    simp only [slot_hit, loaded_slot, e1, page_number_clear_offset h]
  · simp only [slot_phys, loaded_slot]
    congr 2
    apply Nat.eq_of_testBit_eq
    intro k
    simp only [Nat.testBit_and]
    cases p.testBit k <;> cases (not_u64 s.page_offset_mask).testBit k <;>
      cases s.phys_addr_mask.testBit k <;> rfl

theorem resolve_clear_offset {s : memory_model} (h : static_inv s) (v p a : Nat)
    (mem : List Nat) :
    resolve { load_state s (v &&& not_u64 s.page_offset_mask)
        (p &&& not_u64 s.page_offset_mask) with memory := mem } a =
      resolve { load_state s v p with memory := mem } a := by
  obtain ⟨hq, hf⟩ := loaded_slot_clear_offset h v p a
  exact find_map_set (slot_hit s a) (fun e => slot_phys s e a) _ _ hq hf s.tlb s.tlb_write_ptr

/-- Two instances that differ only in their tables, with every address resolving
alike in both, give the same outcomes for every sequence of transactions. -/
theorem observe_transactions_congr :
    ∀ (cs : List call) (s1 s2 : memory_model), model_inv s1 → model_inv s2 →
      static_part s2 = static_part s1 → s2.memory = s1.memory →
      (∀ mem a, resolve { s2 with memory := mem } a = resolve { s1 with memory := mem } a) →
      (∀ c ∈ cs, call_in_range c ∧ c.is_transaction = true) →
      ∃ os, observe_calls s1 cs = some os ∧ observe_calls s2 cs = some os := by
  intro cs
  induction cs with
  | nil => intro s1 s2 _ _ _ _ _ _; exact ⟨[], rfl, rfl⟩
  | cons c cs ih =>
    intro s1 s2 h1 h2 hst hmem hres hcs
    have hc := hcs c (List.mem_cons_self _ _)
    have hrest : ∀ c' ∈ cs, call_in_range c' ∧ c'.is_transaction = true :=
      fun c' hc' => hcs c' (List.mem_cons_of_mem _ hc')
    have hres0 : ∀ a, resolve s2 a = resolve s1 a := by
      intro a
      have := hres s1.memory a
      rw [← hmem] at this
      exact this
    cases c with
    | load_tlb v p =>
      have := hc.2
      simp [call.is_transaction] at this
    | reset =>
      have := hc.2
      simp [call.is_transaction] at this
    | translate a =>
      obtain ⟨os, ho1, ho2⟩ := ih s1 s2 h1 h2 hst hmem hres hrest
      have ht1 := translate_resolve h1 a 0
      have ht2 := translate_resolve h2 a 0
      rw [hres0 a] at ht2
      cases hr : resolve s1 a with
      | none =>
        rw [hr] at ht1 ht2
        refine ⟨.status MEMORY_MODEL_STATUS_ERR_ADDR 0 :: os, ?_, ?_⟩
        · simp only [observe_calls, observe, run_call, ht1, ho1, Option.map_some']
        · simp only [observe_calls, observe, run_call, ht2, ho2, Option.map_some']
      | some q =>
        rw [hr] at ht1 ht2
        refine ⟨.status MEMORY_MODEL_STATUS_OK q :: os, ?_, ?_⟩
        · simp only [observe_calls, observe, run_call, ht1, ho1, Option.map_some']
        · simp only [observe_calls, observe, run_call, ht2, ho2, Option.map_some']
    | read a m =>
      obtain ⟨os, ho1, ho2⟩ := ih s1 s2 h1 h2 hst hmem hres hrest
      obtain ⟨st, data, hr1⟩ := read_total h1 a 0 hc.1.2
      have hr2 := read_congr h1 h2 hst hmem a m 0 hc.1.2 (hres0 a)
      rw [hr1] at hr2
      refine ⟨.status st data :: os, ?_, ?_⟩
      · simp only [observe_calls, observe, run_call, hr1, ho1, Option.map_some']
      · simp only [observe_calls, observe, run_call, hr2, ho2, Option.map_some']
    | write a m d =>
      obtain ⟨st, mem', hw1, hw2, hlen, hb⟩ :=
        write_congr h1 h2 hst hmem a m d hc.1.2.1 (hres0 a)
      obtain ⟨os, ho1, ho2⟩ := ih { s1 with memory := mem' } { s2 with memory := mem' }
        (memory_update_inv h1 hlen hb) (memory_update_inv h2 (by rw [hmem]; exact hlen) hb)
        hst rfl hres hrest
      refine ⟨.status st 0 :: os, ?_, ?_⟩
      · simp only [observe_calls, observe, run_call, hw1, ho1, Option.map_some']
      · simp only [observe_calls, observe, run_call, hw2, ho2, Option.map_some']

/-- C32.  In every reachable state, for all `v` and `p`, `load_tlb(v, p)` and
`load_tlb` of the same bases with their low `page_offset_bits` bits cleared both
return OK, and every sequence of `translate`, `read` and `write` calls (arguments of
the C types) run on the two resulting states returns without undefined behaviour
and gives the same list of outcomes (status and physical address or data). -/
theorem page_bits_only {s : memory_model} (hs : Reachable s) (v p : Nat) :
    ∃ s1 s2, memory_model_load_tlb (.cell s) v p = some (MEMORY_MODEL_ERROR_OK, .cell s1) ∧
      memory_model_load_tlb (.cell s) (v &&& not_u64 s.page_offset_mask)
        (p &&& not_u64 s.page_offset_mask) = some (MEMORY_MODEL_ERROR_OK, .cell s2) ∧
      ∀ cs : List call, (∀ c ∈ cs, call_in_range c ∧ c.is_transaction = true) →
        ∃ os, observe_calls s1 cs = some os ∧ observe_calls s2 cs = some os := by
  have h := hs.inv
  refine ⟨_, _, load_tlb_eq h v p, load_tlb_eq h _ _, ?_⟩
  intro cs hcs
  exact observe_transactions_congr cs _ _ (load_state_inv h v p) (load_state_inv h _ _)
    rfl rfl (fun mem a => resolve_clear_offset h.static v p a mem) hcs

/-- C32, witness: on `small_fresh` the mappings `(0x1234, 0x4567)` and
`(0x1000, 0x4000)` give the same outcomes for a write and a read at `0x1010` and a
translation of `0x1FFF`. -/
theorem page_bits_only_witness :
    Reachable small_fresh ∧
    0x1234 &&& not_u64 small_fresh.page_offset_mask = 0x1000 ∧
    0x4567 &&& not_u64 small_fresh.page_offset_mask = 0x4000 ∧
    observe_calls (load_state small_fresh 0x1234 0x4567)
        [.write 0x1010 0xFF 0xFFEEDDCCBBAA9988, .read 0x1010 0x0F, .translate 0x1FFF] =
      some [.status MEMORY_MODEL_STATUS_OK 0, .status MEMORY_MODEL_STATUS_OK 0xBBAA9988,
        .status MEMORY_MODEL_STATUS_OK 0x4FFF] ∧
    observe_calls (load_state small_fresh 0x1000 0x4000)
        [.write 0x1010 0xFF 0xFFEEDDCCBBAA9988, .read 0x1010 0x0F, .translate 0x1FFF] =
      some [.status MEMORY_MODEL_STATUS_OK 0, .status MEMORY_MODEL_STATUS_OK 0xBBAA9988,
        .status MEMORY_MODEL_STATUS_OK 0x4FFF] ∧
    ∃ s1 s2, memory_model_load_tlb (.cell small_fresh) 0x1234 0x4567 =
        some (MEMORY_MODEL_ERROR_OK, .cell s1) ∧
      memory_model_load_tlb (.cell small_fresh)
        (0x1234 &&& not_u64 small_fresh.page_offset_mask)
        (0x4567 &&& not_u64 small_fresh.page_offset_mask) =
          some (MEMORY_MODEL_ERROR_OK, .cell s2) ∧
      ∀ cs : List call, (∀ c ∈ cs, call_in_range c ∧ c.is_transaction = true) →
        ∃ os, observe_calls s1 cs = some os ∧ observe_calls s2 cs = some os :=
  ⟨small_fresh_reachable, by decide, by decide, by decide, by decide,
    page_bits_only small_fresh_reachable 0x1234 0x4567⟩

end MemoryModel
